import Mathlib

/-!
The xv6 lock lab: per-CPU page allocator (kernel/kalloc.c) and bucketed buffer cache
(kernel/bio.c).

Shallow embedding of the two C files and proofs about them.

Conventions of the embedding
* C pointers are modelled as values (`Nat` addresses for pages, `Ptr` for `struct buf *`),
  memory as functions from pointers to the object stored there.
* Spinlock `acquire`/`release` pairs only delimit critical sections; every function below is
  one sequential execution of the C function, so they leave no trace in the state.
* `cpuid()` and the calling process are inputs of the functions (`id`, `pid`).
* Loops whose termination is not syntactically evident carry a fuel argument; running out of
  fuel is reported as a separate outcome and is shown not to happen on well-formed states.
-/

namespace Xv6

/-- Point update of a table indexed by natural numbers. -/
def upd {α : Type} (f : Nat → α) (i : Nat) (v : α) : Nat → α :=
  fun j => if j = i then v else f j

/-! ## kernel/kalloc.c : definitions -/

/-- Page size in bytes (kalloc.c: "Allocates whole 4096-byte pages"). -/
def PGSIZE : Nat := 4096

/-- Number of values of a `uint64`. -/
def U64 : Nat := 18446744073709551616

/-- Constants that kalloc.c takes from headers and the linker script, which are not part of the
sources: `NCPU` (param.h), the address `end` of the first byte after the kernel (kernel.ld) and
`PHYSTOP` (memlayout.h). -/
structure KParams where
  NCPU : Nat
  kend : Nat
  PHYSTOP : Nat

/-- What the allocator stores in a page: the first machine word, which is `struct run`'s
`next` field, and the byte value filling the rest of the page. -/
structure PageMem where
  next : Nat
  junk : Nat
deriving DecidableEq, Repr

/-- State of the allocator: `kmem[i].freelist` for each CPU (0 is the null pointer) and the
physical memory, indexed by page address. -/
structure Kmem where
  freelist : Nat → Nat
  mem : Nat → PageMem

/-- Outcome of a `void` function of kalloc.c: normal return, `panic` (with the state at the
time of the panic), or a loop that did not finish within its fuel. -/
inductive KOut where
  | ok (s : Kmem)
  | panic (msg : String) (s : Kmem)
  | diverge

/-- `memset(pa, c, PGSIZE)`: every byte of the page becomes `c`, so the first word becomes
`c` repeated eight times. -/
def memset (m : Nat → PageMem) (pa : Nat) (c : Nat) : Nat → PageMem :=
  upd m pa { next := c * 72340172838076673, junk := c }

/-- `kfree(pa)` executed on the CPU whose `cpuid()` is `id`. -/
def kfree (c : KParams) (id : Nat) (s : Kmem) (pa : Nat) : KOut :=
  if pa % PGSIZE ≠ 0 ∨ pa < c.kend ∨ pa ≥ c.PHYSTOP then
    .panic "kfree" s
  else
    -- memset(pa, 1, PGSIZE);
    let s1 : Kmem := { s with mem := memset s.mem pa 1 }
    -- r->next = kmem[id].freelist;
    let s2 : Kmem := { s1 with mem := upd s1.mem pa { s1.mem pa with next := s1.freelist id } }
    -- kmem[id].freelist = r;
    .ok { s2 with freelist := upd s2.freelist id pa }

/-- The code after the label `kallocinit` in `kalloc`: `if(r) memset((char*)r, 5, PGSIZE);
return (void*)r;`. -/
def kallocinit (s : Kmem) (r : Nat) : Kmem × Nat :=
  if r ≠ 0 then ({ s with mem := memset s.mem r 5 }, r) else (s, r)

/-- The stealing loop of `kalloc`,
`for (int i=(id+1)%NCPU; i!=id; i=(i+1)%NCPU)`, entered with loop variable `i`.
The result is the state and the value of `r` at the label `kallocinit`; `none` means the
fuel ran out. -/
def kallocSteal (c : KParams) (id : Nat) : Nat → Nat → Kmem → Option (Kmem × Nat)
  | 0, _, _ => none
  | fuel + 1, i, s =>
    if i = id then
      -- loop exit: r is still 0
      some (s, 0)
    else
      let r := s.freelist i
      if r ≠ 0 then
        some ({ s with freelist := upd s.freelist i (s.mem r).next }, r)
      else
        kallocSteal c id fuel ((i + 1) % c.NCPU) s

/-- `kalloc()` executed on the CPU whose `cpuid()` is `id`. Returns the new state and the
returned pointer (0 when no page could be allocated). Memory is a total function of the
address, so `r->next` has a value for every `r`: the definition is the code on the states whose
free lists run through pages of the managed range, which are mapped; a load from another
address may fault on the machine. -/
def kalloc (c : KParams) (id : Nat) (s : Kmem) : Option (Kmem × Nat) :=
  let r := s.freelist id
  if r ≠ 0 then
    some (kallocinit { s with freelist := upd s.freelist id (s.mem r).next } r)
  else
    match kallocSteal c id c.NCPU ((id + 1) % c.NCPU) s with
    | some (s1, r1) => some (kallocinit s1 r1)
    | none => none

/-- Modelled from the spec: the macro `PGROUNDUP` of riscv.h, which is not part of the sources;
rounds a `uint64` up to the next multiple of the page size. -/
def PGROUNDUP (sz : Nat) : Nat :=
  ((sz + PGSIZE - 1) % U64) / PGSIZE * PGSIZE

/-- The loop of `freerange`, `for(; p + PGSIZE <= (char*)pa_end; p += PGSIZE) kfree(p);`. -/
def freerangeLoop (c : KParams) (id : Nat) (pa_end : Nat) : Nat → Nat → Kmem → KOut
  | 0, _, _ => .diverge
  | fuel + 1, p, s =>
    if (p + PGSIZE) % U64 ≤ pa_end then
      match kfree c id s p with
      | .ok s1 => freerangeLoop c id pa_end fuel ((p + PGSIZE) % U64) s1
      | o => o
    else
      .ok s

/-- `freerange(pa_start, pa_end)` executed on CPU `id`. -/
def freerange (c : KParams) (id : Nat) (s : Kmem) (pa_start pa_end : Nat) : KOut :=
  freerangeLoop c id pa_end (pa_end / PGSIZE + 1) (PGROUNDUP pa_start) s

/-- The allocator state before `kinit`: `kmem` is a zero-initialised global, the content of
physical memory is whatever it is (`m0`). -/
def kmemZero (m0 : Nat → PageMem) : Kmem :=
  { freelist := fun _ => 0, mem := m0 }

/-- `kinit()` executed on CPU `id` (lock initialisation only names the locks). -/
def kinit (c : KParams) (id : Nat) (m0 : Nat → PageMem) : KOut :=
  freerange c id (kmemZero m0) c.kend c.PHYSTOP

/-- The list of pages linked from pointer `p`: `l` lists the addresses met when following
`next` from `p` up to the null pointer. -/
def Chain (m : Nat → PageMem) : Nat → List Nat → Prop
  | p, [] => p = 0
  | p, a :: l => p = a ∧ a ≠ 0 ∧ Chain m (m a).next l

/-- Executable reading of a free list: follow `next` from `p` for at most `fuel` pages. -/
def walk (m : Nat → PageMem) : Nat → Nat → List Nat
  | 0, _ => []
  | fuel + 1, p => if p = 0 then [] else p :: walk m fuel (m p).next

/-- A well-formed allocator state: `L i` is the free list of pool `i`; the lists are
duplicate-free and pairwise disjoint. -/
structure KWf (c : KParams) (s : Kmem) (L : Nat → List Nat) : Prop where
  chain : ∀ i, i < c.NCPU → Chain s.mem (s.freelist i) (L i)
  nodup : ∀ i, i < c.NCPU → (L i).Nodup
  disj : ∀ i j, i < c.NCPU → j < c.NCPU → i ≠ j → ∀ a, a ∈ L i → a ∉ L j

/-- A page address accepted by the check at the start of `kfree`. -/
def validPage (c : KParams) (pa : Nat) : Prop :=
  pa % PGSIZE = 0 ∧ c.kend ≤ pa ∧ pa < c.PHYSTOP

/-- Total number of pages on the free lists of all pools. -/
def totalFree (c : KParams) (L : Nat → List Nat) : Nat :=
  ((List.range c.NCPU).map (fun i => (L i).length)).sum

/-- Assumptions on the platform constants: there is a CPU 0, the kernel image is not empty, and
the kernel and the managed range end more than a page before the top of the 64-bit address
space. -/
def KParams.Sane (c : KParams) : Prop :=
  0 < c.NCPU ∧ 0 < c.kend ∧ c.kend + 2 * PGSIZE ≤ U64 ∧ c.PHYSTOP + PGSIZE < U64

/-- Number of pages that `kinit` hands to the allocator. -/
def managedPages (c : KParams) : Nat :=
  (c.PHYSTOP - PGROUNDUP c.kend) / PGSIZE

/-- Allocator states reachable after `kinit` (run on CPU 0) by `kalloc` and `kfree` calls from
any CPUs, each `kfree` being given a page that is currently allocated. The second index is the
list of pages currently allocated (returned by `kalloc` and not yet freed). -/
inductive KReach (c : KParams) (m0 : Nat → PageMem) : Kmem → List Nat → Prop where
  | init (s : Kmem) : kinit c 0 m0 = .ok s → KReach c m0 s []
  | alloc (s s1 : Kmem) (A : List Nat) (id r : Nat) :
      KReach c m0 s A → id < c.NCPU → kalloc c id s = some (s1, r) →
      KReach c m0 s1 (if r = 0 then A else r :: A)
  | free (s s1 : Kmem) (A : List Nat) (id pa : Nat) :
      KReach c m0 s A → id < c.NCPU → pa ∈ A → kfree c id s pa = .ok s1 →
      KReach c m0 s1 (A.erase pa)

/-- The state `kfree` returns with, when the address passes the check. -/
def kfreeState (id : Nat) (s : Kmem) (pa : Nat) : Kmem :=
  { freelist := upd s.freelist id pa,
    mem := upd (memset s.mem pa 1) pa { next := s.freelist id, junk := 1 } }

/-- The state after popping the head of pool `i`: `kmem[i].freelist = r->next`. -/
def popState (s : Kmem) (i : Nat) : Kmem :=
  { s with freelist := upd s.freelist i (s.mem (s.freelist i)).next }

/-- The pages `p, p + PGSIZE, ..., p + (n-1) * PGSIZE`, highest address first. -/
def pagesDesc : Nat → Nat → List Nat
  | _, 0 => []
  | p, n + 1 => pagesDesc (p + PGSIZE) n ++ [p]

/-- The free lists right after `kinit` on CPU 0: pool 0 holds every managed page, highest
address first, the other pools are empty. -/
def initLists (c : KParams) : Nat → List Nat :=
  upd (fun _ => []) 0 (pagesDesc (PGROUNDUP c.kend) (managedPages c))

/-- The invariant of reachable allocator states: the pools are well-formed lists, the
allocated pages are distinct and on no free list, every page is a valid page, and the number of
free plus allocated pages is the number of managed pages. -/
def KInv (c : KParams) (s : Kmem) (A : List Nat) (L : Nat → List Nat) : Prop :=
  KWf c s L ∧ A.Nodup ∧ (∀ i, i < c.NCPU → ∀ a, a ∈ L i → a ∉ A) ∧
    (∀ a, a ∈ A → validPage c a) ∧ (∀ i, i < c.NCPU → ∀ a, a ∈ L i → validPage c a) ∧
    totalFree c L + A.length = managedPages c

/-- The state an outcome carries (the state before `kinit` when there is none). -/
def KOut.state : KOut → Kmem
  | .ok s => s
  | .panic _ s => s
  | .diverge => kmemZero (fun _ => { next := 0, junk := 0 })

/-- A small machine: 2 CPUs, kernel ending at 0x1000, three managed pages 0x1000, 0x2000 and
0x3000. -/
def exK : KParams := { NCPU := 2, kend := 4096, PHYSTOP := 16384 }

/-- Memory of the small machine before `kinit`: all zero. -/
def exM : Nat → PageMem := fun _ => { next := 0, junk := 0 }

/-- The small machine after `kinit` on CPU 0: pool 0 holds 0x3000, 0x2000, 0x1000. -/
def exK0 : Kmem := (kinit exK 0 exM).state

/-- The small machine after `kinit` and one `kalloc` on CPU 1. -/
def exK1 : Kmem := match kalloc exK 1 exK0 with
  | some (s, _) => s
  | none => exK0

/-- Whether an outcome is a panic. -/
def KOut.isPanic : KOut → Bool
  | .panic _ _ => true
  | _ => false

/-- Whether an outcome is a normal return. -/
def KOut.isOk : KOut → Bool
  | .ok _ => true
  | _ => false

/-- Whether `l` is the chain from `p` can be computed. -/
instance Chain.dec (m : Nat → PageMem) : ∀ (l : List Nat) (p : Nat), Decidable (Chain m p l)
  | [], p => inferInstanceAs (Decidable (p = 0))
  | a :: l, p =>
    have := Chain.dec m l (m a).next
    inferInstanceAs (Decidable (p = a ∧ a ≠ 0 ∧ Chain m (m a).next l))

/-- The pages `p, p + PGSIZE, ..., p + (n-1) * PGSIZE`, lowest address first: the order in
which `freerange` passes them to `kfree`. -/
def pagesAsc : Nat → Nat → List Nat
  | _, 0 => []
  | p, n + 1 => p :: pagesAsc (p + PGSIZE) n

/-! ## kernel/bio.c : definitions -/

/-- Constants of bio.c: `NBUF` comes from param.h, which is not part of the sources; `NBUCKET`
is 13 in bio.c and is kept as a parameter, the properties being stated for any number of
buckets. -/
structure BParams where
  NBUF : Nat
  NBUCKET : Nat

/-- The values of a `struct buf *` that bio.c handles: the null pointer, `&bcache.head[i]` and
`&bcache.buf[b]`. -/
inductive Ptr where
  | null
  | head (i : Nat)
  | buf (b : Nat)
deriving DecidableEq, Repr

/-- Modelled from the spec: `struct buf` of buf.h, which is not part of the sources. The fields
are those bio.c uses: the identity `dev`/`blockno`, `valid`, the count `refcnt` of holders, the
list links `prev`/`next`, the payload `data`, and the sleep lock, of which only the holder is
kept (`none` when the lock is free). `refcnt` is the count of the spec, a natural number:
`refcnt++` adds 1 (the wrap of the `uint` field at 2^32 references is not modelled), and
`refcnt--` is `refDec`. -/
structure Buf where
  valid : Nat
  dev : Nat
  blockno : Nat
  lock : Option Nat
  refcnt : Nat
  prev : Ptr
  next : Ptr
  data : List Nat

/-- A zero-initialised `struct buf`. -/
def zeroBuf : Buf :=
  { valid := 0, dev := 0, blockno := 0, lock := none, refcnt := 0, prev := .null, next := .null,
    data := [] }

/-- State of the buffer cache, `bcache.buf[]` and `bcache.head[]`, together with the block
device behind it: the content of every block and the number of read and write requests made
through `virtio_disk_rw`. -/
structure Bio where
  buf : Nat → Buf
  head : Nat → Buf
  disk : Nat → Nat → List Nat
  reads : Nat
  writes : Nat

/-- Dereference of a `struct buf *`. No function below dereferences the null pointer on a
well-formed cache; reading through it is given the value of a zeroed struct. -/
def Bio.get (s : Bio) : Ptr → Buf
  | .null => zeroBuf
  | .head i => s.head i
  | .buf b => s.buf b

/-- Store through a `struct buf *` (a store through the null pointer is dropped). -/
def Bio.set (s : Bio) (p : Ptr) (v : Buf) : Bio :=
  match p with
  | .null => s
  | .head i => { s with head := upd s.head i v }
  | .buf b => { s with buf := upd s.buf b v }

/-- The state before `binit`: `bcache` is a zero-initialised global. -/
def bioZero (d : Nat → Nat → List Nat) : Bio :=
  { buf := fun _ => zeroBuf, head := fun _ => zeroBuf, disk := d, reads := 0, writes := 0 }

/-- Body of the first loop of `binit` for bucket `i` (the lock name is not modelled):
`bcache.head[i].prev = &bcache.head[i]; bcache.head[i].next = &bcache.head[i];`. -/
def binitHead (s : Bio) (i : Nat) : Bio :=
  let s := s.set (.head i) { s.get (.head i) with prev := .head i }
  s.set (.head i) { s.get (.head i) with next := .head i }

/-- Body of the second loop of `binit` for buffer `b`: link `b` in front of bucket 0. -/
def binitBuf (s : Bio) (b : Nat) : Bio :=
  -- b->next = bcache.head[0].next;
  let s := s.set (.buf b) { s.get (.buf b) with next := (s.head 0).next }
  -- b->prev = &bcache.head[0];
  let s := s.set (.buf b) { s.get (.buf b) with prev := .head 0 }
  -- initsleeplock(&b->lock, "buffer");
  let s := s.set (.buf b) { s.get (.buf b) with lock := none }
  -- bcache.head[0].next->prev = b;
  let s := s.set (s.head 0).next { s.get (s.head 0).next with prev := .buf b }
  -- bcache.head[0].next = b;
  s.set (.head 0) { s.get (.head 0) with next := .buf b }

/-- `binit()`. -/
def binit (c : BParams) (s : Bio) : Bio :=
  (List.range c.NBUF).foldl binitBuf ((List.range c.NBUCKET).foldl binitHead s)

/-- Result of one of the list scans of `bget`. -/
inductive Scan where
  | found (b : Ptr)
  | notFound
  | fuel
deriving DecidableEq, Repr

/-- The loop `for (b = start; b != stop; b = b->next) if (pred(b)) <leave with b>`. -/
def scan (s : Bio) (pred : Buf → Bool) (stop : Ptr) : Nat → Ptr → Scan
  | 0, _ => .fuel
  | fuel + 1, b =>
    if b = stop then .notFound
    else if pred (s.get b) then .found b
    else scan s pred stop fuel (s.get b).next

/-- Outcome of a function of bio.c: it returns, or the caller is suspended in
`acquiresleep(&b->lock)`, or the kernel panics, or a loop does not finish within its fuel. -/
inductive Out (α : Type) where
  | ret (s : Bio) (a : α)
  | sleep (s : Bio) (b : Ptr)
  | panic (msg : String) (s : Bio)
  | diverge

/-- Modelled from the spec: `acquiresleep(&b->lock)` of sleeplock.c, which is not part of the
sources, followed by `return b`. The caller `pid` gets the lock when it is free and is suspended
otherwise. -/
def acquiresleep (pid : Nat) (s : Bio) (b : Ptr) : Out Ptr :=
  match (s.get b).lock with
  | none => .ret (s.set b { s.get b with lock := some pid }) b
  | some _ => .sleep s b

/-- Modelled from the spec: `holdingsleep(&b->lock)` of sleeplock.c, which is not part of the
sources: whether the calling process holds the lock. -/
def holdingsleep (pid : Nat) (s : Bio) (b : Ptr) : Bool :=
  (s.get b).lock == some pid

/-- Modelled from the spec: `releasesleep(&b->lock)` of sleeplock.c, which is not part of the
sources. -/
def releasesleep (s : Bio) (b : Ptr) : Bio :=
  s.set b { s.get b with lock := none }

/-- The test `b->dev == dev && b->blockno == blockno` of the first loop of `bget`. -/
def isCached (dev blockno : Nat) (x : Buf) : Bool :=
  x.dev == dev && x.blockno == blockno

/-- The test `b->refcnt==0` of the second and third loops of `bget`. -/
def isIdle (x : Buf) : Bool :=
  x.refcnt == 0

/-- The assignments `b->dev = dev; b->blockno = blockno; b->valid = 0; b->refcnt = 1;`. -/
def assign (s : Bio) (b : Ptr) (dev blockno : Nat) : Bio :=
  s.set b { s.get b with dev := dev, blockno := blockno, valid := 0, refcnt := 1 }

/-- The assignments `b->next->prev = b->prev; b->prev->next = b->next;`. -/
def unlink (s : Bio) (b : Ptr) : Bio :=
  let s := s.set (s.get b).next { s.get (s.get b).next with prev := (s.get b).prev }
  s.set (s.get b).prev { s.get (s.get b).prev with next := (s.get b).next }

/-- The assignments `b->next = bcache.head[index].next; b->prev = &bcache.head[index];
bcache.head[index].next->prev = b; bcache.head[index].next = b;`. -/
def pushFront (s : Bio) (index : Nat) (b : Ptr) : Bio :=
  let s := s.set b { s.get b with next := (s.head index).next }
  let s := s.set b { s.get b with prev := .head index }
  let s := s.set (s.head index).next { s.get (s.head index).next with prev := b }
  s.set (.head index) { s.get (.head index) with next := b }

/-- The third loop of `bget`, `for (int i=(index+1)%NBUCKET; i!=index; i=(i+1)%NBUCKET)`,
entered with loop variable `i`, and the `panic` that follows it. -/
def bgetSteal (c : BParams) (pid dev blockno index : Nat) : Nat → Nat → Bio → Out Ptr
  | 0, _, _ => .diverge
  | fuel + 1, i, s =>
    if i = index then
      .panic "bget: no buffers" s
    else
      match scan s isIdle (.head i) (c.NBUF + 1) (s.head i).next with
      | .fuel => .diverge
      | .found b =>
        acquiresleep pid (pushFront (unlink (assign s b dev blockno) b) index b) b
      | .notFound => bgetSteal c pid dev blockno index fuel ((i + 1) % c.NBUCKET) s

/-- `bget(dev, blockno)` called by process `pid`. -/
def bget (c : BParams) (pid : Nat) (s : Bio) (dev blockno : Nat) : Out Ptr :=
  let index := blockno % c.NBUCKET
  -- Is the block already cached?
  match scan s (isCached dev blockno) (.head index) (c.NBUF + 1) (s.head index).next with
  | .fuel => .diverge
  | .found b =>
    acquiresleep pid (s.set b { s.get b with refcnt := (s.get b).refcnt + 1 }) b
  | .notFound =>
    -- Not cached: current index's list
    match scan s isIdle (.head index) (c.NBUF + 1) (s.head index).next with
    | .fuel => .diverge
    | .found b => acquiresleep pid (assign s b dev blockno) b
    | .notFound =>
      -- other's list
      bgetSteal c pid dev blockno index c.NBUCKET ((index + 1) % c.NBUCKET) s

/-- Modelled from the spec: `virtio_disk_rw(b, 0)` of virtio_disk.c, which is not part of the
sources: a synchronous read of block `(b->dev, b->blockno)` into the payload of `b`. -/
def diskRead (s : Bio) (b : Ptr) : Bio :=
  let s1 := s.set b { s.get b with data := s.disk (s.get b).dev (s.get b).blockno }
  { s1 with reads := s1.reads + 1 }

/-- Modelled from the spec: `virtio_disk_rw(b, 1)` of virtio_disk.c, which is not part of the
sources: a synchronous write of the payload of `b` to block `(b->dev, b->blockno)`. -/
def diskWrite (s : Bio) (b : Ptr) : Bio :=
  { s with
    disk := fun d n =>
      if d = (s.get b).dev ∧ n = (s.get b).blockno then (s.get b).data else s.disk d n,
    writes := s.writes + 1 }

/-- The part of `bread` after `bget` has returned `b`:
`if(!b->valid) { virtio_disk_rw(b, 0); b->valid = 1; } return b;`. -/
def breadFill (s : Bio) (b : Ptr) : Bio :=
  if (s.get b).valid = 0 then
    let s1 := diskRead s b
    s1.set b { s1.get b with valid := 1 }
  else s

/-- `bread(dev, blockno)` called by process `pid`. -/
def bread (c : BParams) (pid : Nat) (s : Bio) (dev blockno : Nat) : Out Ptr :=
  match bget c pid s dev blockno with
  | .ret s1 b => .ret (breadFill s1 b) b
  | o => o

/-- `bwrite(b)` called by process `pid`. -/
def bwrite (pid : Nat) (s : Bio) (b : Ptr) : Out Unit :=
  if !holdingsleep pid s b then .panic "bwrite" s
  else .ret (diskWrite s b) ()

/-- `refcnt--`. The field is declared in buf.h, which is not part of the sources; it is the
`uint` of xv6, so decrementing 0 gives 4294967295. bio.c never tests `refcnt` before it
decrements it. -/
def refDec (n : Nat) : Nat :=
  if n = 0 then 4294967295 else n - 1

/-- `brelse(b)` called by process `pid`; `index = b->blockno % NBUCKET` only selects the bucket
lock taken around `b->refcnt--`. -/
def brelse (pid : Nat) (s : Bio) (b : Ptr) : Out Unit :=
  if !holdingsleep pid s b then .panic "brelse" s
  else
    let s1 := releasesleep s b
    .ret (s1.set b { s1.get b with refcnt := refDec (s1.get b).refcnt }) ()

/-- `bpin(b)`. -/
def bpin (s : Bio) (b : Ptr) : Bio :=
  s.set b { s.get b with refcnt := (s.get b).refcnt + 1 }

/-- `bunpin(b)`. -/
def bunpin (s : Bio) (b : Ptr) : Bio :=
  s.set b { s.get b with refcnt := refDec (s.get b).refcnt }

/-- Link structure of one bucket: starting at node `pv`, following `nx` visits exactly the
buffers of `l` in order and then reaches `stop`, and `pr` leads back step by step. -/
def DLL (nx pr : Ptr → Ptr) (stop : Ptr) : Ptr → List Nat → Prop
  | pv, [] => nx pv = stop ∧ pr stop = pv
  | pv, b :: l => nx pv = .buf b ∧ pr (.buf b) = pv ∧ DLL nx pr stop (.buf b) l

/-- The `next` links of a state. -/
def Bio.nx (s : Bio) (p : Ptr) : Ptr := (s.get p).next

/-- The `prev` links of a state. -/
def Bio.pr (s : Bio) (p : Ptr) : Ptr := (s.get p).prev

/-- A well-formed cache: `L i` is the list of bucket `i`, from `head[i].next` on; the links of
every bucket form a circular doubly linked list through `head[i]`; every buffer of the array is
linked exactly once, in the bucket its block number hashes to. -/
structure BWf (c : BParams) (s : Bio) (L : Nat → List Nat) : Prop where
  dll : ∀ i, i < c.NBUCKET → DLL s.nx s.pr (.head i) (.head i) (L i)
  nodup : ∀ i, i < c.NBUCKET → (L i).Nodup
  mem_iff : ∀ i, i < c.NBUCKET → ∀ b, b ∈ L i ↔ (b < c.NBUF ∧ (s.buf b).blockno % c.NBUCKET = i)

/-- Every buffer with `refcnt > 0` is the first buffer of its bucket that carries its
identity. -/
def BHeld (c : BParams) (s : Bio) (L : Nat → List Nat) : Prop :=
  ∀ b, b < c.NBUF → 0 < (s.buf b).refcnt →
    (L ((s.buf b).blockno % c.NBUCKET)).find?
      (fun k => isCached (s.buf b).dev (s.buf b).blockno (s.buf k)) = some b

/-- A buffer whose sleep lock is held has `refcnt > 0`. -/
def BLock (c : BParams) (s : Bio) : Prop :=
  ∀ b, b < c.NBUF → (s.buf b).lock ≠ none → 0 < (s.buf b).refcnt

/-- The invariant of reachable cache states. -/
def BInv (c : BParams) (s : Bio) (L : Nat → List Nat) : Prop :=
  BWf c s L ∧ BHeld c s L ∧ BLock c s

/-- Cache states reachable from `binit` by `bget`, `bread` and `brelse` calls of any processes,
each `brelse` on a buffer whose sleep lock the caller holds. A call in which the caller is
suspended in `acquiresleep` also leaves a reachable state. -/
inductive BReach (c : BParams) (d : Nat → Nat → List Nat) : Bio → Prop where
  | init : BReach c d (binit c (bioZero d))
  | bget (s s1 : Bio) (pid dev blockno : Nat) (b : Ptr) :
      BReach c d s →
      (bget c pid s dev blockno = .ret s1 b ∨ bget c pid s dev blockno = .sleep s1 b) →
      BReach c d s1
  | bread (s s1 : Bio) (pid dev blockno : Nat) (b : Ptr) :
      BReach c d s →
      (bread c pid s dev blockno = .ret s1 b ∨ bread c pid s dev blockno = .sleep s1 b) →
      BReach c d s1
  | brelse (s s1 : Bio) (pid b : Nat) :
      BReach c d s → b < c.NBUF → holdingsleep pid s (.buf b) = true →
      brelse pid s (.buf b) = .ret s1 () → BReach c d s1

/-- The links of every bucket form the circular list `L i`. -/
def BLinks (c : BParams) (s : Bio) (L : Nat → List Nat) : Prop :=
  ∀ i, i < c.NBUCKET → DLL s.nx s.pr (.head i) (.head i) (L i)

/-- The bucket lists are pairwise disjoint. -/
def BDisj (c : BParams) (L : Nat → List Nat) : Prop :=
  ∀ i j, i < c.NBUCKET → j < c.NBUCKET → i ≠ j → ∀ x, x ∈ L i → x ∉ L j

/-- Two `struct buf` values that differ at most in their list links. -/
def Buf.same (x y : Buf) : Prop :=
  x.valid = y.valid ∧ x.dev = y.dev ∧ x.blockno = y.blockno ∧ x.lock = y.lock ∧
    x.refcnt = y.refcnt ∧ x.data = y.data

/-- The state of a cache hit on buffer `k` before the sleep lock is taken: `b->refcnt++`. -/
def hitState (s : Bio) (k : Nat) : Bio :=
  s.set (.buf k) { s.get (.buf k) with refcnt := (s.get (.buf k)).refcnt + 1 }

/-- The state after stealing buffer `k` into bucket `h`, before the sleep lock is taken. -/
def stealState (s : Bio) (h k dev blockno : Nat) : Bio :=
  pushFront (unlink (assign s (.buf k) dev blockno) (.buf k)) h (.buf k)

/-- The bucket lists after buffer `k` moved from bucket `i` to the front of bucket `h`. -/
def stealLists (L : Nat → List Nat) (i h k : Nat) : Nat → List Nat :=
  upd (upd L i ((L i).erase k)) h (k :: L h)

/-- The state after process `pid` took the free sleep lock of buffer `k`. -/
def lockState (pid : Nat) (s : Bio) (k : Nat) : Bio :=
  s.set (.buf k) { s.get (.buf k) with lock := some pid }

/-- The numbers `n-1, ..., 1, 0`. -/
def descList : Nat → List Nat
  | 0 => []
  | n + 1 => n :: descList n

/-- The bucket lists right after `binit`: every buffer is in bucket 0, the last buffer of the
array first. -/
def binitLists (c : BParams) : Nat → List Nat :=
  upd (fun _ => []) 0 (descList c.NBUF)

/-- All data fields of a buffer are those of a zeroed struct. -/
def Buf.zeroData (x : Buf) : Prop :=
  x.valid = 0 ∧ x.dev = 0 ∧ x.blockno = 0 ∧ x.lock = none ∧ x.refcnt = 0

/-- The buffer value `bread` leaves in the buffer it got from `bget`. -/
def filled (s : Bio) (k : Nat) : Buf :=
  if (s.buf k).valid = 0 then
    { s.buf k with data := s.disk (s.buf k).dev (s.buf k).blockno, valid := 1 }
  else s.buf k

/-- Whether an outcome is a panic. -/
def Out.isPanic {α : Type} : Out α → Bool
  | .panic _ _ => true
  | _ => false

/-- The state an outcome carries (`t` when the loop did not finish). -/
def Out.state {α : Type} (t : Bio) : Out α → Bio
  | .ret s _ => s
  | .sleep s _ => s
  | .panic _ s => s
  | .diverge => t

/-- A small cache: 4 buffers, 2 buckets. -/
def exB : BParams := { NBUF := 4, NBUCKET := 2 }

/-- An empty disk. -/
def exD : Nat → Nat → List Nat := fun _ _ => []

/-- The small cache after `binit`. -/
def exB0 : Bio := binit exB (bioZero exD)

/-- The small cache after process 1 acquired D0 = (dev 1, block 0) with `bread`. -/
def exB1 : Bio := (bread exB 1 exB0 1 0).state exB0

/-- Then process 2 acquired D1 = (dev 1, block 2). -/
def exB2 : Bio := (bread exB 2 exB1 1 2).state exB1

/-- Then process 3 acquired D2 = (dev 1, block 1). -/
def exB3 : Bio := (bread exB 3 exB2 1 1).state exB2

/-- Then process 4 acquired D3 = (dev 1, block 3): all four buffers are held. -/
def exB4 : Bio := (bread exB 4 exB3 1 3).state exB3

/-- Then process 1 released D0. -/
def exB5 : Bio := (brelse 1 exB4 (.buf 3)).state exB4

/-- The small cache after process 1 acquired D0 and released it again. -/
def exB1r : Bio := (brelse 1 exB1 (.buf 3)).state exB1

/-- Buffer `b` is the first buffer of its bucket's list that carries its identity. -/
def FirstOf (c : BParams) (s : Bio) (L : Nat → List Nat) (b : Nat) : Prop :=
  (L ((s.buf b).blockno % c.NBUCKET)).find?
    (fun k => isCached (s.buf b).dev (s.buf b).blockno (s.buf k)) = some b

/-- Every buffer with `valid != 0` is the first buffer of its bucket that carries its
identity. -/
def BValid (c : BParams) (s : Bio) (L : Nat → List Nat) : Prop :=
  ∀ b, b < c.NBUF → (s.buf b).valid ≠ 0 → FirstOf c s L b

/-- Two distinct buffers carry the same identity only when it is the identity `(0, 0)` of a
zero-initialised `struct buf`. -/
def BUniq (c : BParams) (s : Bio) : Prop :=
  ∀ a b, a < c.NBUF → b < c.NBUF → a ≠ b → (s.buf a).dev = (s.buf b).dev →
    (s.buf a).blockno = (s.buf b).blockno → (s.buf a).dev = 0 ∧ (s.buf a).blockno = 0

/-- The invariant of the cache states reached under the reference discipline (`BRun`). -/
def BAll (c : BParams) (s : Bio) (L : Nat → List Nat) : Prop :=
  BInv c s L ∧ BValid c s L ∧ BUniq c s

/-- A call into bio.c, or a store by the lock holder into the payload of a buffer (`poke`). -/
inductive Op where
  | bget (pid dev blockno : Nat)
  | bread (pid dev blockno : Nat)
  | brelse (pid b : Nat)
  | bwrite (pid b : Nat)
  | bpin (b : Nat)
  | bunpin (b : Nat)
  | poke (pid b : Nat) (data : List Nat)
deriving DecidableEq, Repr

/-- The state in which the system goes on after a call: the call returned, or its caller is
suspended in `acquiresleep`. After a panic or a loop that does not end there is none. -/
def Out.next {α : Type} : Out α → Option Bio
  | .ret s _ => some s
  | .sleep s _ => some s
  | _ => none

/-- One step of the system: a call into bio.c on a buffer of the array, whatever its `refcnt`
and whoever holds its lock (`brelse` and `bwrite` panic when the caller does not hold it; `bpin`
and `bunpin` check nothing), or a store into the payload by the holder of the sleep lock. -/
def Op.step (c : BParams) (s : Bio) : Op → Option Bio
  | .bget pid dev blockno => (Xv6.bget c pid s dev blockno).next
  | .bread pid dev blockno => (Xv6.bread c pid s dev blockno).next
  | .brelse pid b => if b < c.NBUF then (Xv6.brelse pid s (.buf b)).next else none
  | .bwrite pid b => if b < c.NBUF then (Xv6.bwrite pid s (.buf b)).next else none
  | .bpin b => if b < c.NBUF then some (Xv6.bpin s (.buf b)) else none
  | .bunpin b => if b < c.NBUF then some (Xv6.bunpin s (.buf b)) else none
  | .poke pid b data =>
    if b < c.NBUF ∧ holdingsleep pid s (.buf b) = true then
      some (s.set (.buf b) { s.buf b with data := data })
    else none

/-- A sequence of steps. -/
def run (c : BParams) : List Op → Bio → Option Bio
  | [], s => some s
  | op :: ops, s =>
    match op.step c s with
    | some s1 => run c ops s1
    | none => none

/-- The reference discipline that the callers of bio.c keep and bio.c does not check: `bpin`
is called on a buffer that has a reference (the caller holds it), and `bunpin` takes back a
reference added by `bpin`, so it leaves the reference of the lock holder in place. -/
def Op.counted (s : Bio) : Op → Bool
  | .bpin b => decide (0 < (s.buf b).refcnt)
  | .bunpin b => decide ((if (s.buf b).lock = none then 0 else 1) < (s.buf b).refcnt)
  | _ => true

/-- Every step of the run of `ops` from `s` keeps the reference discipline. -/
def countedRun (c : BParams) : List Op → Bio → Bool
  | [], _ => true
  | op :: ops, s =>
    op.counted s &&
      match op.step c s with
      | some s1 => countedRun c ops s1
      | none => true

/-- Cache states reachable from `binit` by any calls: `bget`, `bread`, `brelse`, `bwrite`,
`bpin`, `bunpin` on any buffers, and stores into held buffers. -/
def BAny (c : BParams) (d : Nat → Nat → List Nat) (s : Bio) : Prop :=
  ∃ ops, run c ops (binit c (bioZero d)) = some s

/-- Cache states reachable from `binit` by calls that keep the reference discipline
(`countedRun`): `bget`, `bread`, `brelse`, `bwrite`, stores into held buffers, `bpin` on
referenced buffers and `bunpin` of pins. -/
def BRun (c : BParams) (d : Nat → Nat → List Nat) (s : Bio) : Prop :=
  ∃ ops, countedRun c ops (binit c (bioZero d)) = true ∧
    run c ops (binit c (bioZero d)) = some s

/-- The value a call returned with, if it returned. -/
def Out.val {α : Type} : Out α → Option α
  | .ret _ a => some a
  | _ => none

/-- The calls that lead from `binit` to `exB5`. -/
def exOps5 : List Op :=
  [.bread 1 1 0, .bread 2 1 2, .bread 3 1 1, .bread 4 1 3, .brelse 1 3]

/-- A run with a pinned buffer: process 1 acquires D0, pins it and releases it; process 2
acquires D2; the pin is taken back. -/
def exOpsP : List Op :=
  [.bread 1 1 0, .bpin 3, .brelse 1 3, .bread 2 1 1, .bunpin 3]

/-- The small cache after the run `exOpsP`. -/
def exBP : Bio := (run exB exOpsP exB0).getD exB0

/-- The small cache `exB2` after process 3 asked for D2 = (dev 1, block 1) with `bget`. -/
def exB2g : Bio := (bget exB 3 exB2 1 1).state exB2

/-- The small cache `exB5` after process 5 asked for D4 = (dev 1, block 4) with `bget`. -/
def exB5g : Bio := (bget exB 5 exB5 1 4).state exB5

/-- Whether the call is a `bwrite` of a buffer that carries identity `(dev, blockno)` in
state `s`: a write of that block to the device. -/
def Op.writesTo (s : Bio) (dev blockno : Nat) : Op → Bool
  | .bwrite _ b => isCached dev blockno (s.buf b)
  | _ => false

/-- Whether the call asks for the buffer of identity `(dev, blockno)`. -/
def Op.acquires (dev blockno : Nat) : Op → Bool
  | .bget _ d n => d == dev && n == blockno
  | .bread _ d n => d == dev && n == blockno
  | _ => false

/-- No step of the run of `ops` from `s` writes block `(dev, blockno)` to the device. -/
def quietRun (c : BParams) (dev blockno : Nat) : List Op → Bio → Bool
  | [], _ => true
  | op :: ops, s =>
    !op.writesTo s dev blockno &&
      match op.step c s with
      | some s1 => quietRun c dev blockno ops s1
      | none => true

/-- No buffer caches identity `(dev, blockno)`: a buffer that still carries it is idle and
not valid. -/
def Uncached (c : BParams) (s : Bio) (dev blockno : Nat) : Prop :=
  ∀ x, x < c.NBUF → (s.buf x).dev = dev → (s.buf x).blockno = blockno →
    (s.buf x).refcnt = 0 ∧ (s.buf x).valid = 0

/-- A round trip on the small cache: process 1 acquires D0 = (dev 1, block 0) in buffer 3 and
stores the payload `[7]` into it. -/
def exR0 : Bio := (run exB [.bread 1 1 0, .poke 1 3 [7]] exB0).getD exB0

/-- Then process 1 writes the buffer to the device. -/
def exR1 : Bio := (bwrite 1 exR0 (.buf 3)).state exR0

/-- Then process 1 releases the buffer. -/
def exR2 : Bio := (brelse 1 exR1 (.buf 3)).state exR1

/-- Process 2 acquires D0 again, overwrites the payload without writing it, and releases. -/
def exOpsA : List Op := [.bread 2 1 0, .poke 2 3 [9], .brelse 2 3]

/-- The small cache after `exOpsA`. -/
def exR3 : Bio := (run exB exOpsA exR2).getD exR2

/-- Process 3 acquires D1 = (dev 1, block 2), which evicts D0 from buffer 3. -/
def exEv : Op := .bread 3 1 2

/-- The small cache after the eviction. -/
def exR4 : Bio := (exEv.step exB exR3).getD exR3

/-- Process 4 acquires D2 = (dev 1, block 1) in buffer 2, stores into it and writes it;
process 3 releases buffer 3. -/
def exOpsB : List Op := [.bread 4 1 1, .poke 4 2 [5], .bwrite 4 2, .brelse 3 3]

/-- The small cache after `exOpsB`. -/
def exR5 : Bio := (run exB exOpsB exR4).getD exR4

/-- The small cache after process 5 acquired D0 again. -/
def exR6 : Bio := (bread exB 5 exR5 1 0).state exR5

/-- The part of the invariant that holds whatever the reference counts are: well-formed
lists, every valid buffer the first of its identity, identities shared only at `(0, 0)`. -/
def BCore (c : BParams) (s : Bio) (L : Nat → List Nat) : Prop :=
  BWf c s L ∧ BValid c s L ∧ BUniq c s

/-- Process 1 acquires D0 in buffer 3, and `bunpin` is called on the buffer although it was
not pinned. -/
def exOpsW : List Op := [.bread 1 1 0, .bunpin 3]

/-- The small cache after `exOpsW`: buffer 3 is held by process 1 and has `refcnt` 0. -/
def exW : Bio := (run exB exOpsW exB0).getD exB0

/-- Then process 1 releases buffer 3. -/
def exW1 : Bio := (brelse 1 exW (.buf 3)).state exW

/-- Calls outside the reference discipline: `bpin` on the unreferenced buffers 0 and 1, then
process 1 acquires block `(0, 0)` with `bread`, which hits buffer 3. -/
def exOpsZ : List Op := [.bpin 0, .bpin 1, .bread 1 0 0]

/-- The small cache after `exOpsZ`. -/
def exZ : Bio := (run exB exOpsZ exB0).getD exB0

/-! ## kernel/kalloc.c : lemmas -/

@[simp] theorem upd_same {α : Type} (f : Nat → α) (i : Nat) (v : α) : upd f i v i = v := by
  simp [upd]

theorem upd_other {α : Type} (f : Nat → α) (i j : Nat) (v : α) (h : j ≠ i) :
    upd f i v j = f j := by
  simp [upd, h]

theorem upd_apply {α : Type} (f : Nat → α) (i j : Nat) (v : α) :
    upd f i v j = if j = i then v else f j := rfl

/-- A chain only depends on the `next` words of the pages on it. -/
theorem Chain.frame_next {m m1 : Nat → PageMem} :
    ∀ (l : List Nat) (p : Nat), Chain m p l → (∀ a, a ∈ l → (m1 a).next = (m a).next) →
      Chain m1 p l
  | [], _, h, _ => h
  | a :: l, p, h, hf => by
    obtain ⟨h1, h2, h3⟩ := h
    refine ⟨h1, h2, ?_⟩
    rw [hf a (List.mem_cons_self a l)]
    exact Chain.frame_next l _ h3 (fun b hb => hf b (List.mem_cons_of_mem a hb))

theorem Chain.zero_not_mem {m : Nat → PageMem} :
    ∀ (l : List Nat) (p : Nat), Chain m p l → 0 ∉ l
  | [], _, _ => by simp
  | a :: l, p, h => by
    obtain ⟨_, h2, h3⟩ := h
    intro hm
    rcases List.mem_cons.1 hm with h0 | h0
    · exact h2 h0.symm
    · exact Chain.zero_not_mem l _ h3 h0

/-- The list read off a chain is determined by its first pointer. -/
theorem Chain.unique {m : Nat → PageMem} :
    ∀ (l l1 : List Nat) (p : Nat), Chain m p l → Chain m p l1 → l = l1
  | [], [], _, _, _ => rfl
  | [], b :: l1, p, h, h1 => by
    obtain ⟨e, hb, _⟩ := h1
    exact absurd (e.symm.trans h) hb
  | a :: l, [], p, h, h1 => by
    obtain ⟨e, ha, _⟩ := h
    exact absurd (e.symm.trans h1) ha
  | a :: l, b :: l1, p, h, h1 => by
    obtain ⟨e, _, h3⟩ := h
    obtain ⟨e1, _, h4⟩ := h1
    have hab : a = b := e.symm.trans e1
    subst hab
    rw [Chain.unique l l1 _ h3 h4]

theorem Chain.walk_eq {m : Nat → PageMem} :
    ∀ (l : List Nat) (p fuel : Nat), Chain m p l → l.length ≤ fuel → walk m fuel p = l
  | [], p, fuel, h, _ => by
    cases fuel with
    | zero => rfl
    | succ n => simp [walk, show p = 0 from h]
  | a :: l, p, fuel, h, hl => by
    obtain ⟨e, ha, h3⟩ := h
    cases fuel with
    | zero => simp at hl
    | succ n =>
      subst e
      simp only [walk, if_neg ha]
      rw [Chain.walk_eq l _ n h3 (by simpa using hl)]

theorem kfree_panic_iff (c : KParams) (id : Nat) (s : Kmem) (pa : Nat) :
    kfree c id s pa = .panic "kfree" s ↔ ¬ validPage c pa := by
  unfold kfree validPage
  by_cases h : pa % PGSIZE ≠ 0 ∨ pa < c.kend ∨ pa ≥ c.PHYSTOP
  · rw [if_pos h]
    simp only [true_iff]
    intro h1
    omega
  · rw [if_neg h]
    simp only [false_iff, not_not]
    simp only [reduceCtorEq, false_iff, not_not]
    omega

theorem kfree_ok (c : KParams) (id : Nat) (s : Kmem) (pa : Nat) (h : validPage c pa) :
    kfree c id s pa = .ok (kfreeState id s pa) := by
  unfold kfree validPage at *
  rw [if_neg (by omega)]
  simp [kfreeState, memset]

theorem kfree_ok_inv (c : KParams) (id : Nat) (s s1 : Kmem) (pa : Nat)
    (h : kfree c id s pa = .ok s1) : validPage c pa ∧ s1 = kfreeState id s pa := by
  by_cases hv : validPage c pa
  · rw [kfree_ok c id s pa hv] at h
    injection h with h
    exact ⟨hv, h.symm⟩
  · rw [(kfree_panic_iff c id s pa).2 hv] at h
    cases h

/-! ### Circular scan order `id, id+1, ..., id-1 (mod n)` -/

theorem mod_off_ne {n id k : Nat} (hid : id < n) (h0 : 0 < k) (hk : k < n) :
    (id + k) % n ≠ id := by
  by_cases h : id + k < n
  · rw [Nat.mod_eq_of_lt h]; omega
  · rw [Nat.mod_eq_sub_mod (by omega), Nat.mod_eq_of_lt (by omega)]; omega

theorem mod_off_full {n id : Nat} (hid : id < n) : (id + n) % n = id := by
  rw [Nat.add_mod_right, Nat.mod_eq_of_lt hid]

theorem mod_off_succ (n id k : Nat) : ((id + k) % n + 1) % n = (id + (k + 1)) % n := by
  rw [Nat.mod_add_mod, Nat.add_assoc]

theorem mod_off_surj {n id i : Nat} (hid : id < n) (hi : i < n) :
    ∃ k, k < n ∧ (id + k) % n = i := by
  by_cases h : id ≤ i
  · exact ⟨i - id, by omega, by rw [show id + (i - id) = i by omega, Nat.mod_eq_of_lt hi]⟩
  · refine ⟨i + n - id, by omega, ?_⟩
    rw [show id + (i + n - id) = i + n by omega, Nat.add_mod_right, Nat.mod_eq_of_lt hi]

theorem mod_off_inj {n id j k : Nat} (hid : id < n) (hj : j < n) (hk : k < n)
    (h : (id + j) % n = (id + k) % n) : j = k := by
  have e1 : ∀ x, x < n → (id + x) % n = if id + x < n then id + x else id + x - n := by
    intro x hx
    by_cases hlt : id + x < n
    · rw [if_pos hlt, Nat.mod_eq_of_lt hlt]
    · rw [if_neg hlt, Nat.mod_eq_sub_mod (by omega), Nat.mod_eq_of_lt (by omega)]
  rw [e1 j hj, e1 k hk] at h
  split_ifs at h <;> omega

/-! ### The stealing loop of kalloc -/

theorem kallocSteal_found (c : KParams) (id : Nat) (s : Kmem) (hid : id < c.NCPU) :
    ∀ (d k fuel : Nat), 0 < k → k + d < c.NCPU → d < fuel →
      (∀ j, k ≤ j → j < k + d → s.freelist ((id + j) % c.NCPU) = 0) →
      s.freelist ((id + (k + d)) % c.NCPU) ≠ 0 →
      kallocSteal c id fuel ((id + k) % c.NCPU) s =
        some (popState s ((id + (k + d)) % c.NCPU), s.freelist ((id + (k + d)) % c.NCPU))
  | 0, k, fuel, hk, hkd, hf, _, hne => by
    cases fuel with
    | zero => omega
    | succ n =>
      simp only [kallocSteal, if_neg (mod_off_ne hid hk (by omega))]
      simp only [Nat.add_zero] at hne ⊢
      simp [hne, popState]
  | d + 1, k, fuel, hk, hkd, hf, hz, hne => by
    cases fuel with
    | zero => omega
    | succ n =>
      simp only [kallocSteal, if_neg (mod_off_ne hid hk (by omega))]
      rw [hz k (Nat.le_refl k) (by omega)]
      simp only [ne_eq, not_true_eq_false, if_false, mod_off_succ]
      have := kallocSteal_found c id s hid d (k + 1) n (by omega) (by omega) (by omega)
        (fun j h1 h2 => hz j (by omega) (by omega))
        (by rw [show k + 1 + d = k + (d + 1) by omega]; exact hne)
      rw [this, show k + 1 + d = k + (d + 1) by omega]

theorem kallocSteal_none (c : KParams) (id : Nat) (s : Kmem) (hid : id < c.NCPU) :
    ∀ (d k fuel : Nat), 0 < k → k + d = c.NCPU → d < fuel →
      (∀ j, k ≤ j → j < c.NCPU → s.freelist ((id + j) % c.NCPU) = 0) →
      kallocSteal c id fuel ((id + k) % c.NCPU) s = some (s, 0)
  | 0, k, fuel, hk, hkd, hf, _ => by
    cases fuel with
    | zero => omega
    | succ n =>
      have : k = c.NCPU := by omega
      subst this
      simp [kallocSteal, mod_off_full hid]
  | d + 1, k, fuel, hk, hkd, hf, hz => by
    cases fuel with
    | zero => omega
    | succ n =>
      simp only [kallocSteal, if_neg (mod_off_ne hid hk (by omega))]
      rw [hz k (Nat.le_refl k) (by omega)]
      simp only [ne_eq, not_true_eq_false, if_false, mod_off_succ]
      exact kallocSteal_none c id s hid d (k + 1) n (by omega) (by omega) (by omega)
        (fun j h1 h2 => hz j (by omega) h2)

/-- When pool `(id+k) % NCPU` is the first non-empty pool in scan order, `kalloc` pops its
head. -/
theorem kalloc_at (c : KParams) (id : Nat) (s : Kmem) (hid : id < c.NCPU) (k : Nat)
    (hk : k < c.NCPU) (hz : ∀ j, j < k → s.freelist ((id + j) % c.NCPU) = 0)
    (hne : s.freelist ((id + k) % c.NCPU) ≠ 0) :
    kalloc c id s =
      some (kallocinit (popState s ((id + k) % c.NCPU)) (s.freelist ((id + k) % c.NCPU))) := by
  unfold kalloc
  cases k with
  | zero =>
    simp only [Nat.add_zero, Nat.mod_eq_of_lt hid] at hne ⊢
    simp [hne, popState]
  | succ k =>
    have h0 : s.freelist id = 0 := by
      have := hz 0 (by omega)
      simpa [Nat.mod_eq_of_lt hid] using this
    simp only [h0, ne_eq, not_true_eq_false, if_false]
    have := kallocSteal_found c id s hid k 1 c.NCPU (by omega) (by omega) (by omega)
      (fun j h1 h2 => hz j (by omega))
      (by rw [show 1 + k = k + 1 by omega]; exact hne)
    rw [this, show 1 + k = k + 1 by omega]

/-- When every pool is empty, `kalloc` returns 0 and leaves the state as it is. -/
theorem kalloc_empty (c : KParams) (id : Nat) (s : Kmem) (hid : id < c.NCPU)
    (hz : ∀ i, i < c.NCPU → s.freelist i = 0) : kalloc c id s = some (s, 0) := by
  unfold kalloc
  simp only [hz id hid, ne_eq, not_true_eq_false, if_false]
  have := kallocSteal_none c id s hid (c.NCPU - 1) 1 c.NCPU (by omega) (by omega) (by omega)
    (fun j _ _ => hz _ (Nat.mod_lt _ (by omega)))
  rw [this]
  simp [kallocinit]

/-- In every state some pool is the first non-empty one in scan order, or all are empty. -/
theorem first_nonempty (c : KParams) (id : Nat) (s : Kmem) (hid : id < c.NCPU) :
    (∀ i, i < c.NCPU → s.freelist i = 0) ∨
    ∃ k, k < c.NCPU ∧ (∀ j, j < k → s.freelist ((id + j) % c.NCPU) = 0) ∧
      s.freelist ((id + k) % c.NCPU) ≠ 0 := by
  by_cases h : ∃ k, k < c.NCPU ∧ s.freelist ((id + k) % c.NCPU) ≠ 0
  · right
    classical
    refine ⟨Nat.find h, (Nat.find_spec h).1, ?_, (Nat.find_spec h).2⟩
    intro j hj
    have := Nat.find_min h hj
    by_contra hne
    exact this ⟨by have := (Nat.find_spec h).1; omega, hne⟩
  · left
    intro i hi
    obtain ⟨k, hk, e⟩ := mod_off_surj hid hi
    by_contra hne
    exact h ⟨k, hk, by rw [e]; exact hne⟩

/-! ### Well-formedness is preserved by kfree and kalloc -/

theorem Chain.nil_iff {m : Nat → PageMem} {p : Nat} {l : List Nat} (h : Chain m p l) :
    l = [] ↔ p = 0 := by
  cases l with
  | nil => simpa using h
  | cons a t =>
    obtain ⟨e, ha, _⟩ := h
    simp only [reduceCtorEq, false_iff]
    omega

theorem kfreeState_wf (c : KParams) (id : Nat) (s : Kmem) (L : Nat → List Nat) (pa : Nat)
    (hw : KWf c s L) (hid : id < c.NCPU) (h0 : pa ≠ 0)
    (hfresh : ∀ i, i < c.NCPU → pa ∉ L i) :
    KWf c (kfreeState id s pa) (upd L id (pa :: L id)) := by
  have hframe : ∀ i, i < c.NCPU → ∀ a, a ∈ L i →
      ((kfreeState id s pa).mem a).next = (s.mem a).next := by
    intro i hi a ha
    have : a ≠ pa := fun e => hfresh i hi (e ▸ ha)
    simp [kfreeState, memset, upd_other _ _ _ _ this]
  refine ⟨?_, ?_, ?_⟩
  · intro i hi
    by_cases e : i = id
    · subst e
      simp only [upd_same]
      refine ⟨by simp [kfreeState], h0, ?_⟩
      have : ((kfreeState i s pa).mem pa).next = s.freelist i := by simp [kfreeState]
      rw [this]
      exact Chain.frame_next _ _ (hw.chain i hi) (hframe i hi)
    · rw [upd_other _ _ _ _ e]
      have : (kfreeState id s pa).freelist i = s.freelist i := by
        simp [kfreeState, upd_other _ _ _ _ e]
      rw [this]
      exact Chain.frame_next _ _ (hw.chain i hi) (hframe i hi)
  · intro i hi
    by_cases e : i = id
    · subst e
      simp only [upd_same]
      exact List.nodup_cons.2 ⟨hfresh i hi, hw.nodup i hi⟩
    · rw [upd_other _ _ _ _ e]; exact hw.nodup i hi
  · intro i j hi hj hij a ha
    by_cases e : i = id
    · subst e
      rw [upd_other _ _ _ _ (Ne.symm hij)]
      simp only [upd_same] at ha
      rcases List.mem_cons.1 ha with h | h
      · subst h; exact hfresh j hj
      · exact hw.disj i j hi hj hij a h
    · rw [upd_other _ _ _ _ e] at ha
      by_cases e1 : j = id
      · subst e1
        simp only [upd_same]
        intro hm
        rcases List.mem_cons.1 hm with h | h
        · subst h; exact hfresh i hi ha
        · exact hw.disj i j hi hj hij a ha h
      · rw [upd_other _ _ _ _ e1]; exact hw.disj i j hi hj hij a ha

/-- Popping the head `a` of pool `i` in a well-formed state and filling the page with junk
leaves a well-formed state in which pool `i` lost exactly `a`. -/
theorem kalloc_pop_wf (c : KParams) (s : Kmem) (L : Nat → List Nat) (i a : Nat) (t : List Nat)
    (hw : KWf c s L) (hi : i < c.NCPU) (hL : L i = a :: t) :
    s.freelist i = a ∧ a ≠ 0 ∧
    kallocinit (popState s i) (s.freelist i) =
      ({ popState s i with mem := memset s.mem a 5 }, a) ∧
    KWf c { popState s i with mem := memset s.mem a 5 } (upd L i t) := by
  have hc := hw.chain i hi
  rw [hL] at hc
  obtain ⟨e, ha, hc⟩ := hc
  have hnd := hw.nodup i hi
  rw [hL] at hnd
  have hat : a ∉ t := (List.nodup_cons.1 hnd).1
  refine ⟨e, ha, ?_, ?_, ?_, ?_⟩
  · rw [e]; simp [kallocinit, ha, popState]
  · intro j hj
    by_cases ej : j = i
    · subst ej
      simp only [upd_same, popState, e]
      apply Chain.frame_next _ _ hc
      intro b hb
      have : b ≠ a := fun h => hat (h ▸ hb)
      simp [memset, upd_other _ _ _ _ this]
    · rw [upd_other _ _ _ _ ej]
      simp only [popState, upd_other _ _ _ _ ej]
      apply Chain.frame_next _ _ (hw.chain j hj)
      intro b hb
      have : b ≠ a := by
        intro h
        subst h
        exact hw.disj i j hi hj (Ne.symm ej) b (by rw [hL]; exact List.mem_cons_self _ _) hb
      simp [memset, upd_other _ _ _ _ this]
  · intro j hj
    by_cases ej : j = i
    · subst ej; simp only [upd_same]; exact (List.nodup_cons.1 hnd).2
    · rw [upd_other _ _ _ _ ej]; exact hw.nodup j hj
  · intro j k hj hk hjk b hb
    have sub : ∀ x, x < c.NCPU → ∀ y, y ∈ upd L i t x → y ∈ L x := by
      intro x _ y hy
      by_cases ex : x = i
      · subst ex
        simp only [upd_same] at hy
        rw [hL]; exact List.mem_cons_of_mem _ hy
      · rwa [upd_other _ _ _ _ ex] at hy
    intro hb2
    exact hw.disj j k hj hk hjk b (sub j hj b hb) (sub k hk b hb2)

/-! ### Counting free pages -/

theorem sum_range_upd (f : Nat → Nat) (i v : Nat) :
    ∀ n, i < n → ((List.range n).map (upd f i v)).sum + f i = ((List.range n).map f).sum + v
  | 0, h => by omega
  | n + 1, h => by
    simp only [List.range_succ, List.map_append, List.sum_append, List.map_cons, List.map_nil,
      List.sum_cons, List.sum_nil, Nat.add_zero]
    by_cases e : i = n
    · subst e
      have : (List.range i).map (upd f i v) = (List.range i).map f := by
        apply List.map_congr_left
        intro a ha
        exact upd_other _ _ _ _ (by have := List.mem_range.1 ha; omega)
      rw [this, upd_same]
      omega
    · have ih := sum_range_upd f i v n (by omega)
      rw [upd_other _ _ _ _ (Ne.symm e)]
      omega

theorem totalFree_upd (c : KParams) (L : Nat → List Nat) (i : Nat) (l : List Nat)
    (hi : i < c.NCPU) : totalFree c (upd L i l) + (L i).length = totalFree c L + l.length := by
  unfold totalFree
  have : (fun j => (upd L i l j).length) = upd (fun j => (L j).length) i l.length := by
    funext j
    by_cases e : j = i
    · subst e; simp
    · simp [upd_other _ _ _ _ e]
  rw [this]
  exact sum_range_upd _ i _ c.NCPU hi

/-! ### kinit -/

theorem mem_pagesDesc : ∀ (n p a : Nat), a ∈ pagesDesc p n ↔ ∃ k, k < n ∧ a = p + k * PGSIZE
  | 0, p, a => by simp [pagesDesc]
  | n + 1, p, a => by
    simp only [pagesDesc, List.mem_append, List.mem_singleton, mem_pagesDesc n]
    constructor
    · rintro (⟨k, hk, e⟩ | e)
      · exact ⟨k + 1, by omega, by rw [e, Nat.add_mul]; omega⟩
      · exact ⟨0, by omega, by omega⟩
    · rintro ⟨k, hk, e⟩
      cases k with
      | zero => right; omega
      | succ k => left; exact ⟨k, by omega, by rw [e, Nat.add_mul]; omega⟩

theorem length_pagesDesc : ∀ (n p : Nat), (pagesDesc p n).length = n
  | 0, _ => rfl
  | n + 1, p => by simp [pagesDesc, length_pagesDesc n]

theorem nodup_pagesDesc : ∀ (n p : Nat), (pagesDesc p n).Nodup
  | 0, _ => by simp [pagesDesc]
  | n + 1, p => by
    simp only [pagesDesc]
    refine List.Nodup.append (nodup_pagesDesc n _) (List.nodup_singleton p) ?_
    intro a ha hb
    obtain ⟨k, _, e⟩ := (mem_pagesDesc n _ a).1 ha
    have := List.mem_singleton.1 hb
    unfold PGSIZE at e
    omega

theorem kfreeState_chain (id : Nat) (s : Kmem) (pa : Nat) (l : List Nat)
    (hc : Chain s.mem (s.freelist id) l) (h0 : pa ≠ 0) (hfresh : pa ∉ l) :
    Chain (kfreeState id s pa).mem ((kfreeState id s pa).freelist id) (pa :: l) := by
  refine ⟨by simp [kfreeState], h0, ?_⟩
  have : ((kfreeState id s pa).mem pa).next = s.freelist id := by simp [kfreeState]
  rw [this]
  apply Chain.frame_next _ _ hc
  intro a ha
  have : a ≠ pa := fun e => hfresh (e ▸ ha)
  simp [kfreeState, memset, upd_other _ _ _ _ this]

theorem freerangeLoop_spec (c : KParams) (id pa_end : Nat) (hk : 0 < c.kend)
    (hend : pa_end ≤ c.PHYSTOP) (hU : pa_end + PGSIZE < U64) :
    ∀ (n p fuel : Nat) (s : Kmem) (l : List Nat), p % PGSIZE = 0 → c.kend ≤ p →
      p + PGSIZE < U64 → pa_end < p + (n + 1) * PGSIZE → (n = 0 ∨ p + n * PGSIZE ≤ pa_end) →
      n < fuel → Chain s.mem (s.freelist id) l → (∀ a, a ∈ l → a < p) →
      ∃ s1, freerangeLoop c id pa_end fuel p s = .ok s1 ∧
        Chain s1.mem (s1.freelist id) (pagesDesc p n ++ l) ∧
        ∀ j, j ≠ id → s1.freelist j = s.freelist j
  | 0, p, fuel, s, l, hal, hge, hpU, h1, _, hf, hc, hlt => by
    cases fuel with
    | zero => omega
    | succ f =>
      refine ⟨s, ?_, by simpa [pagesDesc] using hc, fun _ _ => rfl⟩
      simp only [freerangeLoop]
      rw [Nat.mod_eq_of_lt hpU, if_neg (by omega)]
  | n + 1, p, fuel, s, l, hal, hge, hpU, h1, h2, hf, hc, hlt => by
    cases fuel with
    | zero => omega
    | succ f =>
      have h2 : p + (n + 1) * PGSIZE ≤ pa_end := by
        rcases h2 with h | h
        · omega
        · exact h
      have hle : p + PGSIZE ≤ pa_end := by
        have : PGSIZE ≤ (n + 1) * PGSIZE := Nat.le_mul_of_pos_left _ (by omega)
        omega
      have hv : validPage c p := ⟨hal, hge, by unfold PGSIZE at hle; omega⟩
      simp only [freerangeLoop]
      rw [Nat.mod_eq_of_lt hpU, if_pos hle, kfree_ok c id s p hv]
      simp only
      have hfr : p ∉ l := fun h => Nat.lt_irrefl _ (hlt p h)
      obtain ⟨s1, e, hc1, hj⟩ := freerangeLoop_spec c id pa_end hk hend hU n (p + PGSIZE) f
        (kfreeState id s p) (p :: l)
        (by unfold PGSIZE at *; omega) (by omega) (by omega)
        (by rw [Nat.add_mul] at h1; omega)
        (by rw [Nat.add_mul] at h2; right; omega) (by omega)
        (kfreeState_chain id s p l hc (by omega) hfr)
        (by
          intro a ha
          rcases List.mem_cons.1 ha with h | h
          · unfold PGSIZE; omega
          · have := hlt a h; omega)
      refine ⟨s1, e, ?_, ?_⟩
      · simpa [pagesDesc, List.append_assoc] using hc1
      · intro j hne
        rw [hj j hne]
        simp [kfreeState, upd_other _ _ _ _ hne]

theorem PGROUNDUP_spec (a : Nat) (h : a + PGSIZE ≤ U64) :
    PGROUNDUP a % PGSIZE = 0 ∧ a ≤ PGROUNDUP a ∧ PGROUNDUP a < a + PGSIZE := by
  unfold PGROUNDUP PGSIZE U64 at *
  omega

theorem totalFree_nil (c : KParams) : totalFree c (fun _ => []) = 0 := by
  unfold totalFree
  simp

/-- Under the platform assumptions `kinit` returns, with every managed page on pool 0. -/
theorem kinit_ok (c : KParams) (m0 : Nat → PageMem) (hs : c.Sane) :
    ∃ s, kinit c 0 m0 = .ok s ∧ KInv c s [] (initLists c) := by
  obtain ⟨hn, hk, hkU, hpU⟩ := hs
  obtain ⟨r1, r2, r3⟩ := PGROUNDUP_spec c.kend (by unfold PGSIZE at *; omega)
  have hm : managedPages c = (c.PHYSTOP - PGROUNDUP c.kend) / PGSIZE := rfl
  obtain ⟨s, e, hc, hj⟩ := freerangeLoop_spec c 0 c.PHYSTOP hk (Nat.le_refl _) hpU
    (managedPages c) (PGROUNDUP c.kend) (c.PHYSTOP / PGSIZE + 1) (kmemZero m0) []
    r1 r2 (by unfold PGSIZE at *; omega)
    (by rw [hm]; unfold PGSIZE at *; omega)
    (by rw [hm]; unfold PGSIZE at *; omega)
    (by rw [hm]; unfold PGSIZE at *; omega)
    rfl (by simp)
  refine ⟨s, e, ⟨?_, ?_, ?_⟩, List.nodup_nil, by simp, by simp, ?_, ?_⟩
  · intro i hi
    by_cases e0 : i = 0
    · subst e0
      simpa [initLists] using hc
    · rw [hj i e0]
      simp only [initLists, upd_other _ _ _ _ e0]
      rfl
  · intro i hi
    by_cases e0 : i = 0
    · subst e0
      simpa [initLists] using nodup_pagesDesc _ _
    · simp [initLists, upd_other _ _ _ _ e0]
  · intro i j _ _ hij a ha
    by_cases e0 : i = 0
    · subst e0
      simp [initLists, upd_other _ _ _ _ (Ne.symm hij)]
    · simp [initLists, upd_other _ _ _ _ e0] at ha
  · intro i _ a ha
    by_cases e0 : i = 0
    · subst e0
      simp only [initLists, upd_same] at ha
      obtain ⟨k, hk1, e1⟩ := (mem_pagesDesc _ _ a).1 ha
      rw [hm] at hk1
      unfold validPage
      unfold PGSIZE at *
      have : (k + 1) * 4096 ≤ (c.PHYSTOP - PGROUNDUP c.kend) / 4096 * 4096 :=
        Nat.mul_le_mul_right _ hk1
      have := Nat.div_mul_le_self (c.PHYSTOP - PGROUNDUP c.kend) 4096
      omega
    · simp [initLists, upd_other _ _ _ _ e0] at ha
  · have := totalFree_upd c (fun _ => []) 0 (pagesDesc (PGROUNDUP c.kend) (managedPages c)) hn
    rw [totalFree_nil, length_pagesDesc] at this
    simp only [List.length_nil, Nat.add_zero, Nat.zero_add] at this ⊢
    exact this

/-! ### Reachable allocator states -/

/-- One `kalloc` on a state satisfying the invariant: either every pool is empty and nothing
changes, or the head of the first non-empty pool in scan order is removed and returned. -/
theorem kalloc_step (c : KParams) (s : Kmem) (A : List Nat) (L : Nat → List Nat) (id : Nat)
    (hinv : KInv c s A L) (hid : id < c.NCPU) :
    ∃ s1 r, kalloc c id s = some (s1, r) ∧
      ((r = 0 ∧ s1 = s ∧ ∀ i, i < c.NCPU → L i = []) ∨
       (r ≠ 0 ∧ r ∉ A ∧ ∃ k t, k < c.NCPU ∧ (∀ j, j < k → L ((id + j) % c.NCPU) = []) ∧
          L ((id + k) % c.NCPU) = r :: t ∧ KInv c s1 (r :: A) (upd L ((id + k) % c.NCPU) t))) := by
  obtain ⟨hw, hnd, hdis, hvA, hvL, htot⟩ := hinv
  have hN : 0 < c.NCPU := by omega
  rcases first_nonempty c id s hid with hz | ⟨k, hk, hz, hne⟩
  · refine ⟨s, 0, kalloc_empty c id s hid hz, Or.inl ⟨rfl, rfl, ?_⟩⟩
    intro i hi
    exact (Chain.nil_iff (hw.chain i hi)).2 (hz i hi)
  · have hi : (id + k) % c.NCPU < c.NCPU := Nat.mod_lt _ hN
    generalize hidef : (id + k) % c.NCPU = i at hi hne
    have hLne : L i ≠ [] := fun h => hne ((Chain.nil_iff (hw.chain i hi)).1 h)
    obtain ⟨a, t, hL⟩ := List.exists_cons_of_ne_nil hLne
    obtain ⟨e, ha, hki, hw1⟩ := kalloc_pop_wf c s L i a t hw hi hL
    have hka := kalloc_at c id s hid k hk hz (by rw [hidef]; exact hne)
    rw [hidef, hki] at hka
    have haL : a ∈ L i := by rw [hL]; exact List.mem_cons_self _ _
    have hat : a ∉ t := by
      have := hw.nodup i hi
      rw [hL] at this
      exact (List.nodup_cons.1 this).1
    have sub : ∀ x, ∀ y, y ∈ upd L i t x → y ∈ L x := by
      intro x y hy
      by_cases ex : x = i
      · subst ex
        simp only [upd_same] at hy
        rw [hL]; exact List.mem_cons_of_mem _ hy
      · rwa [upd_other _ _ _ _ ex] at hy
    refine ⟨_, a, hka, Or.inr ⟨ha, hdis i hi a haL, k, t, hk, ?_, by rw [hidef]; exact hL, ?_⟩⟩
    · intro j hj
      exact (Chain.nil_iff (hw.chain _ (Nat.mod_lt _ hN))).2 (hz j hj)
    · rw [hidef]
      refine ⟨hw1, List.nodup_cons.2 ⟨hdis i hi a haL, hnd⟩, ?_, ?_, ?_, ?_⟩
      · intro j hj b hb hm
        rcases List.mem_cons.1 hm with h | h
        · subst h
          by_cases ej : j = i
          · subst ej
            simp only [upd_same] at hb
            exact hat hb
          · rw [upd_other _ _ _ _ ej] at hb
            exact hw.disj i j hi hj (Ne.symm ej) b haL hb
        · exact hdis j hj b (sub j b hb) h
      · intro b hb
        rcases List.mem_cons.1 hb with h | h
        · subst h; exact hvL i hi b haL
        · exact hvA b h
      · intro j hj b hb
        exact hvL j hj b (sub j b hb)
      · have := totalFree_upd c L i t hi
        rw [hL] at this
        simp only [List.length_cons] at this ⊢
        omega

/-- One `kfree` of an allocated page on a state satisfying the invariant. -/
theorem kfree_step (c : KParams) (s : Kmem) (A : List Nat) (L : Nat → List Nat) (id pa : Nat)
    (hk : 0 < c.kend) (hinv : KInv c s A L) (hid : id < c.NCPU) (hpa : pa ∈ A) :
    kfree c id s pa = .ok (kfreeState id s pa) ∧
      KInv c (kfreeState id s pa) (A.erase pa) (upd L id (pa :: L id)) := by
  obtain ⟨hw, hnd, hdis, hvA, hvL, htot⟩ := hinv
  have hv := hvA pa hpa
  have hfresh : ∀ i, i < c.NCPU → pa ∉ L i := fun i hi h => hdis i hi pa h hpa
  have h0 : pa ≠ 0 := by have := hv.2.1; omega
  refine ⟨kfree_ok c id s pa hv, kfreeState_wf c id s L pa hw hid h0 hfresh,
    hnd.erase pa, ?_, ?_, ?_, ?_⟩
  · intro j hj b hb hm
    have hb1 : b ≠ pa ∧ b ∈ A := (hnd.mem_erase_iff).1 hm
    by_cases ej : j = id
    · subst ej
      simp only [upd_same] at hb
      rcases List.mem_cons.1 hb with h | h
      · exact hb1.1 h
      · exact hdis j hj b h hb1.2
    · rw [upd_other _ _ _ _ ej] at hb
      exact hdis j hj b hb hb1.2
  · intro b hb
    exact hvA b (List.mem_of_mem_erase hb)
  · intro j hj b hb
    by_cases ej : j = id
    · subst ej
      simp only [upd_same] at hb
      rcases List.mem_cons.1 hb with h | h
      · subst h; exact hv
      · exact hvL j hj b h
    · rw [upd_other _ _ _ _ ej] at hb
      exact hvL j hj b hb
  · have h1 := totalFree_upd c L id (pa :: L id) hid
    have h2 := List.length_erase_of_mem hpa
    have h3 : 0 < A.length := List.length_pos_of_mem hpa
    simp only [List.length_cons] at h1
    omega

/-- Every reachable allocator state satisfies the invariant. -/
theorem kreach_inv (c : KParams) (m0 : Nat → PageMem) (hs : c.Sane) (s : Kmem) (A : List Nat)
    (h : KReach c m0 s A) : ∃ L, KInv c s A L := by
  induction h with
  | init s e =>
    obtain ⟨s1, e1, hinv⟩ := kinit_ok c m0 hs
    rw [e1] at e
    injection e with e
    subst e
    exact ⟨_, hinv⟩
  | alloc s s1 A id r _ hid e ih =>
    obtain ⟨L, hinv⟩ := ih
    obtain ⟨s2, r2, e2, h2⟩ := kalloc_step c s A L id hinv hid
    rw [e2] at e
    injection e with e
    injection e with es er
    subst es er
    rcases h2 with ⟨h0, hs2, _⟩ | ⟨hne, _, k, t, _, _, _, hinv1⟩
    · subst h0 hs2
      exact ⟨L, by simpa using hinv⟩
    · exact ⟨_, by simpa [hne] using hinv1⟩
  | free s s1 A id pa _ hid hpa e ih =>
    obtain ⟨L, hinv⟩ := ih
    obtain ⟨e2, hinv1⟩ := kfree_step c s A L id pa hs.2.1 hinv hid hpa
    rw [e2] at e
    injection e with e
    subst e
    exact ⟨_, hinv1⟩

/-! ### freerange as a sequence of kfree calls -/

theorem pagesDesc_eq_reverse : ∀ (n p : Nat), pagesDesc p n = (pagesAsc p n).reverse
  | 0, _ => rfl
  | n + 1, p => by
    simp only [pagesDesc, pagesAsc, List.reverse_cons, pagesDesc_eq_reverse n]

theorem mem_pagesAsc (n p a : Nat) : a ∈ pagesAsc p n ↔ ∃ k, k < n ∧ a = p + k * PGSIZE := by
  rw [← mem_pagesDesc n p a, pagesDesc_eq_reverse, List.mem_reverse]

theorem pagesAsc_pairwise : ∀ (n p : Nat), (pagesAsc p n).Pairwise (fun a b => a < b)
  | 0, _ => by simp [pagesAsc]
  | n + 1, p => by
    simp only [pagesAsc, List.pairwise_cons]
    refine ⟨?_, pagesAsc_pairwise n _⟩
    intro a ha
    obtain ⟨k, _, e⟩ := (mem_pagesAsc n _ a).1 ha
    unfold PGSIZE at e
    omega

/-- The loop of `freerange` is the sequence of successful `kfree` calls on the pages of the
range, lowest address first. -/
theorem freerangeLoop_fold (c : KParams) (id pa_end : Nat)
    (hend : pa_end ≤ c.PHYSTOP) (hU : pa_end + PGSIZE < U64) :
    ∀ (n p fuel : Nat) (s : Kmem), p % PGSIZE = 0 → c.kend ≤ p →
      p + PGSIZE < U64 → pa_end < p + (n + 1) * PGSIZE → (n = 0 ∨ p + n * PGSIZE ≤ pa_end) →
      n < fuel →
      freerangeLoop c id pa_end fuel p s = .ok ((pagesAsc p n).foldl (kfreeState id) s)
  | 0, p, fuel, s, hal, hge, hpU, h1, _, hf => by
    cases fuel with
    | zero => omega
    | succ f =>
      simp only [freerangeLoop, pagesAsc, List.foldl_nil]
      rw [Nat.mod_eq_of_lt hpU, if_neg (by omega)]
  | n + 1, p, fuel, s, hal, hge, hpU, h1, h2, hf => by
    cases fuel with
    | zero => omega
    | succ f =>
      have h2 : p + (n + 1) * PGSIZE ≤ pa_end := by
        rcases h2 with h | h
        · omega
        · exact h
      have hle : p + PGSIZE ≤ pa_end := by
        have : PGSIZE ≤ (n + 1) * PGSIZE := Nat.le_mul_of_pos_left _ (by omega)
        omega
      have hv : validPage c p := ⟨hal, hge, by unfold PGSIZE at hle; omega⟩
      simp only [freerangeLoop, pagesAsc, List.foldl_cons]
      rw [Nat.mod_eq_of_lt hpU, if_pos hle, kfree_ok c id s p hv]
      simp only
      exact freerangeLoop_fold c id pa_end hend hU n (p + PGSIZE) f (kfreeState id s p)
        (by unfold PGSIZE at *; omega) (by omega) (by omega)
        (by rw [Nat.add_mul] at h1; omega)
        (by rw [Nat.add_mul] at h2; right; omega) (by omega)

/-! ## kernel/bio.c : lemmas -/

/-! ### Loads and stores -/

@[simp] theorem Bio.get_buf (s : Bio) (b : Nat) : s.get (.buf b) = s.buf b := rfl

@[simp] theorem Bio.get_head (s : Bio) (i : Nat) : s.get (.head i) = s.head i := rfl

@[simp] theorem Bio.get_null (s : Bio) : s.get .null = zeroBuf := rfl

theorem Bio.get_set (s : Bio) (p q : Ptr) (v : Buf) :
    (s.set p v).get q = if q = p ∧ p ≠ .null then v else s.get q := by
  cases p <;> cases q <;> simp [Bio.set, Bio.get, upd]

theorem Bio.get_set_same (s : Bio) (p : Ptr) (v : Buf) (h : p ≠ .null) :
    (s.set p v).get p = v := by
  rw [Bio.get_set]; simp [h]

theorem Bio.get_set_other (s : Bio) (p q : Ptr) (v : Buf) (h : q ≠ p) :
    (s.set p v).get q = s.get q := by
  rw [Bio.get_set]; simp [h]

@[simp] theorem Bio.set_disk (s : Bio) (p : Ptr) (v : Buf) : (s.set p v).disk = s.disk := by
  cases p <;> rfl

@[simp] theorem Bio.set_reads (s : Bio) (p : Ptr) (v : Buf) : (s.set p v).reads = s.reads := by
  cases p <;> rfl

@[simp] theorem Bio.set_writes (s : Bio) (p : Ptr) (v : Buf) :
    (s.set p v).writes = s.writes := by
  cases p <;> rfl

theorem Bio.buf_eq_get (s : Bio) (b : Nat) : s.buf b = s.get (.buf b) := rfl

theorem Bio.head_eq_get (s : Bio) (i : Nat) : s.head i = s.get (.head i) := rfl

/-! ### Doubly linked bucket lists -/

theorem DLL.frame_links {nx pr nx1 pr1 : Ptr → Ptr} {stop : Ptr} :
    ∀ (l : List Nat) (pv : Ptr), DLL nx pr stop pv l → nx1 pv = nx pv → pr1 stop = pr stop →
      (∀ b, b ∈ l → nx1 (.buf b) = nx (.buf b) ∧ pr1 (.buf b) = pr (.buf b)) →
      DLL nx1 pr1 stop pv l
  | [], pv, h, h1, h2, _ => ⟨h1.trans h.1, h2.trans h.2⟩
  | b :: l, pv, h, h1, h2, h3 => by
    obtain ⟨e1, e2, e3⟩ := h
    have hb := h3 b (List.mem_cons_self _ _)
    exact ⟨h1.trans e1, hb.2.trans e2,
      DLL.frame_links l _ e3 hb.1 h2 (fun x hx => h3 x (List.mem_cons_of_mem _ hx))⟩

/-- The `prev` link of a list member is the starting node or an earlier member. -/
theorem DLL.pr_mem {nx pr : Ptr → Ptr} {stop : Ptr} (b : Nat) (l2 : List Nat) :
    ∀ (l1 : List Nat) (pv : Ptr), DLL nx pr stop pv (l1 ++ b :: l2) →
      pr (.buf b) = pv ∨ ∃ x, x ∈ l1 ∧ pr (.buf b) = .buf x
  | [], pv, h => Or.inl h.2.1
  | a :: l1, pv, h => by
    rcases DLL.pr_mem b l2 l1 _ h.2.2 with e | ⟨x, hx, e⟩
    · exact Or.inr ⟨a, List.mem_cons_self _ _, e⟩
    · exact Or.inr ⟨x, List.mem_cons_of_mem _ hx, e⟩

/-- The `next` link of a list member is the end node or the following member. -/
theorem DLL.nx_mem {nx pr : Ptr → Ptr} {stop : Ptr} (b : Nat) (l2 : List Nat) :
    ∀ (l1 : List Nat) (pv : Ptr), DLL nx pr stop pv (l1 ++ b :: l2) →
      nx (.buf b) = stop ∨ ∃ x, x ∈ l2 ∧ nx (.buf b) = .buf x
  | [], pv, h => by
    cases l2 with
    | nil => exact Or.inl h.2.2.1
    | cons a l2 => exact Or.inr ⟨a, List.mem_cons_self _ _, h.2.2.1⟩
  | a :: l1, pv, h => DLL.nx_mem b l2 l1 _ h.2.2

/-- Effect of `b->next->prev = b->prev; b->prev->next = b->next;` on a bucket list. -/
theorem DLL.after_unlink {nx pr : Ptr → Ptr} (i b : Nat) (l2 : List Nat) :
    ∀ (l1 : List Nat) (pv : Ptr), DLL nx pr (.head i) pv (l1 ++ b :: l2) →
      (l1 ++ b :: l2).Nodup → (∀ x, x ∈ l1 ++ b :: l2 → pv ≠ .buf x) →
      DLL (fun q => if q = pr (.buf b) then nx (.buf b) else nx q)
        (fun q => if q = nx (.buf b) then pr (.buf b) else pr q) (.head i) pv (l1 ++ l2)
  | [], pv, h, hnd, hpv => by
    obtain ⟨e1, e2, e3⟩ := h
    simp only [List.nil_append] at hnd hpv ⊢
    cases l2 with
    | nil =>
      obtain ⟨e4, e5⟩ := e3
      exact ⟨by simp [e2, e4], by simp [e2, e4]⟩
    | cons a l2 =>
      obtain ⟨e4, e5, e6⟩ := e3
      have hab : a ≠ b := fun h => by
        subst h; simp at hnd
      have hnd2 : (a :: l2).Nodup := (List.nodup_cons.1 hnd).2
      refine ⟨by simp [e2, e4], by simp [e2, e4], ?_⟩
      refine DLL.frame_links l2 _ e6 ?_ ?_ ?_
      · have : Ptr.buf a ≠ pv := fun h => hpv a (by simp) h.symm
        simp [e2, this]
      · simp [e4]
      · intro x hx
        have h1 : Ptr.buf x ≠ pv := fun h => hpv x (by simp [hx]) h.symm
        have h2 : x ≠ a := fun h => by
          subst h; exact (List.nodup_cons.1 hnd2).1 hx
        simp [e2, e4, h1, h2]
  | a :: l1, pv, h, hnd, hpv => by
    obtain ⟨e1, e2, e3⟩ := h
    simp only [List.cons_append] at hnd hpv ⊢
    have hnd1 := (List.nodup_cons.1 hnd).2
    have ha : a ∉ l1 ++ b :: l2 := (List.nodup_cons.1 hnd).1
    have ih := DLL.after_unlink i b l2 l1 (.buf a) e3 hnd1 (by
      intro x hx h
      injection h with h
      subst h
      exact ha hx)
    have hP : pv ≠ pr (.buf b) := by
      rcases DLL.pr_mem b l2 l1 _ e3 with e | ⟨x, hx, e⟩
      · rw [e]; exact hpv a (by simp)
      · rw [e]; exact hpv x (by simp [hx])
    have hN : Ptr.buf a ≠ nx (.buf b) := by
      rcases DLL.nx_mem b l2 l1 _ e3 with e | ⟨x, hx, e⟩
      · rw [e]; simp
      · rw [e]
        intro h
        injection h with h
        subst h
        exact ha (by simp [hx])
    exact ⟨by simp [hP, e1], by simp [hN, e2], ih⟩

/-- Effect of linking `b` in front of a bucket list. -/
theorem DLL.after_pushFront {nx pr : Ptr → Ptr} (h b : Nat) (l : List Nat)
    (hd : DLL nx pr (.head h) (.head h) l) (hnd : l.Nodup) (hb : b ∉ l) :
    DLL (fun q => if q = .head h then .buf b else if q = .buf b then nx (.head h) else nx q)
      (fun q => if q = nx (.head h) then .buf b else if q = .buf b then .head h else pr q)
      (.head h) (.head h) (b :: l) := by
  cases l with
  | nil =>
    obtain ⟨e1, e2⟩ := hd
    exact ⟨by simp, by simp [e1], by simp [e1], by simp [e1]⟩
  | cons a l =>
    obtain ⟨e1, e2, e3⟩ := hd
    have hab : a ≠ b := fun h => hb (by simp [h])
    refine ⟨by simp, by simp [e1, hab.symm], by simp [e1], by simp [e1], ?_⟩
    refine DLL.frame_links l _ e3 (by simp [hab]) (by simp [e1]) ?_
    intro x hx
    have h1 : x ≠ b := fun h => hb (by simp [← h, hx])
    have h2 : x ≠ a := fun h => by
      subst h; exact (List.nodup_cons.1 hnd).1 hx
    simp [e1, h1, h2]

/-! ### The link updates of bget on the state -/

@[simp] theorem Bio.set_buf_head (s : Bio) (k : Nat) (v : Buf) :
    (s.set (.buf k) v).head = s.head := rfl

@[simp] theorem Bio.set_head_buf (s : Bio) (i : Nat) (v : Buf) :
    (s.set (.head i) v).buf = s.buf := rfl

theorem unlink_get (s : Bio) (k : Nat) (q : Ptr) (hN : s.nx (.buf k) ≠ .buf k)
    (hN0 : s.nx (.buf k) ≠ .null) (hP0 : s.pr (.buf k) ≠ .null) :
    (unlink s (.buf k)).get q =
      { s.get q with
        next := if q = s.pr (.buf k) then s.nx (.buf k) else (s.get q).next,
        prev := if q = s.nx (.buf k) then s.pr (.buf k) else (s.get q).prev } := by
  simp only [Bio.nx, Bio.pr, Bio.get_buf] at hN hN0 hP0 ⊢
  have e1 : (s.set (s.buf k).next { s.get (s.buf k).next with prev := (s.buf k).prev }).buf k
      = s.buf k := by
    rw [Bio.buf_eq_get, Bio.get_set_other _ _ _ _ (Ne.symm hN)]; rfl
  simp only [unlink, Bio.get_buf, e1, Bio.get_set]
  by_cases h1 : q = (s.buf k).prev <;> by_cases h2 : q = (s.buf k).next
  · have hPN : (s.buf k).prev = (s.buf k).next := h1.symm.trans h2
    rw [if_pos ⟨h1, hP0⟩, if_pos ⟨hPN, hN0⟩, if_pos h1, if_pos h2, h2]
  · have hPN : ¬ ((s.buf k).prev = (s.buf k).next ∧ (s.buf k).next ≠ .null) :=
      fun h => h2 (h1.trans h.1)
    rw [if_pos ⟨h1, hP0⟩, if_neg hPN, if_pos h1, if_neg h2, h1]
  · rw [if_neg (fun h => h1 h.1), if_pos ⟨h2, hN0⟩, if_neg h1, if_pos h2, h2]
  · rw [if_neg (fun h => h1 h.1), if_neg (fun h => h2 h.1), if_neg h1, if_neg h2]

theorem pushFront_get (s : Bio) (h k : Nat) (q : Ptr) (hF : (s.head h).next ≠ .buf k)
    (hF0 : (s.head h).next ≠ .null) :
    (pushFront s h (.buf k)).get q =
      { s.get q with
        next := if q = .head h then .buf k
          else if q = .buf k then (s.head h).next else (s.get q).next,
        prev := if q = (s.head h).next then .buf k
          else if q = .buf k then .head h else (s.get q).prev } := by
  simp only [pushFront, Bio.set_buf_head]
  generalize (s.head h).next = F at hF hF0 ⊢
  simp only [Bio.get_set]
  by_cases h1 : q = .head h
  · subst h1
    by_cases h3 : Ptr.head h = F
    · subst h3
      simp
    · simp [h3, Ne.symm h3]
  · by_cases h2 : q = .buf k
    · subst h2
      simp [Ne.symm hF, hF]
    · by_cases h3 : q = F
      · subst h3
        simp [h1, h2, hF0, Ne.symm h1, Ne.symm h2]
      · simp [h1, h2, h3]

/-! ### Evaluating the loops of bget -/

/-- On a well-linked bucket a scan is `List.find?` on the bucket's list. -/
theorem scan_find (s : Bio) (pred : Buf → Bool) (i : Nat) :
    ∀ (l : List Nat) (pv : Ptr) (fuel : Nat), DLL s.nx s.pr (.head i) pv l → l.length < fuel →
      scan s pred (.head i) fuel (s.nx pv) =
        match l.find? (fun k => pred (s.buf k)) with
        | some k => .found (.buf k)
        | none => .notFound
  | [], pv, fuel, h, hf => by
    cases fuel with
    | zero => simp at hf
    | succ f => simp [scan, h.1]
  | b :: l, pv, fuel, h, hf => by
    cases fuel with
    | zero => simp at hf
    | succ f =>
      obtain ⟨e1, _, e3⟩ := h
      rw [e1]
      simp only [scan, Bio.get_buf, List.find?_cons]
      rw [if_neg (by simp)]
      by_cases hp : pred (s.buf b) = true
      · simp [hp]
      · simp only [hp, Bool.false_eq_true, if_false]
        have := scan_find s pred i l (.buf b) f e3 (by simpa using hf)
        simp only [Bio.nx, Bio.get_buf] at this
        rw [this]

theorem nodup_length_le (l : List Nat) (n : Nat) (hnd : l.Nodup) (hlt : ∀ x, x ∈ l → x < n) :
    l.length ≤ n := by
  have hsub : l.toFinset ⊆ Finset.range n := by
    intro x hx
    exact Finset.mem_range.2 (hlt x (List.mem_toFinset.1 hx))
  have := Finset.card_le_card hsub
  rwa [List.toFinset_card_of_nodup hnd, Finset.card_range] at this

/-- The scan of bucket `i` in a well-formed cache, as it is written in `bget`. -/
theorem scan_bucket (c : BParams) (s : Bio) (L : Nat → List Nat) (hw : BWf c s L)
    (pred : Buf → Bool) (i : Nat) (hi : i < c.NBUCKET) :
    scan s pred (.head i) (c.NBUF + 1) (s.head i).next =
      match (L i).find? (fun k => pred (s.buf k)) with
      | some k => .found (.buf k)
      | none => .notFound := by
  have hlen : (L i).length ≤ c.NBUF :=
    nodup_length_le _ _ (hw.nodup i hi) (fun x hx => ((hw.mem_iff i hi x).1 hx).1)
  exact scan_find s pred i (L i) (.head i) (c.NBUF + 1) (hw.dll i hi) (by omega)

theorem bgetSteal_found (c : BParams) (pid dev blockno h : Nat) (s : Bio) (b : Ptr)
    (hh : h < c.NBUCKET) :
    ∀ (d j fuel : Nat), 0 < j → j + d < c.NBUCKET → d < fuel →
      (∀ x, j ≤ x → x < j + d →
        scan s isIdle (.head ((h + x) % c.NBUCKET)) (c.NBUF + 1)
          (s.head ((h + x) % c.NBUCKET)).next = .notFound) →
      scan s isIdle (.head ((h + (j + d)) % c.NBUCKET)) (c.NBUF + 1)
          (s.head ((h + (j + d)) % c.NBUCKET)).next = .found b →
      bgetSteal c pid dev blockno h fuel ((h + j) % c.NBUCKET) s =
        acquiresleep pid (pushFront (unlink (assign s b dev blockno) b) h b) b
  | 0, j, fuel, hj, hjd, hf, _, hfound => by
    cases fuel with
    | zero => omega
    | succ n =>
      simp only [bgetSteal, if_neg (mod_off_ne hh hj (by omega))]
      simp only [Nat.add_zero] at hfound
      rw [hfound]
  | d + 1, j, fuel, hj, hjd, hf, hnone, hfound => by
    cases fuel with
    | zero => omega
    | succ n =>
      simp only [bgetSteal, if_neg (mod_off_ne hh hj (by omega))]
      rw [hnone j (Nat.le_refl j) (by omega)]
      simp only [mod_off_succ]
      exact bgetSteal_found c pid dev blockno h s b hh d (j + 1) n (by omega) (by omega)
        (by omega) (fun x h1 h2 => hnone x (by omega) (by omega))
        (by rw [show j + 1 + d = j + (d + 1) by omega]; exact hfound)

theorem bgetSteal_none (c : BParams) (pid dev blockno h : Nat) (s : Bio)
    (hh : h < c.NBUCKET) :
    ∀ (d j fuel : Nat), 0 < j → j + d = c.NBUCKET → d < fuel →
      (∀ x, j ≤ x → x < c.NBUCKET →
        scan s isIdle (.head ((h + x) % c.NBUCKET)) (c.NBUF + 1)
          (s.head ((h + x) % c.NBUCKET)).next = .notFound) →
      bgetSteal c pid dev blockno h fuel ((h + j) % c.NBUCKET) s = .panic "bget: no buffers" s
  | 0, j, fuel, hj, hjd, hf, _ => by
    cases fuel with
    | zero => omega
    | succ n =>
      have : j = c.NBUCKET := by omega
      subst this
      simp [bgetSteal, mod_off_full hh]
  | d + 1, j, fuel, hj, hjd, hf, hnone => by
    cases fuel with
    | zero => omega
    | succ n =>
      simp only [bgetSteal, if_neg (mod_off_ne hh hj (by omega))]
      rw [hnone j (Nat.le_refl j) (by omega)]
      simp only [mod_off_succ]
      exact bgetSteal_none c pid dev blockno h s hh d (j + 1) n (by omega) (by omega)
        (by omega) (fun x h1 h2 => hnone x (by omega) h2)

/-! ### Unlinking and relinking a buffer in a well-linked cache -/

theorem DLL.first {nx pr : Ptr → Ptr} {i : Nat} {l : List Nat}
    (h : DLL nx pr (.head i) (.head i) l) :
    nx (.head i) = .head i ∨ ∃ x, x ∈ l ∧ nx (.head i) = .buf x := by
  cases l with
  | nil => exact Or.inl h.1
  | cons a l => exact Or.inr ⟨a, List.mem_cons_self _ _, h.1⟩

theorem erase_mid (l1 l2 : List Nat) (k : Nat) (h : (l1 ++ k :: l2).Nodup) :
    (l1 ++ k :: l2).erase k = l1 ++ l2 := by
  have hk : k ∉ l1 := by
    intro hm
    have := List.nodup_append.1 h
    exact this.2.2 hm (List.mem_cons_self _ _) 
  rw [List.erase_append_right _ hk, List.erase_cons_head]

theorem unlink_links (c : BParams) (s : Bio) (L : Nat → List Nat) (i k : Nat)
    (hl : BLinks c s L) (hd : BDisj c L) (hi : i < c.NBUCKET) (hnd : (L i).Nodup)
    (hk : k ∈ L i) :
    BLinks c (unlink s (.buf k)) (upd L i ((L i).erase k)) ∧
    (∀ q, ((unlink s (.buf k)).get q).same (s.get q)) ∧
    (∀ j, j < c.NBUCKET → j ≠ i → (unlink s (.buf k)).nx (.head j) = s.nx (.head j)) := by
  obtain ⟨l1, l2, hL⟩ := List.append_of_mem hk
  have hdi := hl i hi
  rw [hL] at hdi hnd
  have hkl1 : k ∉ l1 := fun hm => (List.nodup_append.1 hnd).2.2 hm (List.mem_cons_self _ _)
  have hkl2 : k ∉ l2 := (List.nodup_cons.1 (List.nodup_append.1 hnd).2.1).1
  have hP := DLL.pr_mem k l2 l1 _ hdi
  have hN := DLL.nx_mem k l2 l1 _ hdi
  have hN1 : s.nx (.buf k) ≠ .buf k := by
    rcases hN with e | ⟨x, hx, e⟩
    · rw [e]; simp
    · rw [e]; intro h; injection h with h; subst h; exact hkl2 hx
  have hN0 : s.nx (.buf k) ≠ .null := by
    rcases hN with e | ⟨x, hx, e⟩ <;> rw [e] <;> simp
  have hP0 : s.pr (.buf k) ≠ .null := by
    rcases hP with e | ⟨x, hx, e⟩ <;> rw [e] <;> simp
  have hget := fun q => unlink_get s k q hN1 hN0 hP0
  have hnx : (unlink s (.buf k)).nx =
      fun q => if q = s.pr (.buf k) then s.nx (.buf k) else s.nx q := by
    funext q
    simp only [Bio.nx]
    rw [hget q]
    rfl
  have hpr : (unlink s (.buf k)).pr =
      fun q => if q = s.nx (.buf k) then s.pr (.buf k) else s.pr q := by
    funext q
    simp only [Bio.pr]
    rw [hget q]
    rfl
  have hPin : ∀ q, q = s.pr (.buf k) → q = .head i ∨ ∃ x, x ∈ L i ∧ q = .buf x := by
    intro q hq
    rcases hP with e | ⟨x, hx, e⟩
    · exact Or.inl (hq.trans e)
    · exact Or.inr ⟨x, by rw [hL]; simp [hx], hq.trans e⟩
  have hNin : ∀ q, q = s.nx (.buf k) → q = .head i ∨ ∃ x, x ∈ L i ∧ q = .buf x := by
    intro q hq
    rcases hN with e | ⟨x, hx, e⟩
    · exact Or.inl (hq.trans e)
    · exact Or.inr ⟨x, by rw [hL]; simp [hx], hq.trans e⟩
  have hout : ∀ j, j < c.NBUCKET → j ≠ i → ∀ q, (q = .head j ∨ ∃ x, x ∈ L j ∧ q = .buf x) →
      q ≠ s.pr (.buf k) ∧ q ≠ s.nx (.buf k) := by
    intro j hj hji q hq
    have key : ¬ (q = .head i ∨ ∃ x, x ∈ L i ∧ q = .buf x) := by
      rintro (e | ⟨x, hx, e⟩)
      · rcases hq with e1 | ⟨y, _, e1⟩
        · rw [e1] at e; injection e with e; exact hji e
        · rw [e1] at e; cases e
      · rcases hq with e1 | ⟨y, hy, e1⟩
        · rw [e1] at e; cases e
        · rw [e1] at e; injection e with e; subst e
          exact hd j i hj hi hji y hy hx
    exact ⟨fun h => key (hPin q h), fun h => key (hNin q h)⟩
  refine ⟨?_, ?_, ?_⟩
  · intro j hj
    rw [hnx, hpr]
    by_cases e : j = i
    · subst e
      rw [upd_same, hL, erase_mid l1 l2 k hnd]
      exact DLL.after_unlink j k l2 l1 _ hdi hnd (by intro x _; simp)
    · rw [upd_other _ _ _ _ e]
      have h1 := hout j hj e
      refine DLL.frame_links _ _ (hl j hj) ?_ ?_ ?_
      · simp [(h1 (.head j) (Or.inl rfl)).1]
      · simp [(h1 (.head j) (Or.inl rfl)).2]
      · intro x hx
        have := h1 (.buf x) (Or.inr ⟨x, hx, rfl⟩)
        simp [this.1, this.2]
  · intro q
    rw [hget q]
    exact ⟨rfl, rfl, rfl, rfl, rfl, rfl⟩
  · intro j hj hji
    rw [hnx]
    simp [(hout j hj hji (.head j) (Or.inl rfl)).1]

theorem pushFront_links (c : BParams) (s : Bio) (L : Nat → List Nat) (h k : Nat)
    (hl : BLinks c s L) (hd : BDisj c L) (hh : h < c.NBUCKET) (hnd : (L h).Nodup)
    (hk : ∀ j, j < c.NBUCKET → k ∉ L j) :
    BLinks c (pushFront s h (.buf k)) (upd L h (k :: L h)) ∧
    (∀ q, ((pushFront s h (.buf k)).get q).same (s.get q)) := by
  have hF := DLL.first (hl h hh)
  have hF1 : (s.head h).next ≠ .buf k := by
    rcases hF with e | ⟨x, hx, e⟩
    · simp only [Bio.nx, Bio.get_head] at e; rw [e]; simp
    · simp only [Bio.nx, Bio.get_head] at e; rw [e]
      intro h1; injection h1 with h1; subst h1; exact hk h hh hx
  have hF0 : (s.head h).next ≠ .null := by
    rcases hF with e | ⟨x, hx, e⟩ <;> simp only [Bio.nx, Bio.get_head] at e <;> rw [e] <;> simp
  have hget := fun q => pushFront_get s h k q hF1 hF0
  have hnx : (pushFront s h (.buf k)).nx =
      fun q => if q = .head h then .buf k else if q = .buf k then s.nx (.head h) else s.nx q := by
    funext q
    simp only [Bio.nx]
    rw [hget q]
    rfl
  have hpr : (pushFront s h (.buf k)).pr =
      fun q => if q = s.nx (.head h) then .buf k else if q = .buf k then .head h else s.pr q := by
    funext q
    simp only [Bio.pr]
    rw [hget q]
    rfl
  refine ⟨?_, ?_⟩
  · intro j hj
    rw [hnx, hpr]
    by_cases e : j = h
    · subst e
      rw [upd_same]
      exact DLL.after_pushFront j k (L j) (hl j hj) hnd (hk j hj)
    · rw [upd_other _ _ _ _ e]
      have hFj : ∀ x, x ∈ L j → Ptr.buf x ≠ s.nx (.head h) := by
        intro x hx h1
        rcases hF with e1 | ⟨y, hy, e1⟩
        · rw [e1] at h1; cases h1
        · rw [e1] at h1; injection h1 with h1; subst h1
          exact hd j h hj hh e x hx hy
      have hFh : Ptr.head j ≠ s.nx (.head h) := by
        intro h1
        rcases hF with e1 | ⟨y, hy, e1⟩
        · rw [e1] at h1; injection h1 with h1; exact e h1
        · rw [e1] at h1; cases h1
      refine DLL.frame_links _ _ (hl j hj) ?_ ?_ ?_
      · simp [e]
      · simp [hFh]
      · intro x hx
        have hxk : x ≠ k := fun h1 => hk j hj (h1 ▸ hx)
        simp [hxk, hFj x hx]
  · intro q
    rw [hget q]
    exact ⟨rfl, rfl, rfl, rfl, rfl, rfl⟩

/-! ### Stores that keep the links -/

theorem set_links (s : Bio) (p : Ptr) (v : Buf) (h1 : v.next = (s.get p).next)
    (h2 : v.prev = (s.get p).prev) : (s.set p v).nx = s.nx ∧ (s.set p v).pr = s.pr := by
  constructor
  · funext q
    simp only [Bio.nx]
    rw [Bio.get_set]
    split_ifs with h
    · obtain ⟨rfl, _⟩ := h; exact h1
    · rfl
  · funext q
    simp only [Bio.pr]
    rw [Bio.get_set]
    split_ifs with h
    · obtain ⟨rfl, _⟩ := h; exact h2
    · rfl

theorem set_buf_apply (s : Bio) (k x : Nat) (v : Buf) :
    (s.set (.buf k) v).buf x = if x = k then v else s.buf x := rfl

theorem BWf.disjoint {c : BParams} {s : Bio} {L : Nat → List Nat} (hw : BWf c s L) : BDisj c L := by
  intro i j hi hj hij x hx hx2
  have h1 := ((hw.mem_iff i hi x).1 hx).2
  have h2 := ((hw.mem_iff j hj x).1 hx2).2
  exact hij (h1.symm.trans h2)

/-- Overwriting a buffer with a value that has the same links and the same bucket keeps the
cache well-formed. -/
theorem BWf.set_data {c : BParams} {s : Bio} {L : Nat → List Nat} (hw : BWf c s L) (k : Nat)
    (v : Buf) (h1 : v.next = (s.buf k).next) (h2 : v.prev = (s.buf k).prev)
    (h3 : v.blockno % c.NBUCKET = (s.buf k).blockno % c.NBUCKET) :
    BWf c (s.set (.buf k) v) L := by
  obtain ⟨e1, e2⟩ := set_links s (.buf k) v h1 h2
  refine ⟨?_, hw.nodup, ?_⟩
  · intro i hi
    rw [e1, e2]
    exact hw.dll i hi
  · intro i hi b
    rw [hw.mem_iff i hi b, set_buf_apply]
    by_cases e : b = k
    · subst e; simp [h3]
    · simp [e]

theorem BHeld.set_same_id {c : BParams} {s : Bio} {L : Nat → List Nat} (hh : BHeld c s L)
    (k : Nat) (v : Buf) (h1 : v.dev = (s.buf k).dev) (h2 : v.blockno = (s.buf k).blockno)
    (h3 : 0 < v.refcnt → 0 < (s.buf k).refcnt) : BHeld c (s.set (.buf k) v) L := by
  have hid : ∀ x, ((s.set (.buf k) v).buf x).dev = (s.buf x).dev ∧
      ((s.set (.buf k) v).buf x).blockno = (s.buf x).blockno := by
    intro x
    rw [set_buf_apply]
    by_cases e : x = k
    · subst e; simp [h1, h2]
    · simp [e]
  intro b hb hr
  have hr1 : 0 < (s.buf b).refcnt := by
    rw [set_buf_apply] at hr
    by_cases e : b = k
    · subst e; simp only [if_true] at hr; exact h3 hr
    · simpa [e] using hr
  have := hh b hb hr1
  have hf : (fun x => isCached ((s.set (.buf k) v).buf b).dev ((s.set (.buf k) v).buf b).blockno
      ((s.set (.buf k) v).buf x)) = fun x => isCached (s.buf b).dev (s.buf b).blockno (s.buf x) := by
    funext x
    simp only [isCached, (hid x).1, (hid x).2, (hid b).1, (hid b).2]
  rw [hf, (hid b).2]
  exact this

/-! ### Facts about `List.find?` -/

theorem find_first_congr (p p1 : Nat → Bool) (b : Nat) :
    ∀ (l : List Nat), l.find? p = some b → p1 b = true →
      (∀ x, x ∈ l → p1 x = true → p x = true) → l.find? p1 = some b
  | [], h, _, _ => by simp at h
  | a :: t, h, hb, himp => by
    rw [List.find?_cons] at h ⊢
    by_cases hp : p a = true
    · rw [hp] at h
      injection h with h
      subst h
      rw [hb]
    · have hp1 : p1 a = false := by
        by_contra hc
        exact hp (himp a (List.mem_cons_self _ _) (by simpa using hc))
      simp only [hp, Bool.false_eq_true] at h
      rw [hp1]
      exact find_first_congr p p1 b t (by simpa [hp] using h) hb
        (fun x hx => himp x (List.mem_cons_of_mem _ hx))

theorem find_erase_ne (p : Nat → Bool) (b k : Nat) (hbk : b ≠ k) :
    ∀ (l : List Nat), l.find? p = some b → (l.erase k).find? p = some b
  | [], h => by simp at h
  | a :: t, h => by
    by_cases e : a = k
    · subst e
      rw [List.erase_cons_head]
      rw [List.find?_cons] at h
      by_cases hp : p a = true
      · rw [hp] at h
        injection h with h
        exact absurd h.symm hbk
      · simpa [hp] using h
    · rw [List.erase_cons_tail (by simpa using e)]
      rw [List.find?_cons] at h ⊢
      by_cases hp : p a = true
      · rw [hp] at h ⊢; exact h
      · simp only [hp] at h ⊢
        exact find_erase_ne p b k hbk t h

theorem find_some_pred (p : Nat → Bool) (l : List Nat) (a : Nat) (h : l.find? p = some a) :
    p a = true ∧ a ∈ l :=
  ⟨List.find?_some h, List.mem_of_find?_eq_some h⟩

theorem find_unique (p : Nat → Bool) (k : Nat) :
    ∀ (l : List Nat), k ∈ l → p k = true → (∀ x, x ∈ l → x ≠ k → p x = false) →
      l.find? p = some k
  | [], h, _, _ => by simp at h
  | a :: t, h, hk, hne => by
    rw [List.find?_cons]
    by_cases e : a = k
    · subst e; rw [hk]
    · rw [hne a (List.mem_cons_self _ _) e]
      rcases List.mem_cons.1 h with h1 | h1
      · exact absurd h1.symm e
      · exact find_unique p k t h1 hk (fun x hx => hne x (List.mem_cons_of_mem _ hx))

/-! ### The invariant across the three ways bget finds a buffer -/

theorem isCached_iff (dev blockno : Nat) (x : Buf) :
    isCached dev blockno x = true ↔ x.dev = dev ∧ x.blockno = blockno := by
  simp [isCached]

/-- Giving an idle buffer `k` an identity that no buffer of the home bucket carries keeps
every held buffer the first of its identity, provided the lists keep the order of the other
buffers and `k` is the first of the new identity. -/
theorem held_fresh (c : BParams) (s s1 : Bio) (L L1 : Nat → List Nat) (k dev blockno : Nat)
    (hN : 0 < c.NBUCKET) (hh : BHeld c s L)
    (hfresh : (L (blockno % c.NBUCKET)).find? (fun x => isCached dev blockno (s.buf x)) = none)
    (hid : ∀ x, x ≠ k → (s1.buf x).dev = (s.buf x).dev ∧
      (s1.buf x).blockno = (s.buf x).blockno ∧ (s1.buf x).refcnt = (s.buf x).refcnt)
    (hidk : (s1.buf k).dev = dev ∧ (s1.buf k).blockno = blockno)
    (hL1 : ∀ j, j < c.NBUCKET → ∀ (p : Nat → Bool) (b : Nat), b ≠ k → p k = false →
      (L j).find? p = some b → (L1 j).find? p = some b)
    (hk1 : (L1 (blockno % c.NBUCKET)).find? (fun x => isCached dev blockno (s1.buf x)) = some k) :
    BHeld c s1 L1 := by
  intro b hb hr
  by_cases e : b = k
  · subst e
    rw [hidk.1, hidk.2]
    exact hk1
  · obtain ⟨e1, e2, e3⟩ := hid b e
    rw [e3] at hr
    have h0 := hh b hb hr
    rw [e1, e2]
    have hj : (s.buf b).blockno % c.NBUCKET < c.NBUCKET := Nat.mod_lt _ hN
    obtain ⟨hpb, hbm⟩ := find_some_pred _ _ _ h0
    have hk0 : isCached (s.buf b).dev (s.buf b).blockno (s1.buf k) = false := by
      by_contra hc
      have hc1 : isCached (s.buf b).dev (s.buf b).blockno (s1.buf k) = true := by
        simpa using hc
      rw [isCached_iff, hidk.1, hidk.2] at hc1
      have hnone := List.find?_eq_none.1 hfresh b (by rw [hc1.2]; exact hbm)
      apply hnone
      rw [isCached_iff]
      exact ⟨hc1.1.symm, hc1.2.symm⟩
    apply hL1 _ hj _ b e hk0
    refine find_first_congr _ _ b _ h0 ?_ ?_
    · simp only [isCached, e1, e2] at hpb ⊢
      simp
    · intro x _ hx
      by_cases ex : x = k
      · subst ex; rw [hk0] at hx; cases hx
      · obtain ⟨d1, d2, _⟩ := hid x ex
        simpa only [isCached, d1, d2] using hx

theorem assign_buf (s : Bio) (k x dev blockno : Nat) :
    (assign s (.buf k) dev blockno).buf x =
      if x = k then { s.buf k with dev := dev, blockno := blockno, valid := 0, refcnt := 1 }
      else s.buf x := rfl

/-- A cache hit: the first buffer of the home bucket with the requested identity gets one more
reference. -/
theorem hit_inv (c : BParams) (s : Bio) (L : Nat → List Nat) (k dev blockno : Nat)
    (hinv : BInv c s L)
    (hf : (L (blockno % c.NBUCKET)).find? (fun x => isCached dev blockno (s.buf x)) = some k) :
    BInv c (s.set (.buf k) { s.get (.buf k) with refcnt := (s.get (.buf k)).refcnt + 1 }) L := by
  obtain ⟨hw, hh, hlk⟩ := hinv
  have hk := (isCached_iff _ _ _).1 (find_some_pred _ _ _ hf).1
  refine ⟨hw.set_data k _ rfl rfl rfl, ?_, ?_⟩
  · intro b hb hr
    have hid : ∀ x, ((s.set (.buf k)
        { s.get (.buf k) with refcnt := (s.get (.buf k)).refcnt + 1 }).buf x).dev = (s.buf x).dev ∧
        ((s.set (.buf k)
        { s.get (.buf k) with refcnt := (s.get (.buf k)).refcnt + 1 }).buf x).blockno
          = (s.buf x).blockno := by
      intro x
      rw [set_buf_apply]
      by_cases e : x = k
      · subst e; simp
      · simp [e]
    have hfun : (fun x => isCached ((s.set (.buf k)
        { s.get (.buf k) with refcnt := (s.get (.buf k)).refcnt + 1 }).buf b).dev
        ((s.set (.buf k) { s.get (.buf k) with refcnt := (s.get (.buf k)).refcnt + 1 }).buf b).blockno
        ((s.set (.buf k) { s.get (.buf k) with refcnt := (s.get (.buf k)).refcnt + 1 }).buf x))
        = fun x => isCached (s.buf b).dev (s.buf b).blockno (s.buf x) := by
      funext x
      simp only [isCached, (hid x).1, (hid x).2, (hid b).1, (hid b).2]
    rw [hfun, (hid b).2]
    by_cases e : b = k
    · subst e
      rw [hk.1, hk.2]
      exact hf
    · apply hh b hb
      rw [set_buf_apply, if_neg e] at hr
      exact hr
  · intro b hb hl
    rw [set_buf_apply] at hl ⊢
    by_cases e : b = k
    · subst e; simp
    · rw [if_neg e] at hl ⊢
      exact hlk b hb hl

theorem first_in_order (P : Nat → Prop) (n h : Nat) (hh : h < n) :
    (∀ i, i < n → ¬ P i) ∨
    ∃ j, j < n ∧ (∀ x, x < j → ¬ P ((h + x) % n)) ∧ P ((h + j) % n) := by
  classical
  by_cases hex : ∃ j, j < n ∧ P ((h + j) % n)
  · right
    refine ⟨Nat.find hex, (Nat.find_spec hex).1, ?_, (Nat.find_spec hex).2⟩
    intro x hx hp
    exact Nat.find_min hex hx ⟨by have := (Nat.find_spec hex).1; omega, hp⟩
  · left
    intro i hi hp
    obtain ⟨j, hj, e⟩ := mod_off_surj hh hi
    exact hex ⟨j, hj, by rw [e]; exact hp⟩

/-- Reuse of an idle buffer of the home bucket. -/
theorem reuse_inv (c : BParams) (s : Bio) (L : Nat → List Nat) (k dev blockno : Nat)
    (hN : 0 < c.NBUCKET) (hinv : BInv c s L)
    (hfresh : (L (blockno % c.NBUCKET)).find? (fun x => isCached dev blockno (s.buf x)) = none)
    (hidle : (L (blockno % c.NBUCKET)).find? (fun x => isIdle (s.buf x)) = some k) :
    BInv c (assign s (.buf k) dev blockno) L := by
  obtain ⟨hw, hh, hlk⟩ := hinv
  have hhN : blockno % c.NBUCKET < c.NBUCKET := Nat.mod_lt _ hN
  obtain ⟨_, hkm⟩ := find_some_pred _ _ _ hidle
  obtain ⟨hkN, hkb⟩ := (hw.mem_iff _ hhN k).1 hkm
  refine ⟨hw.set_data k _ rfl rfl hkb.symm, ?_, ?_⟩
  · refine held_fresh c s _ L L k dev blockno hN hh hfresh ?_ ?_ ?_ ?_
    · intro x hx
      rw [assign_buf, if_neg hx]
      exact ⟨rfl, rfl, rfl⟩
    · rw [assign_buf, if_pos rfl]
      exact ⟨rfl, rfl⟩
    · intro j _ p b _ _ h
      exact h
    · refine find_unique _ k _ hkm ?_ ?_
      · rw [assign_buf, if_pos rfl]
        simp [isCached]
      · intro x hx hxk
        rw [assign_buf, if_neg hxk]
        have := List.find?_eq_none.1 hfresh x hx
        simpa using this
  · intro b hb hl
    rw [assign_buf] at hl ⊢
    by_cases e : b = k
    · subst e; simp
    · rw [if_neg e] at hl ⊢
      exact hlk b hb hl

/-- Stealing an idle buffer `k` of bucket `i` into the home bucket `h`. -/
theorem steal_wf (c : BParams) (s : Bio) (L : Nat → List Nat) (i h k dev blockno : Nat)
    (hw : BWf c s L) (hi : i < c.NBUCKET) (hh : h < c.NBUCKET)
    (hb : blockno % c.NBUCKET = h) (hih : i ≠ h) (hk : k ∈ L i) :
    BWf c (pushFront (unlink (assign s (.buf k) dev blockno) (.buf k)) h (.buf k))
      (upd (upd L i ((L i).erase k)) h (k :: L h)) ∧
    ∀ x, ((pushFront (unlink (assign s (.buf k) dev blockno) (.buf k)) h (.buf k)).buf x).same
      ((assign s (.buf k) dev blockno).buf x) := by
  obtain ⟨el1, el2⟩ := set_links s (.buf k)
    { s.get (.buf k) with dev := dev, blockno := blockno, valid := 0, refcnt := 1 } rfl rfl
  have hl1 : BLinks c (assign s (.buf k) dev blockno) L := by
    intro j hj
    show DLL (s.set _ _).nx (s.set _ _).pr _ _ _
    rw [el1, el2]
    exact hw.dll j hj
  have hd := hw.disjoint
  obtain ⟨hl2, hs2, _⟩ := unlink_links c _ L i k hl1 hd hi (hw.nodup i hi) hk
  have hsub : ∀ j x, x ∈ upd L i ((L i).erase k) j → x ∈ L j := by
    intro j x hx
    by_cases e : j = i
    · subst e
      rw [upd_same] at hx
      exact List.mem_of_mem_erase hx
    · rwa [upd_other _ _ _ _ e] at hx
  have hd2 : BDisj c (upd L i ((L i).erase k)) := by
    intro a b ha hb hab x hx hx2
    exact hd a b ha hb hab x (hsub a x hx) (hsub b x hx2)
  have hk2 : ∀ j, j < c.NBUCKET → k ∉ upd L i ((L i).erase k) j := by
    intro j hj hm
    by_cases e : j = i
    · subst e
      rw [upd_same] at hm
      exact ((hw.nodup j hj).mem_erase_iff.1 hm).1 rfl
    · rw [upd_other _ _ _ _ e] at hm
      exact hd i j hi hj (Ne.symm e) k hk hm
  have hLh : upd L i ((L i).erase k) h = L h := upd_other _ _ _ _ (Ne.symm hih)
  obtain ⟨hl3, hs3⟩ := pushFront_links c _ _ h k hl2 hd2 hh
    (by rw [hLh]; exact hw.nodup h hh) hk2
  rw [hLh] at hl3
  have hkN : k < c.NBUF := ((hw.mem_iff i hi k).1 hk).1
  have hblk : ∀ x, ((pushFront (unlink (assign s (.buf k) dev blockno) (.buf k)) h
      (.buf k)).buf x).blockno = if x = k then blockno else (s.buf x).blockno := by
    intro x
    have a1 := (hs3 (.buf x)).2.2.1
    have a2 := (hs2 (.buf x)).2.2.1
    simp only [Bio.get_buf] at a1 a2
    rw [a1, a2, assign_buf]
    by_cases e : x = k
    · simp [e]
    · simp [e]
  refine ⟨⟨hl3, ?_, ?_⟩, ?_⟩
  · intro j hj
    by_cases e : j = h
    · rw [e, upd_same]
      exact List.nodup_cons.2 ⟨by rw [← hLh]; exact hk2 h hh, hw.nodup h hh⟩
    · rw [upd_other _ _ _ _ e]
      by_cases e1 : j = i
      · rw [e1, upd_same]
        exact (hw.nodup i hi).erase k
      · rw [upd_other _ _ _ _ e1]
        exact hw.nodup j hj
  · intro j hj b
    rw [hblk b]
    by_cases e : j = h
    · rw [e, upd_same, List.mem_cons, hw.mem_iff h hh b]
      by_cases eb : b = k
      · rw [eb]
        simp only [if_true, true_or, true_iff]
        exact ⟨hkN, hb⟩
      · simp [eb]
    · rw [upd_other _ _ _ _ e]
      by_cases e1 : j = i
      · rw [e1, upd_same, (hw.nodup i hi).mem_erase_iff, hw.mem_iff i hi b]
        by_cases eb : b = k
        · rw [eb]
          simp only [ne_eq, not_true_eq_false, false_and, if_true, false_iff, not_and]
          intro _ h1
          exact hih (h1.symm.trans hb)
        · simp [eb]
      · rw [upd_other _ _ _ _ e1]
        by_cases eb : b = k
        · rw [eb]
          simp only [if_true]
          constructor
          · intro h1
            exact absurd h1 (hd i j hi hj (Ne.symm e1) k hk)
          · intro h1
            exact absurd (h1.2.symm.trans hb) e
        · rw [hw.mem_iff j hj b]
          simp [eb]
  · intro x
    have a1 := hs3 (.buf x)
    have a2 := hs2 (.buf x)
    simp only [Bio.get_buf] at a1 a2
    exact ⟨a1.1.trans a2.1, a1.2.1.trans a2.2.1, a1.2.2.1.trans a2.2.2.1,
      a1.2.2.2.1.trans a2.2.2.2.1, a1.2.2.2.2.1.trans a2.2.2.2.2.1,
      a1.2.2.2.2.2.trans a2.2.2.2.2.2⟩

theorem steal_inv (c : BParams) (s : Bio) (L : Nat → List Nat) (i h k dev blockno : Nat)
    (hN : 0 < c.NBUCKET) (hinv : BInv c s L) (hi : i < c.NBUCKET) (hh : h < c.NBUCKET)
    (hb : blockno % c.NBUCKET = h) (hih : i ≠ h)
    (hfresh : (L h).find? (fun x => isCached dev blockno (s.buf x)) = none)
    (hidle : (L i).find? (fun x => isIdle (s.buf x)) = some k) :
    BInv c (stealState s h k dev blockno) (stealLists L i h k) := by
  obtain ⟨hw, hheld, hlk⟩ := hinv
  obtain ⟨_, hkm⟩ := find_some_pred _ _ _ hidle
  obtain ⟨hw3, hs3⟩ := steal_wf c s L i h k dev blockno hw hi hh hb hih hkm
  have hkh : k ∉ L h := hw.disjoint i h hi hh hih k hkm
  refine ⟨hw3, ?_, ?_⟩
  · refine held_fresh c s _ L _ k dev blockno hN hheld (by rw [hb]; exact hfresh) ?_ ?_ ?_ ?_
    · intro x hx
      have a := hs3 x
      rw [assign_buf, if_neg hx] at a
      exact ⟨a.2.1, a.2.2.1, a.2.2.2.2.1⟩
    · have a := hs3 k
      rw [assign_buf, if_pos rfl] at a
      exact ⟨a.2.1, a.2.2.1⟩
    · intro j hj p b hbk hpk hf
      unfold stealLists
      by_cases e : j = h
      · rw [e, upd_same, List.find?_cons, hpk]
        rw [e] at hf
        exact hf
      · rw [upd_other _ _ _ _ e]
        by_cases e1 : j = i
        · rw [e1, upd_same]
          rw [e1] at hf
          exact find_erase_ne p b k hbk _ hf
        · rw [upd_other _ _ _ _ e1]
          exact hf
    · unfold stealLists
      rw [hb, upd_same, List.find?_cons]
      have a := hs3 k
      rw [assign_buf, if_pos rfl] at a
      have : isCached dev blockno ((stealState s h k dev blockno).buf k) = true := by
        rw [isCached_iff]
        exact ⟨a.2.1, a.2.2.1⟩
      rw [this]
  · intro b hbN hl
    have a := hs3 b
    have hl1 : ((stealState s h k dev blockno).buf b).lock
        = ((assign s (.buf k) dev blockno).buf b).lock := a.2.2.2.1
    have hr1 : ((stealState s h k dev blockno).buf b).refcnt
        = ((assign s (.buf k) dev blockno).buf b).refcnt := a.2.2.2.2.1
    rw [hr1]
    rw [hl1] at hl
    rw [assign_buf] at hl ⊢
    by_cases e : b = k
    · rw [if_pos e]; simp
    · rw [if_neg e] at hl ⊢
      exact hlk b hbN hl

/-- Taking the sleep lock of a buffer that has a reference. -/
theorem lock_inv (c : BParams) (pid : Nat) (s : Bio) (L : Nat → List Nat) (k : Nat)
    (hinv : BInv c s L) (hr : 0 < (s.buf k).refcnt) : BInv c (lockState pid s k) L := by
  obtain ⟨hw, hheld, hlk⟩ := hinv
  refine ⟨hw.set_data k _ rfl rfl rfl, ?_, ?_⟩
  · exact hheld.set_same_id k _ rfl rfl (fun _ => hr)
  · intro b hb hl
    unfold lockState at hl ⊢
    rw [set_buf_apply] at hl ⊢
    by_cases e : b = k
    · rw [if_pos e]; exact hr
    · rw [if_neg e] at hl ⊢
      exact hlk b hb hl

theorem acquiresleep_cases (pid : Nat) (s : Bio) (k : Nat) :
    ((s.buf k).lock = none ∧ acquiresleep pid s (.buf k) = .ret (lockState pid s k) (.buf k)) ∨
    ((s.buf k).lock ≠ none ∧ acquiresleep pid s (.buf k) = .sleep s (.buf k)) := by
  unfold acquiresleep lockState
  simp only [Bio.get_buf]
  cases h : (s.buf k).lock with
  | none => left; exact ⟨rfl, rfl⟩
  | some p => right; exact ⟨by simp, rfl⟩

/-- What `bget` does on a well-formed cache, case by case: a hit on the first buffer of the
home bucket with the requested identity; else the first idle buffer of the home bucket; else
the first idle buffer of the first bucket after the home bucket, in circular order, that has
one; else the panic. -/
theorem bget_cases (c : BParams) (pid : Nat) (s : Bio) (L : Nat → List Nat) (dev blockno : Nat)
    (hN : 0 < c.NBUCKET) (hw : BWf c s L) :
    (∃ k, (L (blockno % c.NBUCKET)).find? (fun x => isCached dev blockno (s.buf x)) = some k ∧
      bget c pid s dev blockno = acquiresleep pid (hitState s k) (.buf k)) ∨
    ((L (blockno % c.NBUCKET)).find? (fun x => isCached dev blockno (s.buf x)) = none ∧
      ((∃ k, (L (blockno % c.NBUCKET)).find? (fun x => isIdle (s.buf x)) = some k ∧
          bget c pid s dev blockno = acquiresleep pid (assign s (.buf k) dev blockno) (.buf k)) ∨
       (∃ j k, 0 < j ∧ j < c.NBUCKET ∧
          (∀ x, x < j →
            (L ((blockno % c.NBUCKET + x) % c.NBUCKET)).find? (fun x => isIdle (s.buf x))
              = none) ∧
          (L ((blockno % c.NBUCKET + j) % c.NBUCKET)).find? (fun x => isIdle (s.buf x))
            = some k ∧
          bget c pid s dev blockno =
            acquiresleep pid (stealState s (blockno % c.NBUCKET) k dev blockno) (.buf k)) ∨
       ((∀ i, i < c.NBUCKET → (L i).find? (fun x => isIdle (s.buf x)) = none) ∧
          bget c pid s dev blockno = .panic "bget: no buffers" s))) := by
  have hh : blockno % c.NBUCKET < c.NBUCKET := Nat.mod_lt _ hN
  generalize hhdef : blockno % c.NBUCKET = h at hh
  have hsc := fun pred i hi => scan_bucket c s L hw pred i hi
  unfold bget
  simp only [hhdef]
  rw [hsc _ h hh]
  cases hc : (L h).find? (fun x => isCached dev blockno (s.buf x)) with
  | some k => exact Or.inl ⟨k, rfl, rfl⟩
  | none =>
    refine Or.inr ⟨rfl, ?_⟩
    simp only
    rw [hsc _ h hh]
    rcases first_in_order (fun i => (L i).find? (fun x => isIdle (s.buf x)) ≠ none)
        c.NBUCKET h hh with hnone | ⟨j, hj, hlt, hfound⟩
    · right; right
      have hnone1 : ∀ i, i < c.NBUCKET → (L i).find? (fun x => isIdle (s.buf x)) = none :=
        fun i hi => by simpa using hnone i hi
      refine ⟨hnone1, ?_⟩
      rw [hnone1 h hh]
      simp only
      refine bgetSteal_none c pid dev blockno h s hh (c.NBUCKET - 1) 1 c.NBUCKET (by omega)
        (by omega) (by omega) ?_
      intro x _ _
      have hx : (h + x) % c.NBUCKET < c.NBUCKET := Nat.mod_lt _ hN
      rw [hsc _ _ hx, hnone1 _ hx]
    · have hlt1 : ∀ x, x < j → (L ((h + x) % c.NBUCKET)).find? (fun x => isIdle (s.buf x))
          = none := fun x hx => by simpa using hlt x hx
      obtain ⟨k, hk⟩ := Option.ne_none_iff_exists'.1 hfound
      cases j with
      | zero =>
        left
        simp only [Nat.add_zero, Nat.mod_eq_of_lt hh] at hk
        exact ⟨k, hk, by rw [hk]⟩
      | succ j =>
        right; left
        have h0 := hlt1 0 (by omega)
        simp only [Nat.add_zero, Nat.mod_eq_of_lt hh] at h0
        refine ⟨j + 1, k, by omega, hj, hlt1, hk, ?_⟩
        rw [h0]
        simp only
        have hx : (h + (j + 1)) % c.NBUCKET < c.NBUCKET := Nat.mod_lt _ hN
        have := bgetSteal_found c pid dev blockno h s (.buf k) hh j 1 c.NBUCKET (by omega)
          (by omega) (by omega)
          (fun x h1 h2 => by
            have hx1 : (h + x) % c.NBUCKET < c.NBUCKET := Nat.mod_lt _ hN
            rw [hsc _ _ hx1, hlt1 x (by omega)])
          (by
            rw [show 1 + j = j + 1 by omega, hsc _ _ hx, hk])
        rw [this]
        rfl

/-! ### binit -/

theorem upd_upd {α : Type} (f : Nat → α) (i : Nat) (v w : α) :
    upd (upd f i v) i w = upd f i w := by
  funext j
  simp only [upd]
  split_ifs <;> rfl

theorem Bio.set_set (s : Bio) (p : Ptr) (v w : Buf) : (s.set p v).set p w = s.set p w := by
  cases p with
  | null => rfl
  | head i => simp [Bio.set, upd_upd]
  | buf b => simp [Bio.set, upd_upd]

theorem binitBuf_eq (s : Bio) (b : Nat) :
    binitBuf s b = pushFront (s.set (.buf b) { s.get (.buf b) with lock := none }) 0 (.buf b) := by
  simp only [binitBuf, pushFront, Bio.set_set, Bio.set_buf_head, Bio.get_set_same _ _ _
    (show Ptr.buf b ≠ Ptr.null by simp)]

theorem mem_descList : ∀ (n x : Nat), x ∈ descList n ↔ x < n
  | 0, x => by simp [descList]
  | n + 1, x => by
    simp only [descList, List.mem_cons, mem_descList n]
    omega

theorem nodup_descList : ∀ (n : Nat), (descList n).Nodup
  | 0 => by simp [descList]
  | n + 1 => by
    simp only [descList]
    exact List.nodup_cons.2 ⟨by rw [mem_descList]; omega, nodup_descList n⟩

theorem binitHead_fold (s : Bio) :
    ∀ (n : Nat), ((List.range n).foldl binitHead s).buf = s.buf ∧
      ∀ i, i < n → (((List.range n).foldl binitHead s).head i).next = .head i ∧
        (((List.range n).foldl binitHead s).head i).prev = .head i
  | 0 => ⟨rfl, fun i hi => by omega⟩
  | n + 1 => by
    obtain ⟨ih1, ih2⟩ := binitHead_fold s n
    rw [List.range_succ, List.foldl_append]
    simp only [List.foldl_cons, List.foldl_nil]
    refine ⟨by simp [binitHead, ih1], ?_⟩
    intro i hi
    by_cases e : i = n
    · subst e
      simp [binitHead, Bio.set, upd]
    · have := ih2 i (by omega)
      simp only [binitHead, Bio.set, upd, if_neg e]
      exact this

theorem binitBuf_fold (c : BParams) (s : Bio) (hN : 0 < c.NBUCKET)
    (hl : BLinks c s (fun _ => [])) (hz : ∀ x, (s.buf x).zeroData) :
    ∀ (n : Nat), BLinks c ((List.range n).foldl binitBuf s) (upd (fun _ => []) 0 (descList n)) ∧
      ∀ x, (((List.range n).foldl binitBuf s).buf x).zeroData
  | 0 => by
    refine ⟨?_, hz⟩
    intro i hi
    have := hl i hi
    by_cases e : i = 0
    · subst e; simpa [descList] using this
    · simpa [upd_other _ _ _ _ e] using this
  | n + 1 => by
    obtain ⟨ih1, ih2⟩ := binitBuf_fold c s hN hl hz n
    rw [List.range_succ, List.foldl_append]
    simp only [List.foldl_cons, List.foldl_nil]
    generalize (List.range n).foldl binitBuf s = t at ih1 ih2
    rw [binitBuf_eq]
    obtain ⟨el1, el2⟩ := set_links t (.buf n) { t.get (.buf n) with lock := none } rfl rfl
    have hl1 : BLinks c (t.set (.buf n) { t.get (.buf n) with lock := none })
        (upd (fun _ => []) 0 (descList n)) := by
      intro j hj
      rw [el1, el2]
      exact ih1 j hj
    have hd : BDisj c (upd (fun _ => []) 0 (descList n)) := by
      intro i j _ _ hij x hx hx2
      by_cases e : i = 0
      · rw [upd_other _ _ _ _ (by omega : j ≠ 0)] at hx2
        simp at hx2
      · rw [upd_other _ _ _ _ e] at hx
        simp at hx
    have hk : ∀ j, j < c.NBUCKET → n ∉ upd (fun _ => []) 0 (descList n) j := by
      intro j _ hm
      by_cases e : j = 0
      · rw [e, upd_same, mem_descList] at hm; omega
      · rw [upd_other _ _ _ _ e] at hm
        simp at hm
    obtain ⟨hl2, hs2⟩ := pushFront_links c _ _ 0 n hl1 hd hN
      (by rw [upd_same]; exact nodup_descList n) hk
    rw [upd_same, upd_upd] at hl2
    refine ⟨hl2, ?_⟩
    intro x
    have a := hs2 (.buf x)
    simp only [Bio.get_buf, set_buf_apply] at a
    obtain ⟨a1, a2, a3, a4, a5, _⟩ := a
    have z := ih2 x
    obtain ⟨z1, z2, z3, z4, z5⟩ := z
    by_cases e : x = n
    · subst e
      simp only [if_true] at a1 a2 a3 a4 a5
      exact ⟨a1.trans z1, a2.trans z2, a3.trans z3, a4, a5.trans z5⟩
    · simp only [e, if_false] at a1 a2 a3 a4 a5
      exact ⟨a1.trans z1, a2.trans z2, a3.trans z3, a4.trans z4, a5.trans z5⟩

/-- The cache produced by `binit` satisfies the invariant: every buffer is in bucket 0. -/
theorem binit_inv (c : BParams) (d : Nat → Nat → List Nat) (hN : 0 < c.NBUCKET) :
    BInv c (binit c (bioZero d)) (binitLists c) ∧
      ∀ x, ((binit c (bioZero d)).buf x).zeroData := by
  obtain ⟨hb, hh⟩ := binitHead_fold (bioZero d) c.NBUCKET
  have hl0 : BLinks c ((List.range c.NBUCKET).foldl binitHead (bioZero d)) (fun _ => []) := by
    intro i hi
    exact ⟨(hh i hi).1, (hh i hi).2⟩
  have hz0 : ∀ x, (((List.range c.NBUCKET).foldl binitHead (bioZero d)).buf x).zeroData := by
    intro x
    rw [hb]
    exact ⟨rfl, rfl, rfl, rfl, rfl⟩
  obtain ⟨hl, hz⟩ := binitBuf_fold c _ hN hl0 hz0 c.NBUF
  refine ⟨⟨⟨hl, ?_, ?_⟩, ?_, ?_⟩, hz⟩
  · intro i _
    by_cases e : i = 0
    · rw [e, binitLists, upd_same]; exact nodup_descList _
    · rw [binitLists, upd_other _ _ _ _ e]; exact List.nodup_nil
  · intro i hi b
    have hb0 : ((binit c (bioZero d)).buf b).blockno = 0 := (hz b).2.2.1
    rw [hb0, Nat.zero_mod]
    by_cases e : i = 0
    · rw [e, binitLists, upd_same, mem_descList]; simp
    · rw [binitLists, upd_other _ _ _ _ e]
      simp only [List.not_mem_nil, false_iff, not_and]
      intro _ h; exact e h.symm
  · intro b _ hr
    have := (hz b).2.2.2.2
    unfold binit at hr
    omega
  · intro b _ hlk
    exact absurd (hz b).2.2.2.1 hlk

/-! ### The invariant is kept by bget, bread and brelse -/

theorem BInv.of_buf_head {c : BParams} {s t : Bio} {L : Nat → List Nat} (h1 : t.buf = s.buf)
    (h2 : t.head = s.head) (hinv : BInv c s L) : BInv c t L := by
  have hget : t.get = s.get := by
    funext q
    cases q with
    | null => rfl
    | head i => simp [Bio.get, h2]
    | buf b => simp [Bio.get, h1]
  have hnx : t.nx = s.nx := by funext q; simp [Bio.nx, hget]
  have hpr : t.pr = s.pr := by funext q; simp [Bio.pr, hget]
  obtain ⟨hw, hh, hl⟩ := hinv
  refine ⟨⟨?_, hw.nodup, ?_⟩, ?_, ?_⟩
  · intro i hi; rw [hnx, hpr]; exact hw.dll i hi
  · intro i hi b; rw [h1]; exact hw.mem_iff i hi b
  · intro b hb hr
    rw [h1] at hr ⊢
    exact hh b hb hr
  · intro b hb hlk
    rw [h1] at hlk ⊢
    exact hl b hb hlk

/-- Unless it panics, `bget` reaches `acquiresleep` in a state that satisfies the invariant and
in which the chosen buffer carries the requested identity and has a reference. -/
theorem bget_step (c : BParams) (pid : Nat) (s : Bio) (L : Nat → List Nat) (dev blockno : Nat)
    (hN : 0 < c.NBUCKET) (hinv : BInv c s L) :
    (bget c pid s dev blockno = .panic "bget: no buffers" s ∧
      (L (blockno % c.NBUCKET)).find? (fun x => isCached dev blockno (s.buf x)) = none ∧
      ∀ i, i < c.NBUCKET → (L i).find? (fun x => isIdle (s.buf x)) = none) ∨
    ∃ s0 L1 k, BInv c s0 L1 ∧ k < c.NBUF ∧ (s0.buf k).dev = dev ∧
      (s0.buf k).blockno = blockno ∧ 0 < (s0.buf k).refcnt ∧
      bget c pid s dev blockno = acquiresleep pid s0 (.buf k) := by
  have hh : blockno % c.NBUCKET < c.NBUCKET := Nat.mod_lt _ hN
  have hw := hinv.1
  rcases bget_cases c pid s L dev blockno hN hw with
    ⟨k, hf, e⟩ | ⟨hfresh, ⟨k, hidle, e⟩ | ⟨j, k, hj0, hj, _, hidle, e⟩ | ⟨hnone, e⟩⟩
  · right
    obtain ⟨hp, hm⟩ := find_some_pred _ _ _ hf
    have hk := (isCached_iff _ _ _).1 hp
    refine ⟨hitState s k, L, k, hit_inv c s L k dev blockno hinv hf,
      ((hw.mem_iff _ hh k).1 hm).1, ?_, ?_, ?_, e⟩
    · simp [hitState, set_buf_apply, hk.1]
    · simp [hitState, set_buf_apply, hk.2]
    · simp [hitState, set_buf_apply]
  · right
    obtain ⟨_, hm⟩ := find_some_pred _ _ _ hidle
    refine ⟨assign s (.buf k) dev blockno, L, k,
      reuse_inv c s L k dev blockno hN hinv hfresh hidle, ((hw.mem_iff _ hh k).1 hm).1, ?_, ?_, ?_,
      e⟩
    · simp [assign_buf]
    · simp [assign_buf]
    · simp [assign_buf]
  · right
    have hi : (blockno % c.NBUCKET + j) % c.NBUCKET < c.NBUCKET := Nat.mod_lt _ hN
    obtain ⟨_, hm⟩ := find_some_pred _ _ _ hidle
    have hne := mod_off_ne hh hj0 hj
    have hinv3 := steal_inv c s L _ _ k dev blockno hN hinv hi hh rfl hne hfresh hidle
    obtain ⟨_, hs3⟩ := steal_wf c s L _ _ k dev blockno hw hi hh rfl hne hm
    have a := hs3 k
    rw [assign_buf, if_pos rfl] at a
    refine ⟨_, _, k, hinv3, ((hw.mem_iff _ hi k).1 hm).1, a.2.1, a.2.2.1, ?_, e⟩
    have : ((stealState s (blockno % c.NBUCKET) k dev blockno).buf k).refcnt = 1 := a.2.2.2.2.1
    omega
  · left
    exact ⟨e, hfresh, hnone⟩

/-- The invariant holds after a `bget` that returns or suspends, and the buffer it hands out
carries the requested identity. -/
theorem bget_inv (c : BParams) (pid : Nat) (s s1 : Bio) (L : Nat → List Nat)
    (dev blockno : Nat) (b : Ptr) (hN : 0 < c.NBUCKET) (hinv : BInv c s L)
    (h : bget c pid s dev blockno = .ret s1 b ∨ bget c pid s dev blockno = .sleep s1 b) :
    ∃ L1 k, BInv c s1 L1 ∧ b = .buf k ∧ k < c.NBUF ∧ (s1.buf k).dev = dev ∧
      (s1.buf k).blockno = blockno ∧ 0 < (s1.buf k).refcnt := by
  rcases bget_step c pid s L dev blockno hN hinv with ⟨e, _⟩ | ⟨s0, L1, k, hinv0, hk, hd, hb, hr, e⟩
  · rw [e] at h
    rcases h with h | h <;> cases h
  · rw [e] at h
    rcases acquiresleep_cases pid s0 k with ⟨_, e1⟩ | ⟨_, e1⟩
    · rw [e1] at h
      rcases h with h | h
      · injection h with h1 h2
        subst h1 h2
        refine ⟨L1, k, lock_inv c pid s0 L1 k hinv0 hr, rfl, hk, ?_, ?_, ?_⟩
        · simpa [lockState, set_buf_apply] using hd
        · simpa [lockState, set_buf_apply] using hb
        · simpa [lockState, set_buf_apply] using hr
      · cases h
    · rw [e1] at h
      rcases h with h | h
      · cases h
      · injection h with h1 h2
        subst h1 h2
        exact ⟨L1, k, hinv0, rfl, hk, hd, hb, hr⟩

theorem upd_self {α : Type} (f : Nat → α) (i : Nat) : upd f i (f i) = f := by
  funext j
  simp only [upd]
  split_ifs with h
  · rw [h]
  · rfl

/-- Overwriting a buffer with a value that differs at most in `valid` and `data`. -/
theorem BInv.set_payload {c : BParams} {s : Bio} {L : Nat → List Nat} (hinv : BInv c s L)
    (k : Nat) (v : Buf) (h1 : v.next = (s.buf k).next) (h2 : v.prev = (s.buf k).prev)
    (h3 : v.dev = (s.buf k).dev) (h4 : v.blockno = (s.buf k).blockno)
    (h5 : v.refcnt = (s.buf k).refcnt) (h6 : v.lock = (s.buf k).lock) :
    BInv c (s.set (.buf k) v) L := by
  obtain ⟨hw, hh, hl⟩ := hinv
  refine ⟨hw.set_data k v h1 h2 (by rw [h4]), hh.set_same_id k v h3 h4 (by rw [h5]; exact id),
    ?_⟩
  intro b hb hlk
  rw [set_buf_apply] at hlk ⊢
  by_cases e : b = k
  · subst e
    simp only [if_true] at hlk ⊢
    rw [h5]; rw [h6] at hlk
    exact hl b hb hlk
  · rw [if_neg e] at hlk ⊢; exact hl b hb hlk

theorem breadFill_buf (s : Bio) (k : Nat) :
    (breadFill s (.buf k)).buf = upd s.buf k (filled s k) ∧
    (breadFill s (.buf k)).head = s.head := by
  unfold breadFill filled
  by_cases hv : (s.buf k).valid = 0
  · simp only [Bio.get_buf, hv, if_true, diskRead]
    exact ⟨by simp [Bio.set, upd_upd], rfl⟩
  · simp only [Bio.get_buf, hv, if_false, and_true]
    exact (upd_self _ _).symm

theorem breadFill_inv (c : BParams) (s : Bio) (L : Nat → List Nat) (k : Nat)
    (hinv : BInv c s L) :
    BInv c (breadFill s (.buf k)) L ∧
    ∀ x, ((breadFill s (.buf k)).buf x).dev = (s.buf x).dev ∧
      ((breadFill s (.buf k)).buf x).blockno = (s.buf x).blockno ∧
      ((breadFill s (.buf k)).buf x).refcnt = (s.buf x).refcnt ∧
      ((breadFill s (.buf k)).buf x).lock = (s.buf x).lock := by
  obtain ⟨e1, e2⟩ := breadFill_buf s k
  have hf : (filled s k).next = (s.buf k).next ∧ (filled s k).prev = (s.buf k).prev ∧
      (filled s k).dev = (s.buf k).dev ∧ (filled s k).blockno = (s.buf k).blockno ∧
      (filled s k).refcnt = (s.buf k).refcnt ∧ (filled s k).lock = (s.buf k).lock := by
    unfold filled
    split_ifs <;> exact ⟨rfl, rfl, rfl, rfl, rfl, rfl⟩
  constructor
  · exact BInv.of_buf_head (s := s.set (.buf k) (filled s k)) e1 e2
      (hinv.set_payload k _ hf.1 hf.2.1 hf.2.2.1 hf.2.2.2.1 hf.2.2.2.2.1 hf.2.2.2.2.2)
  · intro x
    rw [e1]
    by_cases e : x = k
    · subst e
      rw [upd_same]
      exact ⟨hf.2.2.1, hf.2.2.2.1, hf.2.2.2.2.1, hf.2.2.2.2.2⟩
    · rw [upd_other _ _ _ _ e]
      exact ⟨rfl, rfl, rfl, rfl⟩

theorem refDec_pos (n : Nat) (h : 0 < n) : refDec n = n - 1 := by
  unfold refDec
  rw [if_neg (by omega)]

theorem holding_lock (pid : Nat) (s : Bio) (k : Nat)
    (hh : holdingsleep pid s (.buf k) = true) : (s.buf k).lock ≠ none := by
  intro hl
  simp [holdingsleep, hl] at hh

theorem brelse_ret (pid : Nat) (s : Bio) (k : Nat) (hh : holdingsleep pid s (.buf k) = true) :
    brelse pid s (.buf k) =
      .ret (s.set (.buf k) { s.buf k with lock := none, refcnt := refDec (s.buf k).refcnt }) () := by
  unfold brelse
  simp only [hh, Bool.not_true, Bool.false_eq_true, if_false, releasesleep, Bio.set_set,
    Bio.get_buf, Bio.get_set_same _ _ _ (show Ptr.buf k ≠ Ptr.null by simp)]

theorem brelse_inv (c : BParams) (s : Bio) (L : Nat → List Nat) (k : Nat)
    (hinv : BInv c s L) (hr : 0 < (s.buf k).refcnt) :
    BInv c (s.set (.buf k) { s.buf k with lock := none, refcnt := refDec (s.buf k).refcnt }) L := by
  obtain ⟨hw, hh, hl⟩ := hinv
  refine ⟨hw.set_data k _ rfl rfl rfl, hh.set_same_id k _ rfl rfl ?_, ?_⟩
  · intro _
    exact hr
  · intro b hb hlk
    rw [set_buf_apply] at hlk ⊢
    by_cases e : b = k
    · subst e; simp at hlk
    · rw [if_neg e] at hlk ⊢; exact hl b hb hlk

theorem bread_cases (c : BParams) (pid : Nat) (s s1 : Bio) (dev blockno : Nat) (b : Ptr) :
    (bread c pid s dev blockno = .ret s1 b ↔
      ∃ s0, bget c pid s dev blockno = .ret s0 b ∧ s1 = breadFill s0 b) ∧
    (bread c pid s dev blockno = .sleep s1 b ↔ bget c pid s dev blockno = .sleep s1 b) := by
  unfold bread
  cases h : bget c pid s dev blockno with
  | ret s0 b0 =>
    simp only [reduceCtorEq, iff_false, and_true, Out.ret.injEq, not_false_eq_true]
    constructor
    · rintro ⟨e1, e2⟩
      exact ⟨s0, ⟨rfl, e2⟩, by rw [← e2]; exact e1.symm⟩
    · rintro ⟨s2, ⟨e1, e2⟩, e3⟩
      subst e1 e2
      exact ⟨e3.symm, rfl⟩
  | sleep s0 b0 => simp
  | panic m s0 => simp
  | diverge => simp

/-- Every reachable cache state satisfies the invariant. -/
theorem breach_inv (c : BParams) (d : Nat → Nat → List Nat) (hN : 0 < c.NBUCKET) (s : Bio)
    (h : BReach c d s) : ∃ L, BInv c s L := by
  induction h with
  | init => exact ⟨_, (binit_inv c d hN).1⟩
  | bget s s1 pid dev blockno b _ e ih =>
    obtain ⟨L, hinv⟩ := ih
    obtain ⟨L1, _, hinv1, _⟩ := bget_inv c pid s s1 L dev blockno b hN hinv e
    exact ⟨L1, hinv1⟩
  | bread s s1 pid dev blockno b _ e ih =>
    obtain ⟨L, hinv⟩ := ih
    rcases e with e | e
    · obtain ⟨s0, e0, e1⟩ := ((bread_cases c pid s s1 dev blockno b).1).1 e
      obtain ⟨L1, k, hinv1, hb, _⟩ := bget_inv c pid s s0 L dev blockno b hN hinv (Or.inl e0)
      subst hb e1
      exact ⟨L1, (breadFill_inv c s0 L1 k hinv1).1⟩
    · have e0 := ((bread_cases c pid s s1 dev blockno b).2).1 e
      obtain ⟨L1, _, hinv1, _⟩ := bget_inv c pid s s1 L dev blockno b hN hinv (Or.inr e0)
      exact ⟨L1, hinv1⟩
  | brelse s s1 pid b _ hb hh e ih =>
    obtain ⟨L, hinv⟩ := ih
    rw [brelse_ret pid s b hh] at e
    injection e with e
    subst e
    exact ⟨L, brelse_inv c s L b hinv (hinv.2.2 b hb (holding_lock pid s b hh))⟩

/-- On a well-formed cache the loops of `bget` end within their fuel. -/
theorem bget_no_diverge (c : BParams) (pid : Nat) (s : Bio) (L : Nat → List Nat)
    (dev blockno : Nat) (hN : 0 < c.NBUCKET) (hw : BWf c s L) :
    (∃ s1 b, bget c pid s dev blockno = .ret s1 b) ∨
    (∃ s1 b, bget c pid s dev blockno = .sleep s1 b) ∨
    bget c pid s dev blockno = .panic "bget: no buffers" s := by
  have hacq : ∀ s0 k, (∃ s1 b, acquiresleep pid s0 (.buf k) = .ret s1 b) ∨
      (∃ s1 b, acquiresleep pid s0 (.buf k) = .sleep s1 b) := by
    intro s0 k
    rcases acquiresleep_cases pid s0 k with ⟨_, e⟩ | ⟨_, e⟩
    · exact Or.inl ⟨_, _, e⟩
    · exact Or.inr ⟨_, _, e⟩
  rcases bget_cases c pid s L dev blockno hN hw with
    ⟨k, _, e⟩ | ⟨_, ⟨k, _, e⟩ | ⟨j, k, _, _, _, _, e⟩ | ⟨_, e⟩⟩
  · rw [e]; rcases hacq (hitState s k) k with h | h
    · exact Or.inl h
    · exact Or.inr (Or.inl h)
  · rw [e]; rcases hacq (assign s (.buf k) dev blockno) k with h | h
    · exact Or.inl h
    · exact Or.inr (Or.inl h)
  · rw [e]; rcases hacq (stealState s (blockno % c.NBUCKET) k dev blockno) k with h | h
    · exact Or.inl h
    · exact Or.inr (Or.inl h)
  · exact Or.inr (Or.inr e)

/-! ### The invariant under the reference discipline -/

theorem first_set_same_id (c : BParams) (s : Bio) (L : Nat → List Nat) (k : Nat) (v : Buf)
    (b : Nat) (h1 : v.dev = (s.buf k).dev) (h2 : v.blockno = (s.buf k).blockno) :
    FirstOf c (s.set (.buf k) v) L b ↔ FirstOf c s L b := by
  have hid : ∀ x, ((s.set (.buf k) v).buf x).dev = (s.buf x).dev ∧
      ((s.set (.buf k) v).buf x).blockno = (s.buf x).blockno := by
    intro x
    rw [set_buf_apply]
    by_cases e : x = k
    · subst e; simp [h1, h2]
    · simp [e]
  have hf : (fun x => isCached ((s.set (.buf k) v).buf b).dev ((s.set (.buf k) v).buf b).blockno
      ((s.set (.buf k) v).buf x)) = fun x => isCached (s.buf b).dev (s.buf b).blockno (s.buf x) := by
    funext x
    simp only [isCached, (hid x).1, (hid x).2, (hid b).1, (hid b).2]
  unfold FirstOf
  rw [hf, (hid b).2]

/-- A buffer that is the first of its identity stays so when another buffer `k` gets an
identity that no buffer of the home bucket carries. -/
theorem first_fresh (c : BParams) (s s1 : Bio) (L L1 : Nat → List Nat) (k dev blockno b : Nat)
    (hN : 0 < c.NBUCKET) (hbk : b ≠ k) (hfirst : FirstOf c s L b)
    (hfresh : (L (blockno % c.NBUCKET)).find? (fun x => isCached dev blockno (s.buf x)) = none)
    (hid : ∀ x, x ≠ k → (s1.buf x).dev = (s.buf x).dev ∧
      (s1.buf x).blockno = (s.buf x).blockno)
    (hidk : (s1.buf k).dev = dev ∧ (s1.buf k).blockno = blockno)
    (hL1 : ∀ j, j < c.NBUCKET → ∀ (p : Nat → Bool) (b : Nat), b ≠ k → p k = false →
      (L j).find? p = some b → (L1 j).find? p = some b) :
    FirstOf c s1 L1 b := by
  obtain ⟨e1, e2⟩ := hid b hbk
  unfold FirstOf at hfirst ⊢
  rw [e1, e2]
  have hj : (s.buf b).blockno % c.NBUCKET < c.NBUCKET := Nat.mod_lt _ hN
  obtain ⟨hpb, hbm⟩ := find_some_pred _ _ _ hfirst
  have hk0 : isCached (s.buf b).dev (s.buf b).blockno (s1.buf k) = false := by
    by_contra hc
    have hc1 : isCached (s.buf b).dev (s.buf b).blockno (s1.buf k) = true := by
      simpa using hc
    rw [isCached_iff, hidk.1, hidk.2] at hc1
    have hnone := List.find?_eq_none.1 hfresh b (by rw [hc1.2]; exact hbm)
    apply hnone
    rw [isCached_iff]
    exact ⟨hc1.1.symm, hc1.2.symm⟩
  apply hL1 _ hj _ b hbk hk0
  refine find_first_congr _ _ b _ hfirst ?_ ?_
  · simp only [isCached, e1, e2] at hpb ⊢
    simp
  · intro x _ hx
    by_cases ex : x = k
    · subst ex; rw [hk0] at hx; cases hx
    · obtain ⟨d1, d2⟩ := hid x ex
      simpa only [isCached, d1, d2] using hx

/-- Overwriting a buffer with a value that has the same links and identity keeps the
invariant, when a new reference or a new `valid` flag goes to the first buffer of its identity
and a held lock comes with a reference. -/
theorem BAll.set_keep_id {c : BParams} {s : Bio} {L : Nat → List Nat} (hall : BAll c s L)
    (k : Nat) (v : Buf) (h1 : v.next = (s.buf k).next) (h2 : v.prev = (s.buf k).prev)
    (h3 : v.dev = (s.buf k).dev) (h4 : v.blockno = (s.buf k).blockno)
    (hr : 0 < v.refcnt → 0 < (s.buf k).refcnt ∨ FirstOf c s L k)
    (hv : v.valid ≠ 0 → (s.buf k).valid ≠ 0 ∨ FirstOf c s L k)
    (hl : v.lock ≠ none → 0 < v.refcnt) : BAll c (s.set (.buf k) v) L := by
  obtain ⟨⟨hw, hh, hlk⟩, hval, hu⟩ := hall
  have hid : ∀ x, ((s.set (.buf k) v).buf x).dev = (s.buf x).dev ∧
      ((s.set (.buf k) v).buf x).blockno = (s.buf x).blockno := by
    intro x
    rw [set_buf_apply]
    by_cases e : x = k
    · subst e; simp [h3, h4]
    · simp [e]
  refine ⟨⟨hw.set_data k v h1 h2 (by rw [h4]), ?_, ?_⟩, ?_, ?_⟩
  · intro b hb hrb
    show FirstOf c (s.set (.buf k) v) L b
    rw [first_set_same_id c s L k v b h3 h4]
    rw [set_buf_apply] at hrb
    by_cases e : b = k
    · subst e
      simp only [if_true] at hrb
      rcases hr hrb with h | h
      · exact hh b hb h
      · exact h
    · rw [if_neg e] at hrb
      exact hh b hb hrb
  · intro b hb hlb
    rw [set_buf_apply] at hlb ⊢
    by_cases e : b = k
    · subst e
      simp only [if_true] at hlb ⊢
      exact hl hlb
    · rw [if_neg e] at hlb ⊢
      exact hlk b hb hlb
  · intro b hb hvb
    rw [first_set_same_id c s L k v b h3 h4]
    rw [set_buf_apply] at hvb
    by_cases e : b = k
    · subst e
      simp only [if_true] at hvb
      rcases hv hvb with h | h
      · exact hval b hb h
      · exact h
    · rw [if_neg e] at hvb
      exact hval b hb hvb
  · intro a b ha hb hab e1 e2
    rw [(hid a).1, (hid b).1] at e1
    rw [(hid a).2, (hid b).2] at e2
    rw [(hid a).1, (hid a).2]
    exact hu a b ha hb hab e1 e2

/-- The `valid` and uniqueness parts of the invariant after an idle buffer `k` got a fresh
identity. -/
theorem fresh_all (c : BParams) (s s1 : Bio) (L L1 : Nat → List Nat) (k dev blockno : Nat)
    (hN : 0 < c.NBUCKET) (hall : BAll c s L) (hinv1 : BInv c s1 L1)
    (hfresh : (L (blockno % c.NBUCKET)).find? (fun x => isCached dev blockno (s.buf x)) = none)
    (hid : ∀ x, x ≠ k → (s1.buf x).dev = (s.buf x).dev ∧
      (s1.buf x).blockno = (s.buf x).blockno ∧ (s1.buf x).valid = (s.buf x).valid)
    (hidk : (s1.buf k).dev = dev ∧ (s1.buf k).blockno = blockno ∧ (s1.buf k).valid = 0)
    (hL1 : ∀ j, j < c.NBUCKET → ∀ (p : Nat → Bool) (b : Nat), b ≠ k → p k = false →
      (L j).find? p = some b → (L1 j).find? p = some b) :
    BAll c s1 L1 := by
  obtain ⟨⟨hw, _, _⟩, hval, hu⟩ := hall
  have hnok : ∀ b, b < c.NBUF → ¬ ((s.buf b).dev = dev ∧ (s.buf b).blockno = blockno) := by
    intro b hb ⟨e1, e2⟩
    have hm : b ∈ L (blockno % c.NBUCKET) :=
      (hw.mem_iff _ (Nat.mod_lt _ hN) b).2 ⟨hb, by rw [e2]⟩
    exact List.find?_eq_none.1 hfresh b hm ((isCached_iff _ _ _).2 ⟨e1, e2⟩)
  refine ⟨hinv1, ?_, ?_⟩
  · intro b hb hvb
    by_cases e : b = k
    · rw [e, hidk.2.2] at hvb
      exact absurd rfl hvb
    · rw [(hid b e).2.2] at hvb
      exact first_fresh c s s1 L L1 k dev blockno b hN e (hval b hb hvb) hfresh
        (fun x hx => ⟨(hid x hx).1, (hid x hx).2.1⟩) ⟨hidk.1, hidk.2.1⟩ hL1
  · intro a b ha hb hab e1 e2
    by_cases ea : a = k
    · have eb : b ≠ k := fun h => hab (ea.trans h.symm)
      rw [ea, hidk.1, (hid b eb).1] at e1
      rw [ea, hidk.2.1, (hid b eb).2.1] at e2
      exact absurd ⟨e1.symm, e2.symm⟩ (hnok b hb)
    · by_cases eb : b = k
      · rw [eb, hidk.1, (hid a ea).1] at e1
        rw [eb, hidk.2.1, (hid a ea).2.1] at e2
        exact absurd ⟨e1, e2⟩ (hnok a ha)
      · rw [(hid a ea).1, (hid b eb).1] at e1
        rw [(hid a ea).2.1, (hid b eb).2.1] at e2
        rw [(hid a ea).1, (hid a ea).2.1]
        exact hu a b ha hb hab e1 e2

theorem reuse_all (c : BParams) (s : Bio) (L : Nat → List Nat) (k dev blockno : Nat)
    (hN : 0 < c.NBUCKET) (hall : BAll c s L)
    (hfresh : (L (blockno % c.NBUCKET)).find? (fun x => isCached dev blockno (s.buf x)) = none)
    (hidle : (L (blockno % c.NBUCKET)).find? (fun x => isIdle (s.buf x)) = some k) :
    BAll c (assign s (.buf k) dev blockno) L := by
  refine fresh_all c s _ L L k dev blockno hN hall
    (reuse_inv c s L k dev blockno hN hall.1 hfresh hidle) hfresh ?_ ?_ ?_
  · intro x hx
    rw [assign_buf, if_neg hx]
    exact ⟨rfl, rfl, rfl⟩
  · rw [assign_buf, if_pos rfl]
    exact ⟨rfl, rfl, rfl⟩
  · intro j _ p b _ _ h
    exact h

theorem steal_all (c : BParams) (s : Bio) (L : Nat → List Nat) (i h k dev blockno : Nat)
    (hN : 0 < c.NBUCKET) (hall : BAll c s L) (hi : i < c.NBUCKET) (hh : h < c.NBUCKET)
    (hb : blockno % c.NBUCKET = h) (hih : i ≠ h)
    (hfresh : (L h).find? (fun x => isCached dev blockno (s.buf x)) = none)
    (hidle : (L i).find? (fun x => isIdle (s.buf x)) = some k) :
    BAll c (stealState s h k dev blockno) (stealLists L i h k) := by
  obtain ⟨_, hkm⟩ := find_some_pred _ _ _ hidle
  obtain ⟨_, hs3⟩ := steal_wf c s L i h k dev blockno hall.1.1 hi hh hb hih hkm
  refine fresh_all c s _ L _ k dev blockno hN hall
    (steal_inv c s L i h k dev blockno hN hall.1 hi hh hb hih hfresh hidle)
    (by rw [hb]; exact hfresh) ?_ ?_ ?_
  · intro x hx
    have a := hs3 x
    rw [assign_buf, if_neg hx] at a
    exact ⟨a.2.1, a.2.2.1, a.1⟩
  · have a := hs3 k
    rw [assign_buf, if_pos rfl] at a
    exact ⟨a.2.1, a.2.2.1, a.1⟩
  · intro j hj p b hbk hpk hf
    unfold stealLists
    by_cases e : j = h
    · rw [e, upd_same, List.find?_cons, hpk]
      rw [e] at hf
      exact hf
    · rw [upd_other _ _ _ _ e]
      by_cases e1 : j = i
      · rw [e1, upd_same]
        rw [e1] at hf
        exact find_erase_ne p b k hbk _ hf
      · rw [upd_other _ _ _ _ e1]
        exact hf

theorem hit_all (c : BParams) (s : Bio) (L : Nat → List Nat) (k dev blockno : Nat)
    (hall : BAll c s L)
    (hf : (L (blockno % c.NBUCKET)).find? (fun x => isCached dev blockno (s.buf x)) = some k) :
    BAll c (hitState s k) L := by
  have hk := (isCached_iff _ _ _).1 (find_some_pred _ _ _ hf).1
  refine hall.set_keep_id k _ rfl rfl rfl rfl (fun _ => Or.inr ?_) (fun h => Or.inl h)
    (fun _ => Nat.succ_pos _)
  unfold FirstOf
  rw [hk.1, hk.2]
  exact hf

theorem lock_all (c : BParams) (pid : Nat) (s : Bio) (L : Nat → List Nat) (k : Nat)
    (hall : BAll c s L) (hr : 0 < (s.buf k).refcnt) : BAll c (lockState pid s k) L :=
  hall.set_keep_id k _ rfl rfl rfl rfl (fun h => Or.inl h) (fun h => Or.inl h) (fun _ => hr)

theorem bget_all_step (c : BParams) (pid : Nat) (s : Bio) (L : Nat → List Nat)
    (dev blockno : Nat) (hN : 0 < c.NBUCKET) (hall : BAll c s L) :
    bget c pid s dev blockno = .panic "bget: no buffers" s ∨
    ∃ s0 L1 k, BAll c s0 L1 ∧ k < c.NBUF ∧ (s0.buf k).dev = dev ∧
      (s0.buf k).blockno = blockno ∧ 0 < (s0.buf k).refcnt ∧
      bget c pid s dev blockno = acquiresleep pid s0 (.buf k) := by
  have hh : blockno % c.NBUCKET < c.NBUCKET := Nat.mod_lt _ hN
  have hw := hall.1.1
  rcases bget_cases c pid s L dev blockno hN hw with
    ⟨k, hf, e⟩ | ⟨hfresh, ⟨k, hidle, e⟩ | ⟨j, k, hj0, hj, _, hidle, e⟩ | ⟨hnone, e⟩⟩
  · right
    obtain ⟨hp, hm⟩ := find_some_pred _ _ _ hf
    have hk := (isCached_iff _ _ _).1 hp
    refine ⟨hitState s k, L, k, hit_all c s L k dev blockno hall hf,
      ((hw.mem_iff _ hh k).1 hm).1, ?_, ?_, ?_, e⟩
    · simp [hitState, set_buf_apply, hk.1]
    · simp [hitState, set_buf_apply, hk.2]
    · simp [hitState, set_buf_apply]
  · right
    obtain ⟨_, hm⟩ := find_some_pred _ _ _ hidle
    refine ⟨assign s (.buf k) dev blockno, L, k,
      reuse_all c s L k dev blockno hN hall hfresh hidle, ((hw.mem_iff _ hh k).1 hm).1, ?_, ?_, ?_,
      e⟩
    · simp [assign_buf]
    · simp [assign_buf]
    · simp [assign_buf]
  · right
    have hi : (blockno % c.NBUCKET + j) % c.NBUCKET < c.NBUCKET := Nat.mod_lt _ hN
    obtain ⟨_, hm⟩ := find_some_pred _ _ _ hidle
    have hne := mod_off_ne hh hj0 hj
    have hall3 := steal_all c s L _ _ k dev blockno hN hall hi hh rfl hne hfresh hidle
    obtain ⟨_, hs3⟩ := steal_wf c s L _ _ k dev blockno hw hi hh rfl hne hm
    have a := hs3 k
    rw [assign_buf, if_pos rfl] at a
    refine ⟨_, _, k, hall3, ((hw.mem_iff _ hi k).1 hm).1, a.2.1, a.2.2.1, ?_, e⟩
    have : ((stealState s (blockno % c.NBUCKET) k dev blockno).buf k).refcnt = 1 := a.2.2.2.2.1
    omega
  · left
    exact e

theorem bget_all (c : BParams) (pid : Nat) (s s1 : Bio) (L : Nat → List Nat)
    (dev blockno : Nat) (b : Ptr) (hN : 0 < c.NBUCKET) (hall : BAll c s L)
    (h : bget c pid s dev blockno = .ret s1 b ∨ bget c pid s dev blockno = .sleep s1 b) :
    ∃ L1 k, BAll c s1 L1 ∧ b = .buf k ∧ k < c.NBUF ∧ (s1.buf k).dev = dev ∧
      (s1.buf k).blockno = blockno ∧ 0 < (s1.buf k).refcnt := by
  rcases bget_all_step c pid s L dev blockno hN hall with e | ⟨s0, L1, k, hall0, hk, hd, hb, hr, e⟩
  · rw [e] at h
    rcases h with h | h <;> cases h
  · rw [e] at h
    rcases acquiresleep_cases pid s0 k with ⟨_, e1⟩ | ⟨_, e1⟩
    · rw [e1] at h
      rcases h with h | h
      · injection h with h1 h2
        subst h1 h2
        refine ⟨L1, k, lock_all c pid s0 L1 k hall0 hr, rfl, hk, ?_, ?_, ?_⟩
        · simpa [lockState, set_buf_apply] using hd
        · simpa [lockState, set_buf_apply] using hb
        · simpa [lockState, set_buf_apply] using hr
      · cases h
    · rw [e1] at h
      rcases h with h | h
      · cases h
      · injection h with h1 h2
        subst h1 h2
        exact ⟨L1, k, hall0, rfl, hk, hd, hb, hr⟩

theorem BAll.of_same_bufs {c : BParams} {s t : Bio} {L : Nat → List Nat} (h1 : t.buf = s.buf)
    (h2 : t.head = s.head) (hall : BAll c s L) : BAll c t L := by
  obtain ⟨hinv, hval, hu⟩ := hall
  refine ⟨BInv.of_buf_head h1 h2 hinv, ?_, ?_⟩
  · intro b hb hv
    unfold FirstOf
    rw [h1] at hv ⊢
    exact hval b hb hv
  · intro a b ha hb hab e1 e2
    rw [h1] at e1 e2 ⊢
    exact hu a b ha hb hab e1 e2

theorem breadFill_all (c : BParams) (s : Bio) (L : Nat → List Nat) (k : Nat)
    (hall : BAll c s L) (hk : k < c.NBUF) (hr : 0 < (s.buf k).refcnt) :
    BAll c (breadFill s (.buf k)) L := by
  obtain ⟨e1, e2⟩ := breadFill_buf s k
  have hf : (filled s k).next = (s.buf k).next ∧ (filled s k).prev = (s.buf k).prev ∧
      (filled s k).dev = (s.buf k).dev ∧ (filled s k).blockno = (s.buf k).blockno ∧
      (filled s k).refcnt = (s.buf k).refcnt ∧ (filled s k).lock = (s.buf k).lock := by
    unfold filled
    split_ifs <;> exact ⟨rfl, rfl, rfl, rfl, rfl, rfl⟩
  refine BAll.of_same_bufs (s := s.set (.buf k) (filled s k)) e1 e2
    (hall.set_keep_id k _ hf.1 hf.2.1 hf.2.2.1 hf.2.2.2.1 (fun _ => Or.inl hr)
      (fun _ => Or.inr (hall.1.2.1 k hk hr)) (fun _ => by rw [hf.2.2.2.2.1]; exact hr))

theorem Out.next_some {α : Type} (o : Out α) (s1 : Bio) (h : o.next = some s1) :
    (∃ a, o = .ret s1 a) ∨ (∃ b, o = .sleep s1 b) := by
  cases o with
  | ret s a => left; simp only [Out.next, Option.some.injEq] at h; exact ⟨a, by rw [h]⟩
  | sleep s b => right; simp only [Out.next, Option.some.injEq] at h; exact ⟨b, by rw [h]⟩
  | panic m s => simp [Out.next] at h
  | diverge => simp [Out.next] at h

/-- Every step that keeps the reference discipline keeps the invariant. -/
theorem step_all (c : BParams) (s s1 : Bio) (L : Nat → List Nat) (op : Op)
    (hN : 0 < c.NBUCKET) (hall : BAll c s L) (hc : op.counted s = true)
    (h : op.step c s = some s1) : ∃ L1, BAll c s1 L1 := by
  cases op with
  | bget pid dev blockno =>
    rcases Out.next_some _ _ h with ⟨b, e⟩ | ⟨b, e⟩
    · obtain ⟨L1, _, h1, _⟩ := bget_all c pid s s1 L dev blockno b hN hall (Or.inl e)
      exact ⟨L1, h1⟩
    · obtain ⟨L1, _, h1, _⟩ := bget_all c pid s s1 L dev blockno b hN hall (Or.inr e)
      exact ⟨L1, h1⟩
  | bread pid dev blockno =>
    rcases Out.next_some _ _ h with ⟨b, e⟩ | ⟨b, e⟩
    · obtain ⟨s0, e0, e1⟩ := ((bread_cases c pid s s1 dev blockno b).1).1 e
      obtain ⟨L1, k, h1, hb, hk, _, _, hr⟩ :=
        bget_all c pid s s0 L dev blockno b hN hall (Or.inl e0)
      subst hb e1
      exact ⟨L1, breadFill_all c s0 L1 k h1 hk hr⟩
    · have e0 := ((bread_cases c pid s s1 dev blockno b).2).1 e
      obtain ⟨L1, _, h1, _⟩ := bget_all c pid s s1 L dev blockno b hN hall (Or.inr e0)
      exact ⟨L1, h1⟩
  | brelse pid b =>
    simp only [Op.step] at h
    split_ifs at h with hb
    by_cases hh : holdingsleep pid s (.buf b) = true
    · rw [brelse_ret pid s b hh] at h
      simp only [Out.next, Option.some.injEq] at h
      subst h
      exact ⟨L, hall.set_keep_id b _ rfl rfl rfl rfl
        (fun _ => Or.inl (hall.1.2.2 b hb (holding_lock pid s b hh)))
        (fun h => Or.inl h) (fun h => absurd rfl h)⟩
    · simp only [brelse, hh, Bool.not_false, if_true, Out.next] at h
      cases h
  | bwrite pid b =>
    simp only [Op.step] at h
    split_ifs at h with hb
    by_cases hh : holdingsleep pid s (.buf b) = true
    · simp only [bwrite, hh, Bool.not_true, Bool.false_eq_true, if_false, Out.next,
        Option.some.injEq] at h
      subst h
      exact ⟨L, BAll.of_same_bufs (s := s) rfl rfl hall⟩
    · simp only [bwrite, hh, Bool.not_false, if_true, Out.next] at h
      cases h
  | bpin b =>
    simp only [Op.step] at h
    split_ifs at h with hb
    simp only [Op.counted, decide_eq_true_eq] at hc
    simp only [Option.some.injEq] at h
    subst h
    exact ⟨L, hall.set_keep_id b _ rfl rfl rfl rfl (fun _ => Or.inl hc) (fun h => Or.inl h)
      (fun _ => Nat.succ_pos _)⟩
  | bunpin b =>
    simp only [Op.step] at h
    split_ifs at h with hb
    simp only [Op.counted, decide_eq_true_eq] at hc
    simp only [Option.some.injEq] at h
    subst h
    have hr : 0 < (s.buf b).refcnt := by omega
    refine ⟨L, hall.set_keep_id b _ rfl rfl rfl rfl (fun _ => Or.inl hr) (fun h => Or.inl h) ?_⟩
    intro hl
    simp only [Bio.get_buf] at hl ⊢
    rw [if_neg hl] at hc
    rw [refDec_pos _ hr]
    omega
  | poke pid b data =>
    simp only [Op.step] at h
    split_ifs at h with hb
    simp only [Option.some.injEq] at h
    subst h
    exact ⟨L, hall.set_keep_id b _ rfl rfl rfl rfl (fun h => Or.inl h) (fun h => Or.inl h)
      (fun hl => hall.1.2.2 b hb.1 hl)⟩

theorem run_all (c : BParams) (hN : 0 < c.NBUCKET) :
    ∀ (ops : List Op) (s s1 : Bio) (L : Nat → List Nat), BAll c s L →
      countedRun c ops s = true → run c ops s = some s1 → ∃ L1, BAll c s1 L1
  | [], s, s1, L, hall, _, h => by
    simp only [run, Option.some.injEq] at h
    subst h
    exact ⟨L, hall⟩
  | op :: ops, s, s1, L, hall, hc, h => by
    simp only [run] at h
    simp only [countedRun] at hc
    cases hs : op.step c s with
    | none => rw [hs] at h; cases h
    | some s2 =>
      rw [hs] at h hc
      simp only [Bool.and_eq_true] at hc
      obtain ⟨L2, h2⟩ := step_all c s s2 L op hN hall hc.1 hs
      exact run_all c hN ops s2 s1 L2 h2 hc.2 h

/-- The cache produced by `binit` satisfies the invariant. -/
theorem binit_all (c : BParams) (d : Nat → Nat → List Nat) (hN : 0 < c.NBUCKET) :
    BAll c (binit c (bioZero d)) (binitLists c) := by
  obtain ⟨hinv, hz⟩ := binit_inv c d hN
  refine ⟨hinv, ?_, ?_⟩
  · intro b _ hv
    exact absurd (hz b).1 hv
  · intro a _ _ _ _ _ _
    exact ⟨(hz a).2.1, (hz a).2.2.1⟩

/-- Every cache state reached under the reference discipline satisfies the invariant. -/
theorem brun_all (c : BParams) (d : Nat → Nat → List Nat) (hN : 0 < c.NBUCKET) (s : Bio)
    (h : BRun c d s) : ∃ L, BAll c s L := by
  obtain ⟨ops, hc, e⟩ := h
  exact run_all c hN ops _ s _ (binit_all c d hN) hc e

/-! ### The effect of bget on buffers and lists -/

theorem DLL.list_unique {nx pr : Ptr → Ptr} {i : Nat} :
    ∀ (l l1 : List Nat) (pv : Ptr), DLL nx pr (.head i) pv l → DLL nx pr (.head i) pv l1 → l = l1
  | [], [], _, _, _ => rfl
  | [], b :: l1, pv, h, h1 => by
    have := h.1.symm.trans h1.1
    cases this
  | a :: l, [], pv, h, h1 => by
    have := h.1.symm.trans h1.1
    cases this
  | a :: l, b :: l1, pv, h, h1 => by
    have e := h.1.symm.trans h1.1
    injection e with e
    subst e
    rw [DLL.list_unique l l1 _ h.2.2 h1.2.2]

/-- The bucket lists of a well-formed cache are determined by its links. -/
theorem BWf.lists_unique {c : BParams} {s : Bio} {L L1 : Nat → List Nat} (hw : BWf c s L)
    (hw1 : BWf c s L1) (i : Nat) (hi : i < c.NBUCKET) : L i = L1 i :=
  DLL.list_unique _ _ _ (hw.dll i hi) (hw1.dll i hi)

/-- Unless it panics, `bget` reaches `acquiresleep` on a buffer `k` of the array in a
well-formed state `s0` with lists `L1`: either a hit on the first buffer of the home bucket with
the requested identity (one more reference, lists unchanged), or the first idle buffer of the
first bucket, counted from the home bucket in circular order, that has one (fresh identity,
`valid = 0`, `refcnt = 1`; moved to the front of the home bucket when it comes from another
bucket). Every other buffer keeps its data. -/
theorem bget_pre (c : BParams) (pid : Nat) (s : Bio) (L : Nat → List Nat) (dev blockno : Nat)
    (hN : 0 < c.NBUCKET) (hw : BWf c s L) :
    (bget c pid s dev blockno = .panic "bget: no buffers" s ∧
      (L (blockno % c.NBUCKET)).find? (fun x => isCached dev blockno (s.buf x)) = none ∧
      ∀ i, i < c.NBUCKET → (L i).find? (fun x => isIdle (s.buf x)) = none) ∨
    ∃ s0 L1 k, bget c pid s dev blockno = acquiresleep pid s0 (.buf k) ∧ k < c.NBUF ∧
      BWf c s0 L1 ∧ (∀ x, x ≠ k → (s0.buf x).same (s.buf x)) ∧
      (s0.buf k).lock = (s.buf k).lock ∧ (s0.buf k).data = (s.buf k).data ∧
      (((L (blockno % c.NBUCKET)).find? (fun x => isCached dev blockno (s.buf x)) = some k ∧
          L1 = L ∧ (s0.buf k).dev = (s.buf k).dev ∧ (s0.buf k).blockno = (s.buf k).blockno ∧
          (s0.buf k).valid = (s.buf k).valid ∧ (s0.buf k).refcnt = (s.buf k).refcnt + 1) ∨
       ((L (blockno % c.NBUCKET)).find? (fun x => isCached dev blockno (s.buf x)) = none ∧
          (s0.buf k).dev = dev ∧ (s0.buf k).blockno = blockno ∧ (s0.buf k).valid = 0 ∧
          (s0.buf k).refcnt = 1 ∧
          ∃ j, j < c.NBUCKET ∧
            (∀ x, x < j →
              (L ((blockno % c.NBUCKET + x) % c.NBUCKET)).find? (fun x => isIdle (s.buf x))
                = none) ∧
            (L ((blockno % c.NBUCKET + j) % c.NBUCKET)).find? (fun x => isIdle (s.buf x))
              = some k ∧
            ((j = 0 ∧ L1 = L) ∨
             (0 < j ∧ L1 = stealLists L ((blockno % c.NBUCKET + j) % c.NBUCKET)
                (blockno % c.NBUCKET) k)))) := by
  have hh : blockno % c.NBUCKET < c.NBUCKET := Nat.mod_lt _ hN
  rcases bget_cases c pid s L dev blockno hN hw with
    ⟨k, hf, e⟩ | ⟨hfresh, ⟨k, hidle, e⟩ | ⟨j, k, hj0, hj, hlt, hidle, e⟩ | ⟨hnone, e⟩⟩
  · right
    obtain ⟨_, hm⟩ := find_some_pred _ _ _ hf
    refine ⟨hitState s k, L, k, e, ((hw.mem_iff _ hh k).1 hm).1, hw.set_data k _ rfl rfl rfl, ?_,
      by simp [hitState, set_buf_apply], by simp [hitState, set_buf_apply],
      Or.inl ⟨hf, rfl, ?_, ?_, ?_, ?_⟩⟩
    · intro x hx
      simp only [hitState, set_buf_apply, if_neg hx]
      exact ⟨rfl, rfl, rfl, rfl, rfl, rfl⟩
    all_goals simp [hitState, set_buf_apply]
  · right
    obtain ⟨_, hm⟩ := find_some_pred _ _ _ hidle
    obtain ⟨hkN, hkb⟩ := (hw.mem_iff _ hh k).1 hm
    refine ⟨assign s (.buf k) dev blockno, L, k, e, hkN, hw.set_data k _ rfl rfl hkb.symm, ?_,
      by simp [assign_buf], by simp [assign_buf],
      Or.inr ⟨hfresh, by simp [assign_buf], by simp [assign_buf], by simp [assign_buf],
        by simp [assign_buf], 0, hN, fun x hx => by omega, ?_, Or.inl ⟨rfl, rfl⟩⟩⟩
    · intro x hx
      rw [assign_buf, if_neg hx]
      exact ⟨rfl, rfl, rfl, rfl, rfl, rfl⟩
    · rw [Nat.add_zero, Nat.mod_eq_of_lt hh]
      exact hidle
  · right
    have hi : (blockno % c.NBUCKET + j) % c.NBUCKET < c.NBUCKET := Nat.mod_lt _ hN
    obtain ⟨_, hm⟩ := find_some_pred _ _ _ hidle
    have hne := mod_off_ne hh hj0 hj
    obtain ⟨hw3, hs3⟩ := steal_wf c s L _ _ k dev blockno hw hi hh rfl hne hm
    have a := hs3 k
    rw [assign_buf, if_pos rfl] at a
    refine ⟨_, _, k, e, ((hw.mem_iff _ hi k).1 hm).1, hw3, ?_, a.2.2.2.1, a.2.2.2.2.2,
      Or.inr ⟨hfresh, a.2.1, a.2.2.1, a.1, a.2.2.2.2.1, j, hj, hlt, hidle, Or.inr ⟨hj0, rfl⟩⟩⟩
    intro x hx
    have b := hs3 x
    rw [assign_buf, if_neg hx] at b
    exact b
  · left
    exact ⟨e, hfresh, hnone⟩

/-- The state and lists after `acquiresleep` on buffer `k`. -/
theorem acquire_post (c : BParams) (pid : Nat) (s0 s1 : Bio) (L1 : Nat → List Nat) (k : Nat)
    (b : Ptr) (hw : BWf c s0 L1)
    (h : acquiresleep pid s0 (.buf k) = .ret s1 b ∨ acquiresleep pid s0 (.buf k) = .sleep s1 b) :
    b = .buf k ∧ BWf c s1 L1 ∧ (∀ x, x ≠ k → s1.buf x = s0.buf x) ∧
      (s1.buf k).dev = (s0.buf k).dev ∧ (s1.buf k).blockno = (s0.buf k).blockno ∧
      (s1.buf k).valid = (s0.buf k).valid ∧ (s1.buf k).refcnt = (s0.buf k).refcnt ∧
      (s1.buf k).data = (s0.buf k).data ∧
      (acquiresleep pid s0 (.buf k) = .ret s1 b ↔ (s0.buf k).lock = none) := by
  rcases acquiresleep_cases pid s0 k with ⟨hl, e⟩ | ⟨hl, e⟩
  · rw [e] at h ⊢
    rcases h with h | h
    · injection h with h1 h2
      subst h1 h2
      refine ⟨rfl, hw.set_data k _ rfl rfl rfl, ?_, ?_, ?_, ?_, ?_, ?_, by simp [hl]⟩
      · intro x hx
        simp [lockState, set_buf_apply, hx]
      all_goals simp [lockState, set_buf_apply]
    · cases h
  · rw [e] at h ⊢
    rcases h with h | h
    · cases h
    · injection h with h1 h2
      subst h1 h2
      exact ⟨rfl, hw, fun _ _ => rfl, rfl, rfl, rfl, rfl, rfl, by simp [hl]⟩

theorem bget_frame (c : BParams) (pid : Nat) (s s1 : Bio) (L : Nat → List Nat)
    (dev blockno : Nat) (b : Ptr) (hN : 0 < c.NBUCKET) (hw : BWf c s L)
    (h : bget c pid s dev blockno = .ret s1 b ∨ bget c pid s dev blockno = .sleep s1 b) :
    s1.disk = s.disk ∧ s1.reads = s.reads ∧ s1.writes = s.writes := by
  have key : ∀ (s0 : Bio) (k : Nat), bget c pid s dev blockno = acquiresleep pid s0 (.buf k) →
      s0.disk = s.disk ∧ s0.reads = s.reads ∧ s0.writes = s.writes →
      s1.disk = s.disk ∧ s1.reads = s.reads ∧ s1.writes = s.writes := by
    intro s0 k e h0
    rw [e] at h
    rcases acquiresleep_cases pid s0 k with ⟨_, e1⟩ | ⟨_, e1⟩
    · rw [e1] at h
      rcases h with h | h
      · injection h with h1 h2
        subst h1
        simpa [lockState] using h0
      · cases h
    · rw [e1] at h
      rcases h with h | h
      · cases h
      · injection h with h1 h2
        subst h1
        exact h0
  rcases bget_cases c pid s L dev blockno hN hw with
    ⟨k, _, e⟩ | ⟨_, ⟨k, _, e⟩ | ⟨j, k, _, _, _, _, e⟩ | ⟨_, e⟩⟩
  · exact key _ k e (by simp [hitState])
  · exact key _ k e (by simp [assign])
  · exact key _ k e (by simp [stealState, pushFront, unlink, assign])
  · rw [e] at h
    rcases h with h | h <;> cases h

/-- Being the first buffer of one's identity does not depend on the choice of the lists. -/
theorem first_indep (c : BParams) (s : Bio) (L L1 : Nat → List Nat) (b : Nat)
    (hN : 0 < c.NBUCKET) (hw : BWf c s L) (hw1 : BWf c s L1) (hf : FirstOf c s L b) :
    FirstOf c s L1 b := by
  unfold FirstOf at hf ⊢
  rw [← hw.lists_unique hw1 _ (Nat.mod_lt _ hN)]
  exact hf

theorem first_same_id (c : BParams) (s s1 : Bio) (L : Nat → List Nat) (b : Nat)
    (hid : ∀ x, (s1.buf x).dev = (s.buf x).dev ∧ (s1.buf x).blockno = (s.buf x).blockno) :
    FirstOf c s1 L b ↔ FirstOf c s L b := by
  have hf : (fun x => isCached (s1.buf b).dev (s1.buf b).blockno (s1.buf x))
      = fun x => isCached (s.buf b).dev (s.buf b).blockno (s.buf x) := by
    funext x
    simp only [isCached, (hid x).1, (hid x).2, (hid b).1, (hid b).2]
  unfold FirstOf
  rw [hf, (hid b).2]

/-- Moving buffer `k` to the front of bucket `h` keeps the first match of every test that
`k` fails. -/
theorem steal_find (c : BParams) (L : Nat → List Nat) (i h k : Nat) :
    ∀ j, j < c.NBUCKET → ∀ (p : Nat → Bool) (b : Nat), b ≠ k → p k = false →
      (L j).find? p = some b → (stealLists L i h k j).find? p = some b := by
  intro j _ p b hbk hpk hf
  unfold stealLists
  by_cases e : j = h
  · rw [e, upd_same, List.find?_cons, hpk]
    rw [e] at hf
    exact hf
  · rw [upd_other _ _ _ _ e]
    by_cases e1 : j = i
    · rw [e1, upd_same]
      rw [e1] at hf
      exact find_erase_ne p b k hbk _ hf
    · rw [upd_other _ _ _ _ e1]
      exact hf

/-- What a `bget` that does not panic does to the cache: the buffer `k` it hands out carries
the requested identity and a reference, every other buffer keeps its fields, every buffer that
was the first of its identity still is, and the device is untouched. -/
theorem bget_effect (c : BParams) (pid : Nat) (s s1 : Bio) (L : Nat → List Nat)
    (dev blockno : Nat) (b : Ptr) (hN : 0 < c.NBUCKET) (hall : BAll c s L)
    (h : bget c pid s dev blockno = .ret s1 b ∨ bget c pid s dev blockno = .sleep s1 b) :
    ∃ L1 k, BAll c s1 L1 ∧ b = .buf k ∧ k < c.NBUF ∧ (s1.buf k).dev = dev ∧
      (s1.buf k).blockno = blockno ∧ 0 < (s1.buf k).refcnt ∧
      (∀ x, x ≠ k → (s1.buf x).same (s.buf x)) ∧
      (∀ x, x < c.NBUF → FirstOf c s L x → FirstOf c s1 L1 x) ∧ s1.disk = s.disk := by
  obtain ⟨L2, k2, hall1, hb2, hk2, hd2, hbl2, hr2⟩ :=
    bget_all c pid s s1 L dev blockno b hN hall h
  have hdisk := (bget_frame c pid s s1 L dev blockno b hN hall.1.1 h).1
  rcases bget_pre c pid s L dev blockno hN hall.1.1 with
    ⟨e, _⟩ | ⟨s0, L1, k, e, hk, hw0, hsame, _, _, hcase⟩
  · rw [e] at h
    rcases h with h | h <;> cases h
  · rw [e] at h
    obtain ⟨hb, hw1, hoth, hd1, hbl1, _, _, _, _⟩ := acquire_post c pid s0 s1 L1 k b hw0 h
    have ek : k2 = k := by
      have := hb2.symm.trans hb
      injection this
    subst ek
    refine ⟨L2, k2, hall1, hb, hk, hd2, hbl2, hr2, ?_, ?_, hdisk⟩
    · intro x hx
      rw [hoth x hx]
      exact hsame x hx
    · intro x hx hf
      by_cases ex : x = k2
      · rw [ex]
        exact hall1.1.2.1 k2 hk hr2
      · apply first_indep c s1 L1 L2 x hN hw1 hall1.1.1
        have hid : ∀ y, y ≠ k2 → (s1.buf y).dev = (s.buf y).dev ∧
            (s1.buf y).blockno = (s.buf y).blockno := by
          intro y hy
          rw [hoth y hy]
          exact ⟨(hsame y hy).2.1, (hsame y hy).2.2.1⟩
        rcases hcase with ⟨_, eL, e1, e2, _, _⟩ | ⟨hfresh, a1, a2, _, _, j, _, _, _, hj0⟩
        · rw [eL]
          refine (first_same_id c s s1 L x ?_).2 hf
          intro y
          by_cases ey : y = k2
          · rw [ey]
            exact ⟨hd1.trans e1, hbl1.trans e2⟩
          · exact hid y ey
        · refine first_fresh c s s1 L L1 k2 dev blockno x hN ex hf hfresh hid
            ⟨hd1.trans a1, hbl1.trans a2⟩ ?_
          rcases hj0 with ⟨_, eL⟩ | ⟨_, eL⟩
          · rw [eL]
            intro j _ p b _ _ hfj
            exact hfj
          · rw [eL]
            exact steal_find c L _ _ k2

theorem breadFill_disk (s : Bio) (k : Nat) : (breadFill s (.buf k)).disk = s.disk := by
  unfold breadFill
  split_ifs <;> simp [diskRead]

theorem filled_id (s : Bio) (k : Nat) :
    (filled s k).dev = (s.buf k).dev ∧ (filled s k).blockno = (s.buf k).blockno ∧
      (filled s k).refcnt = (s.buf k).refcnt := by
  unfold filled
  split_ifs <;> exact ⟨rfl, rfl, rfl⟩

/-- What a `bread` that does not panic does to the cache. -/
theorem bread_effect (c : BParams) (pid : Nat) (s s1 : Bio) (L : Nat → List Nat)
    (dev blockno : Nat) (b : Ptr) (hN : 0 < c.NBUCKET) (hall : BAll c s L)
    (h : bread c pid s dev blockno = .ret s1 b ∨ bread c pid s dev blockno = .sleep s1 b) :
    ∃ L1 k, BAll c s1 L1 ∧ b = .buf k ∧ k < c.NBUF ∧ (s1.buf k).dev = dev ∧
      (s1.buf k).blockno = blockno ∧ 0 < (s1.buf k).refcnt ∧
      (∀ x, x ≠ k → (s1.buf x).same (s.buf x)) ∧
      (∀ x, x < c.NBUF → FirstOf c s L x → FirstOf c s1 L1 x) ∧ s1.disk = s.disk := by
  rcases h with h | h
  · obtain ⟨s0, e0, e1⟩ := ((bread_cases c pid s s1 dev blockno b).1).1 h
    obtain ⟨L1, k, hall0, hb, hk, hd, hbl, hr, hsame, hfirst, hdisk⟩ :=
      bget_effect c pid s s0 L dev blockno b hN hall (Or.inl e0)
    subst hb e1
    obtain ⟨eb, _⟩ := breadFill_buf s0 k
    obtain ⟨f1, f2, f3⟩ := filled_id s0 k
    have hid : ∀ x, ((breadFill s0 (.buf k)).buf x).dev = (s0.buf x).dev ∧
        ((breadFill s0 (.buf k)).buf x).blockno = (s0.buf x).blockno := by
      intro x
      rw [eb]
      by_cases ex : x = k
      · rw [ex, upd_same]; exact ⟨f1, f2⟩
      · rw [upd_other _ _ _ _ ex]; exact ⟨rfl, rfl⟩
    refine ⟨L1, k, breadFill_all c s0 L1 k hall0 hk hr, rfl, hk, (hid k).1.trans hd,
      (hid k).2.trans hbl, ?_, ?_, ?_, (breadFill_disk s0 k).trans hdisk⟩
    · rw [eb, upd_same, f3]; exact hr
    · intro x hx
      rw [eb, upd_other _ _ _ _ hx]
      exact hsame x hx
    · intro x hx hf
      exact (first_same_id c s0 _ L1 x hid).2 (hfirst x hx hf)
  · have e0 := ((bread_cases c pid s s1 dev blockno b).2).1 h
    exact bget_effect c pid s s1 L dev blockno b hN hall (Or.inr e0)

theorem acquires_iff (op : Op) (pid dev blockno d n : Nat)
    (h : op = .bget pid dev blockno ∨ op = .bread pid dev blockno) :
    op.acquires d n = true ↔ dev = d ∧ blockno = n := by
  rcases h with h | h <;> subst h <;> simp [Op.acquires]

/-- What one step that keeps the reference discipline does: the invariant holds again; a buffer that was the first of its identity
still is; the device changes only at a block the step writes; and every buffer either keeps its
identity, with its `refcnt` and `valid` unless it had a reference, or now carries the identity
the step asked for. -/
theorem step_effect (c : BParams) (s s1 : Bio) (L : Nat → List Nat) (op : Op)
    (hN : 0 < c.NBUCKET) (hall : BAll c s L) (hc : op.counted s = true)
    (h : op.step c s = some s1) :
    ∃ L1, BAll c s1 L1 ∧
      (∀ x, x < c.NBUF → FirstOf c s L x → FirstOf c s1 L1 x) ∧
      (∀ d n, op.writesTo s d n = false → s1.disk d n = s.disk d n) ∧
      (∀ x, x < c.NBUF →
        ((s1.buf x).dev = (s.buf x).dev ∧ (s1.buf x).blockno = (s.buf x).blockno ∧
          (((s1.buf x).refcnt = (s.buf x).refcnt ∧ (s1.buf x).valid = (s.buf x).valid) ∨
            0 < (s.buf x).refcnt)) ∨
        op.acquires (s1.buf x).dev (s1.buf x).blockno = true) := by
  -- the steps that acquire a buffer
  have hacq : ∀ (pid dev blockno : Nat),
      (op = .bget pid dev blockno ∨ op = .bread pid dev blockno) →
      (∃ L1 k, BAll c s1 L1 ∧ k < c.NBUF ∧ (s1.buf k).dev = dev ∧
        (s1.buf k).blockno = blockno ∧
        (∀ x, x ≠ k → (s1.buf x).same (s.buf x)) ∧
        (∀ x, x < c.NBUF → FirstOf c s L x → FirstOf c s1 L1 x) ∧ s1.disk = s.disk) →
      ∃ L1, BAll c s1 L1 ∧
      (∀ x, x < c.NBUF → FirstOf c s L x → FirstOf c s1 L1 x) ∧
      (∀ d n, op.writesTo s d n = false → s1.disk d n = s.disk d n) ∧
      (∀ x, x < c.NBUF →
        ((s1.buf x).dev = (s.buf x).dev ∧ (s1.buf x).blockno = (s.buf x).blockno ∧
          (((s1.buf x).refcnt = (s.buf x).refcnt ∧ (s1.buf x).valid = (s.buf x).valid) ∨
            0 < (s.buf x).refcnt)) ∨
        op.acquires (s1.buf x).dev (s1.buf x).blockno = true) := by
    intro pid dev blockno hop ⟨L1, k, hall1, hk, hd, hbl, hsame, hfirst, hdisk⟩
    refine ⟨L1, hall1, hfirst, fun d n _ => by rw [hdisk], ?_⟩
    intro x _
    by_cases ex : x = k
    · right
      rw [ex, acquires_iff op pid dev blockno _ _ hop]
      exact ⟨hd.symm, hbl.symm⟩
    · left
      obtain ⟨a1, a2, a3, _, a5, _⟩ := hsame x ex
      exact ⟨a2, a3, Or.inl ⟨a5, a1⟩⟩
  -- the steps that store into one buffer without touching its links and identity
  have hset : ∀ (b : Nat) (v : Buf), b < c.NBUF → v.next = (s.buf b).next →
      v.prev = (s.buf b).prev → v.dev = (s.buf b).dev → v.blockno = (s.buf b).blockno →
      ((v.refcnt = (s.buf b).refcnt ∧ v.valid = (s.buf b).valid) ∨ 0 < (s.buf b).refcnt) →
      (∀ x, x < c.NBUF → FirstOf c s L x → FirstOf c (s.set (.buf b) v) L x) ∧
      (∀ x, x < c.NBUF →
        (((s.set (.buf b) v).buf x).dev = (s.buf x).dev ∧
          ((s.set (.buf b) v).buf x).blockno = (s.buf x).blockno ∧
          ((((s.set (.buf b) v).buf x).refcnt = (s.buf x).refcnt ∧
            ((s.set (.buf b) v).buf x).valid = (s.buf x).valid) ∨
            0 < (s.buf x).refcnt)) ∨
        op.acquires ((s.set (.buf b) v).buf x).dev ((s.set (.buf b) v).buf x).blockno
          = true) := by
    intro b v _ _ _ h3 h4 h5
    refine ⟨fun x _ hf => (first_set_same_id c s L b v x h3 h4).2 hf, ?_⟩
    intro x _
    left
    rw [set_buf_apply]
    by_cases ex : x = b
    · rw [ex, if_pos rfl]
      exact ⟨h3, h4, h5⟩
    · rw [if_neg ex]
      exact ⟨rfl, rfl, Or.inl ⟨rfl, rfl⟩⟩
  cases op with
  | bget pid dev blockno =>
    apply hacq pid dev blockno (Or.inl rfl)
    rcases Out.next_some _ _ h with ⟨b, e⟩ | ⟨b, e⟩
    · obtain ⟨L1, k, h1, _, hk, hd, hbl, _, hsame, hfirst, hdisk⟩ :=
        bget_effect c pid s s1 L dev blockno b hN hall (Or.inl e)
      exact ⟨L1, k, h1, hk, hd, hbl, hsame, hfirst, hdisk⟩
    · obtain ⟨L1, k, h1, _, hk, hd, hbl, _, hsame, hfirst, hdisk⟩ :=
        bget_effect c pid s s1 L dev blockno b hN hall (Or.inr e)
      exact ⟨L1, k, h1, hk, hd, hbl, hsame, hfirst, hdisk⟩
  | bread pid dev blockno =>
    apply hacq pid dev blockno (Or.inr rfl)
    rcases Out.next_some _ _ h with ⟨b, e⟩ | ⟨b, e⟩
    · obtain ⟨L1, k, h1, _, hk, hd, hbl, _, hsame, hfirst, hdisk⟩ :=
        bread_effect c pid s s1 L dev blockno b hN hall (Or.inl e)
      exact ⟨L1, k, h1, hk, hd, hbl, hsame, hfirst, hdisk⟩
    · obtain ⟨L1, k, h1, _, hk, hd, hbl, _, hsame, hfirst, hdisk⟩ :=
        bread_effect c pid s s1 L dev blockno b hN hall (Or.inr e)
      exact ⟨L1, k, h1, hk, hd, hbl, hsame, hfirst, hdisk⟩
  | brelse pid b =>
    simp only [Op.step] at h
    split_ifs at h with hb
    by_cases hh : holdingsleep pid s (.buf b) = true
    · rw [brelse_ret pid s b hh] at h
      simp only [Out.next, Option.some.injEq] at h
      subst h
      have hl : (s.buf b).lock ≠ none := holding_lock pid s b hh
      have hall2 : BAll c (s.set (.buf b)
          { s.buf b with lock := none, refcnt := refDec (s.buf b).refcnt }) L :=
        hall.set_keep_id b _ rfl rfl rfl rfl (fun _ => Or.inl (hall.1.2.2 b hb hl))
          (fun h => Or.inl h) (fun h => absurd rfl h)
      obtain ⟨g1, g2⟩ := hset b { s.buf b with lock := none, refcnt := refDec (s.buf b).refcnt }
        hb rfl rfl rfl rfl (Or.inr (hall.1.2.2 b hb hl))
      exact ⟨L, hall2, g1, fun d n _ => rfl, g2⟩
    · simp only [brelse, hh, Bool.not_false, if_true, Out.next] at h
      cases h
  | bwrite pid b =>
    simp only [Op.step] at h
    split_ifs at h with hb
    by_cases hh : holdingsleep pid s (.buf b) = true
    · simp only [bwrite, hh, Bool.not_true, Bool.false_eq_true, if_false, Out.next,
        Option.some.injEq] at h
      subst h
      refine ⟨L, BAll.of_same_bufs (s := s) rfl rfl hall, fun x _ hf => hf, ?_, ?_⟩
      · intro d n hwr
        simp only [Op.writesTo] at hwr
        have hne : ¬ (d = (s.buf b).dev ∧ n = (s.buf b).blockno) := by
          rintro ⟨e1, e2⟩
          have : isCached d n (s.buf b) = true := (isCached_iff _ _ _).2 ⟨e1.symm, e2.symm⟩
          rw [this] at hwr
          cases hwr
        simp only [diskWrite, Bio.get_buf, if_neg hne]
      · intro x _
        exact Or.inl ⟨rfl, rfl, Or.inl ⟨rfl, rfl⟩⟩
    · simp only [bwrite, hh, Bool.not_false, if_true, Out.next] at h
      cases h
  | bpin b =>
    simp only [Op.step] at h
    split_ifs at h with hb
    simp only [Op.counted, decide_eq_true_eq] at hc
    simp only [Option.some.injEq] at h
    subst h
    have hall2 : BAll c (bpin s (.buf b)) L :=
      hall.set_keep_id b _ rfl rfl rfl rfl (fun _ => Or.inl hc) (fun h => Or.inl h)
        (fun _ => Nat.succ_pos _)
    obtain ⟨g1, g2⟩ := hset b { s.buf b with refcnt := (s.buf b).refcnt + 1 } hb
      rfl rfl rfl rfl (Or.inr hc)
    exact ⟨L, hall2, g1, fun d n _ => rfl, g2⟩
  | bunpin b =>
    simp only [Op.step] at h
    split_ifs at h with hb
    simp only [Op.counted, decide_eq_true_eq] at hc
    simp only [Option.some.injEq] at h
    subst h
    have hr : 0 < (s.buf b).refcnt := by omega
    have hall2 : BAll c (bunpin s (.buf b)) L := by
      refine hall.set_keep_id b _ rfl rfl rfl rfl (fun _ => Or.inl hr) (fun h => Or.inl h) ?_
      intro hl
      simp only [Bio.get_buf] at hl ⊢
      rw [if_neg hl] at hc
      rw [refDec_pos _ hr]
      omega
    obtain ⟨g1, g2⟩ := hset b { s.buf b with refcnt := refDec (s.buf b).refcnt } hb
      rfl rfl rfl rfl (Or.inr hr)
    exact ⟨L, hall2, g1, fun d n _ => rfl, g2⟩
  | poke pid b data =>
    simp only [Op.step] at h
    split_ifs at h with hb
    simp only [Option.some.injEq] at h
    subst h
    have hall2 : BAll c (s.set (.buf b) { s.buf b with data := data }) L :=
      hall.set_keep_id b _ rfl rfl rfl rfl (fun h => Or.inl h) (fun h => Or.inl h)
        (fun hl => hall.1.2.2 b hb.1 hl)
    obtain ⟨g1, g2⟩ := hset b { s.buf b with data := data } hb.1
      rfl rfl rfl rfl (Or.inl ⟨rfl, rfl⟩)
    exact ⟨L, hall2, g1, fun d n _ => rfl, g2⟩

theorem acquires_not_writes (op : Op) (s : Bio) (d n d1 n1 : Nat)
    (h : op.acquires d n = true) : op.writesTo s d1 n1 = false := by
  cases op <;> simp [Op.acquires] at h <;> rfl

theorem acquires_unique (op : Op) (d n d1 n1 : Nat) (h : op.acquires d n = true)
    (h1 : op.acquires d1 n1 = true) : d = d1 ∧ n = n1 := by
  cases op <;> simp [Op.acquires] at h h1
  · exact ⟨h.1.symm.trans h1.1, h.2.symm.trans h1.2⟩
  · exact ⟨h.1.symm.trans h1.1, h.2.symm.trans h1.2⟩

/-- Along a run that does not write block `(dev, blockno)`, the block keeps its content on the
device and a buffer that is the first of its identity stays so. -/
theorem run_quiet (c : BParams) (hN : 0 < c.NBUCKET) (k dev blockno : Nat) (P : List Nat) :
    ∀ (ops : List Op) (s s3 : Bio) (L : Nat → List Nat), BAll c s L → k < c.NBUF →
      FirstOf c s L k → s.disk dev blockno = P → run c ops s = some s3 →
      countedRun c ops s = true → quietRun c dev blockno ops s = true →
      ∃ L3, BAll c s3 L3 ∧ FirstOf c s3 L3 k ∧ s3.disk dev blockno = P
  | [], s, s3, L, hall, _, hf, hd, h, _, _ => by
    simp only [run, Option.some.injEq] at h
    subst h
    exact ⟨L, hall, hf, hd⟩
  | op :: ops, s, s3, L, hall, hk, hf, hd, h, hc, hq => by
    simp only [run] at h
    simp only [quietRun] at hq
    simp only [countedRun] at hc
    cases hs : op.step c s with
    | none => rw [hs] at h; cases h
    | some s2 =>
      rw [hs] at h hq hc
      simp only [Bool.and_eq_true, Bool.not_eq_true'] at hq
      simp only [Bool.and_eq_true] at hc
      obtain ⟨L2, hall2, hfirst, hdisk, _⟩ := step_effect c s s2 L op hN hall hc.1 hs
      exact run_quiet c hN k dev blockno P ops s2 s3 L2 hall2 hk (hfirst k hk hf)
        ((hdisk dev blockno hq.1).trans hd) h hc.2 hq.2

/-- Along a run without a request for identity `(dev, blockno)`, the identity stays uncached
and its block keeps its content on the device. -/
theorem run_uncached (c : BParams) (hN : 0 < c.NBUCKET) (dev blockno : Nat) (P : List Nat) :
    ∀ (ops : List Op) (s s5 : Bio) (L : Nat → List Nat), BAll c s L →
      Uncached c s dev blockno → s.disk dev blockno = P → run c ops s = some s5 →
      countedRun c ops s = true →
      (∀ op, op ∈ ops → op.acquires dev blockno = false) →
      ∃ L5, BAll c s5 L5 ∧ Uncached c s5 dev blockno ∧ s5.disk dev blockno = P
  | [], s, s5, L, hall, hu, hd, h, _, _ => by
    simp only [run, Option.some.injEq] at h
    subst h
    exact ⟨L, hall, hu, hd⟩
  | op :: ops, s, s5, L, hall, hu, hd, h, hc, hq => by
    simp only [run] at h
    simp only [countedRun] at hc
    cases hs : op.step c s with
    | none => rw [hs] at h; cases h
    | some s2 =>
      rw [hs] at h hc
      simp only [Bool.and_eq_true] at hc
      obtain ⟨L2, hall2, _, hdisk, heff⟩ := step_effect c s s2 L op hN hall hc.1 hs
      have hnw : op.writesTo s dev blockno = false := by
        cases op with
        | bwrite pid b =>
          simp only [Op.writesTo]
          by_contra hc
          have hc1 : isCached dev blockno (s.buf b) = true := by simpa using hc
          rw [isCached_iff] at hc1
          simp only [Op.step] at hs
          split_ifs at hs with hb
          have hh : holdingsleep pid s (.buf b) = true := by
            by_contra hh
            simp only [bwrite, hh, Bool.not_false, if_true, Out.next] at hs
            cases hs
          have hl : (s.buf b).lock ≠ none := by
            intro hl
            simp [holdingsleep, hl] at hh
          have := hall.1.2.2 b hb hl
          have := (hu b hb hc1.1 hc1.2).1
          omega
        | _ => rfl
      have hu2 : Uncached c s2 dev blockno := by
        intro x hx e1 e2
        rcases heff x hx with ⟨a1, a2, a3⟩ | a
        · obtain ⟨u1, u2⟩ := hu x hx (a1.symm.trans e1) (a2.symm.trans e2)
          rcases a3 with ⟨r, v⟩ | r
          · exact ⟨r.trans u1, v.trans u2⟩
          · omega
        · rw [e1, e2, hq op (List.mem_cons_self _ _)] at a
          cases a
      exact run_uncached c hN dev blockno P ops s2 s5 L2 hall2 hu2
        ((hdisk dev blockno hnw).trans hd) h hc.2 (fun o ho => hq o (List.mem_cons_of_mem _ ho))

/-- When a step takes identity `(dev, blockno)` away from the buffer that was the first of this
identity, the identity is no longer cached, and the device is as before. -/
theorem evict_uncached (c : BParams) (s3 s4 : Bio) (L : Nat → List Nat) (ev : Op)
    (hN : 0 < c.NBUCKET) (k dev blockno : Nat) (hall : BAll c s3 L) (hk : k < c.NBUF)
    (hf : FirstOf c s3 L k) (hid3 : (s3.buf k).dev = dev ∧ (s3.buf k).blockno = blockno)
    (hev : ev.step c s3 = some s4)
    (hid4 : ¬ ((s4.buf k).dev = dev ∧ (s4.buf k).blockno = blockno)) :
    ∃ L4, BAll c s4 L4 ∧ Uncached c s4 dev blockno ∧
      s4.disk dev blockno = s3.disk dev blockno := by
  have hcev : ev.counted s3 = true := by
    cases ev with
    | bpin b =>
      exfalso
      simp only [Op.step] at hev
      split_ifs at hev
      simp only [Option.some.injEq] at hev
      subst hev
      apply hid4
      by_cases e : k = b
      · subst e; simpa [bpin, set_buf_apply] using hid3
      · simpa [bpin, set_buf_apply, e] using hid3
    | bunpin b =>
      exfalso
      simp only [Op.step] at hev
      split_ifs at hev
      simp only [Option.some.injEq] at hev
      subst hev
      apply hid4
      by_cases e : k = b
      · subst e; simpa [bunpin, set_buf_apply] using hid3
      · simpa [bunpin, set_buf_apply, e] using hid3
    | _ => rfl
  obtain ⟨L4, hall4, _, hdisk, heff⟩ := step_effect c s3 s4 L ev hN hall hcev hev
  have hacq : ev.acquires (s4.buf k).dev (s4.buf k).blockno = true := by
    rcases heff k hk with ⟨a1, a2, _⟩ | a
    · exact absurd ⟨a1.trans hid3.1, a2.trans hid3.2⟩ hid4
    · exact a
  refine ⟨L4, hall4, ?_, hdisk dev blockno (acquires_not_writes ev s3 _ _ _ _ hacq)⟩
  intro x hx e1 e2
  rcases heff x hx with ⟨a1, a2, a3⟩ | a
  · have hxk : x ≠ k := by
      intro e
      rw [e] at e1 e2
      exact hid4 ⟨e1, e2⟩
    have hnf : ¬ FirstOf c s3 L x := by
      intro hfx
      unfold FirstOf at hf hfx
      rw [a1.symm.trans e1, a2.symm.trans e2] at hfx
      rw [hid3.1, hid3.2] at hf
      rw [hf] at hfx
      injection hfx with hfx
      exact hxk hfx.symm
    have hr : (s3.buf x).refcnt = 0 := by
      by_contra hc
      exact hnf (hall.1.2.1 x hx (Nat.pos_of_ne_zero hc))
    have hv : (s3.buf x).valid = 0 := by
      by_contra hc
      exact hnf (hall.2.1 x hx hc)
    rcases a3 with ⟨r, v⟩ | r
    · exact ⟨r.trans hr, v.trans hv⟩
    · omega
  · rw [e1, e2] at a
    obtain ⟨b1, b2⟩ := acquires_unique ev _ _ _ _ hacq a
    exact absurd ⟨b1, b2⟩ hid4

/-- The next `bread` of an uncached identity returns a locked buffer filled from the device by
one device read, if any buffer is idle, and panics otherwise. -/
theorem bread_uncached (c : BParams) (pid : Nat) (s : Bio) (L : Nat → List Nat)
    (dev blockno : Nat) (hN : 0 < c.NBUCKET) (hall : BAll c s L)
    (hu : Uncached c s dev blockno) :
    ((∃ x, x < c.NBUF ∧ (s.buf x).refcnt = 0) →
      ∃ s1 k, bread c pid s dev blockno = .ret s1 (.buf k) ∧ k < c.NBUF ∧
        (s1.buf k).dev = dev ∧ (s1.buf k).blockno = blockno ∧ (s1.buf k).valid = 1 ∧
        (s1.buf k).lock = some pid ∧ (s1.buf k).data = s.disk dev blockno ∧
        s1.reads = s.reads + 1) ∧
    ((¬ ∃ x, x < c.NBUF ∧ (s.buf x).refcnt = 0) →
      bread c pid s dev blockno = .panic "bget: no buffers" s) := by
  obtain ⟨⟨hw, _, hlk⟩, _, _⟩ := hall
  rcases bget_pre c pid s L dev blockno hN hw with
    ⟨e, _, hnone⟩ | ⟨s0, L1, k, e, hk, hw0, _, hlock, _, hcase⟩
  · constructor
    · rintro ⟨k0, hk0, hr0⟩
      have hi : (s.buf k0).blockno % c.NBUCKET < c.NBUCKET := Nat.mod_lt _ hN
      have hm : k0 ∈ L ((s.buf k0).blockno % c.NBUCKET) := (hw.mem_iff _ hi k0).2 ⟨hk0, rfl⟩
      have := List.find?_eq_none.1 (hnone _ hi) k0 hm
      exact absurd (by simpa [isIdle] using hr0) this
    · intro _
      unfold bread
      rw [e]
  · have hk0 : (s.buf k).refcnt = 0 ∧ (s0.buf k).dev = dev ∧ (s0.buf k).blockno = blockno ∧
        (s0.buf k).valid = 0 := by
      rcases hcase with ⟨hf, _, e1, e2, e3, _⟩ | ⟨_, a1, a2, a3, _, j, _, _, hidle, _⟩
      · obtain ⟨hp, _⟩ := find_some_pred _ _ _ hf
        rw [isCached_iff] at hp
        obtain ⟨u1, u2⟩ := hu k hk hp.1 hp.2
        exact ⟨u1, e1.trans hp.1, e2.trans hp.2, e3.trans u2⟩
      · obtain ⟨hp, _⟩ := find_some_pred _ _ _ hidle
        exact ⟨by simpa [isIdle] using hp, a1, a2, a3⟩
    obtain ⟨hr, hd0, hb0, hv0⟩ := hk0
    have hl : (s0.buf k).lock = none := by
      rw [hlock]
      by_contra hne
      have := hlk k hk hne
      omega
    constructor
    · intro _
      rcases acquiresleep_cases pid s0 k with ⟨_, e1⟩ | ⟨hne, _⟩
      · have hg : bget c pid s dev blockno = .ret (lockState pid s0 k) (.buf k) := by
          rw [e, e1]
        obtain ⟨fd, fr, _⟩ := bget_frame c pid s _ L dev blockno _ hN hw (Or.inl hg)
        have hv1 : ((lockState pid s0 k).buf k).valid = 0 := by
          simpa [lockState, set_buf_apply] using hv0
        have hbr : bread c pid s dev blockno
            = .ret (breadFill (lockState pid s0 k) (.buf k)) (.buf k) := by
          unfold bread
          rw [hg]
        obtain ⟨eb, _⟩ := breadFill_buf (lockState pid s0 k) k
        have hfl : filled (lockState pid s0 k) k =
            { (lockState pid s0 k).buf k with
              data := (lockState pid s0 k).disk ((lockState pid s0 k).buf k).dev
                ((lockState pid s0 k).buf k).blockno,
              valid := 1 } := by
          unfold filled
          rw [if_pos hv1]
        have hd1 : ((lockState pid s0 k).buf k).dev = dev := by
          simpa [lockState, set_buf_apply] using hd0
        have hb1 : ((lockState pid s0 k).buf k).blockno = blockno := by
          simpa [lockState, set_buf_apply] using hb0
        refine ⟨_, k, hbr, hk, ?_, ?_, ?_, ?_, ?_, ?_⟩
        · rw [eb, upd_same, hfl]; exact hd1
        · rw [eb, upd_same, hfl]; exact hb1
        · rw [eb, upd_same, hfl]
        · rw [eb, upd_same, hfl]
          simp [lockState, set_buf_apply]
        · rw [eb, upd_same, hfl]
          simp only [hd1, hb1, fd]
        · rw [← fr]
          unfold breadFill
          rw [Bio.get_buf, if_pos hv1]
          simp [diskRead]
      · exact absurd hl hne
    · intro hno
      exact absurd ⟨k, hk, hr⟩ hno

/-! ### The invariant of arbitrary call sequences -/

theorem BWf.of_equal_bufs {c : BParams} {s t : Bio} {L : Nat → List Nat} (h1 : t.buf = s.buf)
    (h2 : t.head = s.head) (hw : BWf c s L) : BWf c t L := by
  have hget : t.get = s.get := by
    funext q
    cases q with
    | null => rfl
    | head i => simp [Bio.get, h2]
    | buf b => simp [Bio.get, h1]
  have hnx : t.nx = s.nx := by funext q; simp [Bio.nx, hget]
  have hpr : t.pr = s.pr := by funext q; simp [Bio.pr, hget]
  refine ⟨?_, hw.nodup, ?_⟩
  · intro i hi; rw [hnx, hpr]; exact hw.dll i hi
  · intro i hi b; rw [h1]; exact hw.mem_iff i hi b

theorem BCore.of_bufs_eq {c : BParams} {s t : Bio} {L : Nat → List Nat} (h1 : t.buf = s.buf)
    (h2 : t.head = s.head) (hcore : BCore c s L) : BCore c t L := by
  obtain ⟨hw, hval, hu⟩ := hcore
  refine ⟨hw.of_equal_bufs h1 h2, ?_, ?_⟩
  · intro b hb hv
    unfold FirstOf
    rw [h1] at hv ⊢
    exact hval b hb hv
  · intro a b ha hb hab e1 e2
    rw [h1] at e1 e2 ⊢
    exact hu a b ha hb hab e1 e2

/-- Overwriting a buffer with a value that has the same links and identity keeps the core
invariant, when a new `valid` flag goes to the first buffer of its identity. -/
theorem BCore.set_keep_ident {c : BParams} {s : Bio} {L : Nat → List Nat} (hcore : BCore c s L)
    (k : Nat) (v : Buf) (h1 : v.next = (s.buf k).next) (h2 : v.prev = (s.buf k).prev)
    (h3 : v.dev = (s.buf k).dev) (h4 : v.blockno = (s.buf k).blockno)
    (hv : v.valid ≠ 0 → (s.buf k).valid ≠ 0 ∨ FirstOf c s L k) :
    BCore c (s.set (.buf k) v) L := by
  obtain ⟨hw, hval, hu⟩ := hcore
  have hid : ∀ x, ((s.set (.buf k) v).buf x).dev = (s.buf x).dev ∧
      ((s.set (.buf k) v).buf x).blockno = (s.buf x).blockno := by
    intro x
    rw [set_buf_apply]
    by_cases e : x = k
    · subst e; simp [h3, h4]
    · simp [e]
  refine ⟨hw.set_data k v h1 h2 (by rw [h4]), ?_, ?_⟩
  · intro b hb hvb
    rw [first_set_same_id c s L k v b h3 h4]
    rw [set_buf_apply] at hvb
    by_cases e : b = k
    · subst e
      simp only [if_true] at hvb
      rcases hv hvb with h | h
      · exact hval b hb h
      · exact h
    · rw [if_neg e] at hvb
      exact hval b hb hvb
  · intro a b ha hb hab e1 e2
    rw [(hid a).1, (hid b).1] at e1
    rw [(hid a).2, (hid b).2] at e2
    rw [(hid a).1, (hid a).2]
    exact hu a b ha hb hab e1 e2

/-- The core invariant after a buffer `k` got a fresh identity, and `k` is then the first
buffer of that identity. -/
theorem fresh_core (c : BParams) (s s1 : Bio) (L L1 : Nat → List Nat) (k dev blockno : Nat)
    (hN : 0 < c.NBUCKET) (hcore : BCore c s L) (hw1 : BWf c s1 L1) (hk : k < c.NBUF)
    (hfresh : (L (blockno % c.NBUCKET)).find? (fun x => isCached dev blockno (s.buf x)) = none)
    (hid : ∀ x, x ≠ k → (s1.buf x).dev = (s.buf x).dev ∧
      (s1.buf x).blockno = (s.buf x).blockno ∧ (s1.buf x).valid = (s.buf x).valid)
    (hidk : (s1.buf k).dev = dev ∧ (s1.buf k).blockno = blockno ∧ (s1.buf k).valid = 0)
    (hL1 : ∀ j, j < c.NBUCKET → ∀ (p : Nat → Bool) (b : Nat), b ≠ k → p k = false →
      (L j).find? p = some b → (L1 j).find? p = some b) :
    BCore c s1 L1 ∧ FirstOf c s1 L1 k := by
  obtain ⟨hw, hval, hu⟩ := hcore
  have hh : blockno % c.NBUCKET < c.NBUCKET := Nat.mod_lt _ hN
  have hnok : ∀ b, b < c.NBUF → ¬ ((s.buf b).dev = dev ∧ (s.buf b).blockno = blockno) := by
    intro b hb ⟨e1, e2⟩
    have hm : b ∈ L (blockno % c.NBUCKET) := (hw.mem_iff _ hh b).2 ⟨hb, by rw [e2]⟩
    exact List.find?_eq_none.1 hfresh b hm ((isCached_iff _ _ _).2 ⟨e1, e2⟩)
  refine ⟨⟨hw1, ?_, ?_⟩, ?_⟩
  · intro b hb hvb
    by_cases e : b = k
    · rw [e, hidk.2.2] at hvb
      exact absurd rfl hvb
    · rw [(hid b e).2.2] at hvb
      exact first_fresh c s s1 L L1 k dev blockno b hN e (hval b hb hvb) hfresh
        (fun x hx => ⟨(hid x hx).1, (hid x hx).2.1⟩) ⟨hidk.1, hidk.2.1⟩ hL1
  · intro a b ha hb hab e1 e2
    by_cases ea : a = k
    · have eb : b ≠ k := fun h => hab (ea.trans h.symm)
      rw [ea, hidk.1, (hid b eb).1] at e1
      rw [ea, hidk.2.1, (hid b eb).2.1] at e2
      exact absurd ⟨e1.symm, e2.symm⟩ (hnok b hb)
    · by_cases eb : b = k
      · rw [eb, hidk.1, (hid a ea).1] at e1
        rw [eb, hidk.2.1, (hid a ea).2.1] at e2
        exact absurd ⟨e1, e2⟩ (hnok a ha)
      · rw [(hid a ea).1, (hid b eb).1] at e1
        rw [(hid a ea).2.1, (hid b eb).2.1] at e2
        rw [(hid a ea).1, (hid a ea).2.1]
        exact hu a b ha hb hab e1 e2
  · unfold FirstOf
    rw [hidk.1, hidk.2.1]
    refine find_unique _ k _ ((hw1.mem_iff _ hh k).2 ⟨hk, by rw [hidk.2.1]⟩)
      ((isCached_iff _ _ _).2 ⟨hidk.1, hidk.2.1⟩) ?_
    intro x hx hxk
    obtain ⟨hxN, _⟩ := (hw1.mem_iff _ hh x).1 hx
    by_contra hc
    have hc1 : isCached dev blockno (s1.buf x) = true := by simpa using hc
    rw [isCached_iff, (hid x hxk).1, (hid x hxk).2.1] at hc1
    exact hnok x hxN hc1

/-- A `bget` that does not panic keeps the core invariant, whatever the reference counts
are, and the buffer it hands out is the first of the requested identity. -/
theorem bget_core (c : BParams) (pid : Nat) (s s1 : Bio) (L : Nat → List Nat)
    (dev blockno : Nat) (b : Ptr) (hN : 0 < c.NBUCKET) (hcore : BCore c s L)
    (h : bget c pid s dev blockno = .ret s1 b ∨ bget c pid s dev blockno = .sleep s1 b) :
    ∃ L1 k, BCore c s1 L1 ∧ b = .buf k ∧ k < c.NBUF ∧ FirstOf c s1 L1 k := by
  rcases bget_pre c pid s L dev blockno hN hcore.1 with
    ⟨e, _⟩ | ⟨s0, L1, k, e, hk, hw0, hsame, _, _, hcase⟩
  · rw [e] at h
    rcases h with h | h <;> cases h
  · rw [e] at h
    obtain ⟨hb, hw1, hoth, hd1, hbl1, hv1, _, _, _⟩ := acquire_post c pid s0 s1 L1 k b hw0 h
    have hid : ∀ y, y ≠ k → (s1.buf y).dev = (s.buf y).dev ∧
        (s1.buf y).blockno = (s.buf y).blockno ∧ (s1.buf y).valid = (s.buf y).valid := by
      intro y hy
      rw [hoth y hy]
      exact ⟨(hsame y hy).2.1, (hsame y hy).2.2.1, (hsame y hy).1⟩
    rcases hcase with ⟨hf, eL, e1, e2, e3, _⟩ | ⟨hfresh, a1, a2, a3, _, j, _, _, _, hj0⟩
    · subst eL
      have hall : ∀ y, (s1.buf y).dev = (s.buf y).dev ∧
          (s1.buf y).blockno = (s.buf y).blockno ∧ (s1.buf y).valid = (s.buf y).valid := by
        intro y
        by_cases ey : y = k
        · rw [ey]
          exact ⟨hd1.trans e1, hbl1.trans e2, hv1.trans e3⟩
        · exact hid y ey
      have hfst : ∀ x, FirstOf c s1 L1 x ↔ FirstOf c s L1 x :=
        fun x => first_same_id c s s1 L1 x (fun y => ⟨(hall y).1, (hall y).2.1⟩)
      obtain ⟨_, hval, hu⟩ := hcore
      have hidk := (isCached_iff _ _ _).1 (find_some_pred _ _ _ hf).1
      refine ⟨L1, k, ⟨hw1, ?_, ?_⟩, hb, hk, (hfst k).2 ?_⟩
      · intro x hx hvx
        rw [(hall x).2.2] at hvx
        exact (hfst x).2 (hval x hx hvx)
      · intro x y hx hy hxy e1 e2
        rw [(hall x).1, (hall y).1] at e1
        rw [(hall x).2.1, (hall y).2.1] at e2
        rw [(hall x).1, (hall x).2.1]
        exact hu x y hx hy hxy e1 e2
      · unfold FirstOf
        rw [hidk.1, hidk.2]
        exact hf
    · have hL1 : ∀ j, j < c.NBUCKET → ∀ (p : Nat → Bool) (b : Nat), b ≠ k → p k = false →
          (L j).find? p = some b → (L1 j).find? p = some b := by
        rcases hj0 with ⟨_, eL⟩ | ⟨_, eL⟩
        · rw [eL]
          intro j _ p b _ _ hfj
          exact hfj
        · rw [eL]
          exact steal_find c L _ _ k
      obtain ⟨hc1, hf1⟩ := fresh_core c s s1 L L1 k dev blockno hN hcore hw1 hk hfresh hid
        ⟨hd1.trans a1, hbl1.trans a2, hv1.trans a3⟩ hL1
      exact ⟨L1, k, hc1, hb, hk, hf1⟩

/-- Every step keeps the core invariant, whatever the reference counts are. -/
theorem step_core (c : BParams) (s s1 : Bio) (L : Nat → List Nat) (op : Op)
    (hN : 0 < c.NBUCKET) (hcore : BCore c s L) (h : op.step c s = some s1) :
    ∃ L1, BCore c s1 L1 := by
  cases op with
  | bget pid dev blockno =>
    rcases Out.next_some _ _ h with ⟨b, e⟩ | ⟨b, e⟩
    · obtain ⟨L1, _, h1, _⟩ := bget_core c pid s s1 L dev blockno b hN hcore (Or.inl e)
      exact ⟨L1, h1⟩
    · obtain ⟨L1, _, h1, _⟩ := bget_core c pid s s1 L dev blockno b hN hcore (Or.inr e)
      exact ⟨L1, h1⟩
  | bread pid dev blockno =>
    rcases Out.next_some _ _ h with ⟨b, e⟩ | ⟨b, e⟩
    · obtain ⟨s0, e0, e1⟩ := ((bread_cases c pid s s1 dev blockno b).1).1 e
      obtain ⟨L1, k, h1, hb, hk, hf⟩ := bget_core c pid s s0 L dev blockno b hN hcore (Or.inl e0)
      subst hb e1
      obtain ⟨eb, eh⟩ := breadFill_buf s0 k
      obtain ⟨f1, f2, _⟩ := filled_id s0 k
      have hnp : (filled s0 k).next = (s0.buf k).next ∧ (filled s0 k).prev = (s0.buf k).prev := by
        unfold filled
        split_ifs <;> exact ⟨rfl, rfl⟩
      exact ⟨L1, BCore.of_bufs_eq (s := s0.set (.buf k) (filled s0 k)) eb eh
        (h1.set_keep_ident k _ hnp.1 hnp.2 f1 f2 (fun _ => Or.inr hf))⟩
    · have e0 := ((bread_cases c pid s s1 dev blockno b).2).1 e
      obtain ⟨L1, _, h1, _⟩ := bget_core c pid s s1 L dev blockno b hN hcore (Or.inr e0)
      exact ⟨L1, h1⟩
  | brelse pid b =>
    simp only [Op.step] at h
    split_ifs at h with hb
    by_cases hh : holdingsleep pid s (.buf b) = true
    · rw [brelse_ret pid s b hh] at h
      simp only [Out.next, Option.some.injEq] at h
      subst h
      exact ⟨L, hcore.set_keep_ident b _ rfl rfl rfl rfl (fun h => Or.inl h)⟩
    · simp only [brelse, hh, Bool.not_false, if_true, Out.next] at h
      cases h
  | bwrite pid b =>
    simp only [Op.step] at h
    split_ifs at h with hb
    by_cases hh : holdingsleep pid s (.buf b) = true
    · simp only [bwrite, hh, Bool.not_true, Bool.false_eq_true, if_false, Out.next,
        Option.some.injEq] at h
      subst h
      exact ⟨L, BCore.of_bufs_eq (s := s) rfl rfl hcore⟩
    · simp only [bwrite, hh, Bool.not_false, if_true, Out.next] at h
      cases h
  | bpin b =>
    simp only [Op.step] at h
    split_ifs at h with hb
    simp only [Option.some.injEq] at h
    subst h
    exact ⟨L, hcore.set_keep_ident b _ rfl rfl rfl rfl (fun h => Or.inl h)⟩
  | bunpin b =>
    simp only [Op.step] at h
    split_ifs at h with hb
    simp only [Option.some.injEq] at h
    subst h
    exact ⟨L, hcore.set_keep_ident b _ rfl rfl rfl rfl (fun h => Or.inl h)⟩
  | poke pid b data =>
    simp only [Op.step] at h
    split_ifs at h with hb
    simp only [Option.some.injEq] at h
    subst h
    exact ⟨L, hcore.set_keep_ident b _ rfl rfl rfl rfl (fun h => Or.inl h)⟩

theorem run_core (c : BParams) (hN : 0 < c.NBUCKET) :
    ∀ (ops : List Op) (s s1 : Bio) (L : Nat → List Nat), BCore c s L → run c ops s = some s1 →
      ∃ L1, BCore c s1 L1
  | [], s, s1, L, hcore, h => by
    simp only [run, Option.some.injEq] at h
    subst h
    exact ⟨L, hcore⟩
  | op :: ops, s, s1, L, hcore, h => by
    simp only [run] at h
    cases hs : op.step c s with
    | none => rw [hs] at h; cases h
    | some s2 =>
      rw [hs] at h
      obtain ⟨L2, h2⟩ := step_core c s s2 L op hN hcore hs
      exact run_core c hN ops s2 s1 L2 h2 h

/-- Every cache state reachable by any calls satisfies the core invariant. -/
theorem bany_core (c : BParams) (d : Nat → Nat → List Nat) (hN : 0 < c.NBUCKET) (s : Bio)
    (h : BAny c d s) : ∃ L, BCore c s L := by
  obtain ⟨ops, e⟩ := h
  obtain ⟨hinv, hval, hu⟩ := binit_all c d hN
  exact run_core c hN ops _ s _ ⟨hinv.1, hval, hu⟩ e

/-- A state reached under the reference discipline is reached by some calls. -/
theorem brun_any (c : BParams) (d : Nat → Nat → List Nat) (s : Bio) (h : BRun c d s) :
    BAny c d s := by
  obtain ⟨ops, _, e⟩ := h
  exact ⟨ops, e⟩

/-! ## kernel/kalloc.c : properties -/

theorem exK_sane : exK.Sane := by
  unfold KParams.Sane exK PGSIZE U64
  decide

theorem exK0_reach : KReach exK exM exK0 [] := KReach.init exK0 rfl

theorem exK1_reach : KReach exK exM exK1 [12288] :=
  KReach.alloc exK0 exK1 [] 1 12288 exK0_reach (by decide) rfl

/-- C2 (page conservation): in every allocator state reachable after `kinit` by `kalloc` and
`kfree` calls from any CPUs, each `kfree` on a currently allocated page, the pools are lists
`L i` whose lengths sum, together with the number of allocated pages, to the number of managed
pages. -/
theorem kalloc_page_conservation (c : KParams) (m0 : Nat → PageMem) (s : Kmem) (A : List Nat)
    (hs : c.Sane) (h : KReach c m0 s A) :
    ∃ L, KWf c s L ∧ totalFree c L + A.length = managedPages c := by
  obtain ⟨L, hw, _, _, _, _, htot⟩ := kreach_inv c m0 hs s A h
  exact ⟨L, hw, htot⟩

theorem kalloc_page_conservation_witness :
    exK.Sane ∧ KReach exK exM exK1 [12288] ∧
    ∃ L, KWf exK exK1 L ∧ totalFree exK L + [12288].length = managedPages exK :=
  ⟨exK_sane, exK1_reach, kalloc_page_conservation exK exM exK1 [12288] exK_sane exK1_reach⟩

/-- C3 (no double allocation): in every reachable allocator state the free lists are
duplicate-free and pairwise disjoint (`KWf`), the allocated pages are distinct, no free page is
allocated, and a page returned by a further `kalloc` is not among the pages currently allocated,
that is, pages returned earlier and not yet passed to `kfree`. -/
theorem kalloc_no_double_allocation (c : KParams) (m0 : Nat → PageMem) (s : Kmem)
    (A : List Nat) (hs : c.Sane) (h : KReach c m0 s A) :
    (∃ L, KWf c s L ∧ A.Nodup ∧ ∀ i, i < c.NCPU → ∀ a, a ∈ L i → a ∉ A) ∧
    (∀ id s1 r, id < c.NCPU → kalloc c id s = some (s1, r) → r ≠ 0 → r ∉ A) := by
  obtain ⟨L, hinv⟩ := kreach_inv c m0 hs s A h
  refine ⟨⟨L, hinv.1, hinv.2.1, hinv.2.2.1⟩, ?_⟩
  intro id s1 r hid e hr
  obtain ⟨s2, r2, e2, h2⟩ := kalloc_step c s A L id hinv hid
  rw [e2] at e
  injection e with e
  injection e with es er
  subst es er
  rcases h2 with ⟨h0, _, _⟩ | ⟨_, hnA, _⟩
  · exact absurd h0 hr
  · exact hnA

theorem kalloc_no_double_allocation_witness :
    exK.Sane ∧ KReach exK exM exK1 [12288] ∧
    ((∃ L, KWf exK exK1 L ∧ [12288].Nodup ∧
        ∀ i, i < exK.NCPU → ∀ a, a ∈ L i → a ∉ [12288]) ∧
     (∀ id s1 r, id < exK.NCPU → kalloc exK id exK1 = some (s1, r) → r ≠ 0 → r ∉ [12288])) :=
  ⟨exK_sane, exK1_reach, kalloc_no_double_allocation exK exM exK1 [12288] exK_sane exK1_reach⟩

/-- C4 fails on the code: on the small machine after `kinit`, page 0x2000 is aligned, in range
and on the free list of pool 0, and `kfree(0x2000)` on CPU 0 does not panic: it returns and makes
the page the head of pool 0 once more. -/
theorem kfree_double_free_not_rejected :
    validPage exK 8192 ∧ Chain exK0.mem (exK0.freelist 0) [12288, 8192, 4096] ∧
    (kfree exK 0 exK0 8192).isPanic = false ∧ (kfree exK 0 exK0 8192).isOk = true ∧
    (kfree exK 0 exK0 8192).state.freelist 0 = 8192 := by
  unfold validPage
  decide

/-- C4 as amended: `kfree` has no double-free check. For every allocator state and every page
that is page-aligned and inside the managed range, whether or not the page is on the free list
of a pool, `kfree` returns without panic, the page is the new head of the calling CPU's pool and
its `next` word is the previous head. -/
theorem kfree_accepts_free_page (c : KParams) (id : Nat) (s : Kmem) (pa : Nat)
    (hv : validPage c pa) :
    (kfree c id s pa).isPanic = false ∧
    ∃ s1, kfree c id s pa = .ok s1 ∧ s1.freelist id = pa ∧
      (s1.mem pa).next = s.freelist id := by
  rw [kfree_ok c id s pa hv]
  exact ⟨rfl, _, rfl, by simp [kfreeState], by simp [kfreeState]⟩

theorem kfree_accepts_free_page_witness :
    validPage exK 8192 ∧ 8192 ∈ walk exK0.mem 3 (exK0.freelist 0) ∧
    ((kfree exK 0 exK0 8192).isPanic = false ∧
      ∃ s1, kfree exK 0 exK0 8192 = .ok s1 ∧ s1.freelist 0 = 8192 ∧
        (s1.mem 8192).next = exK0.freelist 0) :=
  have hv : validPage exK 8192 := by unfold validPage; decide
  ⟨hv, by decide, kfree_accepts_free_page exK 0 exK0 8192 hv⟩

/-- C5 (exhaustion): in every allocator state whose pools are free lists of pages of the
managed range (`KWf` with lists `L` of valid pages), and for every CPU id, `kalloc` returns (the
loop ends within its fuel, and there is no panic path); the result is 0 exactly when the free
list of every pool is empty, that is, every free-list head is null; then the state is
unchanged; otherwise the result is a non-null page of the managed range that was on the free
list of some pool, as its head. -/
theorem kalloc_exhaustion (c : KParams) (id : Nat) (s : Kmem) (L : Nat → List Nat)
    (hw : KWf c s L) (hv : ∀ i, i < c.NCPU → ∀ a, a ∈ L i → validPage c a)
    (hid : id < c.NCPU) :
    ∃ s1 r, kalloc c id s = some (s1, r) ∧
      (r = 0 ↔ ∀ i, i < c.NCPU → L i = []) ∧
      (r = 0 ↔ ∀ i, i < c.NCPU → s.freelist i = 0) ∧
      (r = 0 → s1 = s) ∧
      (r ≠ 0 → validPage c r ∧ ∃ i, i < c.NCPU ∧ r ∈ L i ∧ s.freelist i = r) := by
  have hnil : ∀ i, i < c.NCPU → (L i = [] ↔ s.freelist i = 0) :=
    fun i hi => Chain.nil_iff (hw.chain i hi)
  rcases first_nonempty c id s hid with hz | ⟨k, hk, hz, hne⟩
  · exact ⟨s, 0, kalloc_empty c id s hid hz,
      ⟨fun _ i hi => (hnil i hi).2 (hz i hi), fun _ => rfl⟩, by simpa using hz, fun _ => rfl,
      fun h => absurd rfl h⟩
  · have hi : (id + k) % c.NCPU < c.NCPU := Nat.mod_lt _ (by omega)
    have hLne : L ((id + k) % c.NCPU) ≠ [] := fun h => hne ((hnil _ hi).1 h)
    obtain ⟨a, t, hL⟩ := List.exists_cons_of_ne_nil hLne
    have hc := hw.chain _ hi
    rw [hL] at hc
    have hmem : s.freelist ((id + k) % c.NCPU) ∈ L ((id + k) % c.NCPU) := by
      rw [hL, hc.1]
      exact List.mem_cons_self _ _
    refine ⟨{ popState s ((id + k) % c.NCPU) with
        mem := memset (popState s ((id + k) % c.NCPU)).mem (s.freelist ((id + k) % c.NCPU)) 5 },
      s.freelist ((id + k) % c.NCPU), ?_, ?_, ?_, ?_, ?_⟩
    · rw [kalloc_at c id s hid k hk hz hne]
      simp only [kallocinit, if_pos hne]
    · constructor
      · intro h; exact absurd h hne
      · intro h; exact absurd (h _ hi) hLne
    · constructor
      · intro h; exact absurd h hne
      · intro h; exact absurd (h _ hi) hne
    · intro h; exact absurd h hne
    · intro _; exact ⟨hv _ hi _ hmem, _, hi, hmem, rfl⟩

theorem kalloc_exhaustion_witness :
    KWf exK exK0 (initLists exK) ∧
    (∀ i, i < exK.NCPU → ∀ a, a ∈ initLists exK i → validPage exK a) ∧ 1 < exK.NCPU ∧
    (∃ s1 r, kalloc exK 1 exK0 = some (s1, r) ∧
      (r = 0 ↔ ∀ i, i < exK.NCPU → initLists exK i = []) ∧
      (r = 0 ↔ ∀ i, i < exK.NCPU → exK0.freelist i = 0) ∧
      (r = 0 → s1 = exK0) ∧
      (r ≠ 0 → validPage exK r ∧ ∃ i, i < exK.NCPU ∧ r ∈ initLists exK i ∧
        exK0.freelist i = r)) ∧
    kalloc exK 1 exK0 = some (exK1, 12288) ∧ initLists exK 0 = [12288, 8192, 4096] ∧
    initLists exK 1 = [] :=
  have hinv : KInv exK exK0 [] (initLists exK) := by
    obtain ⟨s, e, hinv⟩ := kinit_ok exK exM exK_sane
    have e0 : kinit exK 0 exM = .ok exK0 := rfl
    rw [e0] at e
    injection e with e
    subst e
    exact hinv
  ⟨hinv.1, hinv.2.2.2.2.1, by decide,
    kalloc_exhaustion exK 1 exK0 (initLists exK) hinv.1 hinv.2.2.2.2.1 (by decide),
    rfl, by decide, by decide⟩

/-- C8 (argument validation): for every address and every allocator state, `kfree` panics
exactly when the address is not a multiple of `PGSIZE`, or is below `end`, or is at or above
`PHYSTOP`; the panic is `panic("kfree")` and it happens in the unmodified state. -/
theorem kfree_validates (c : KParams) (id : Nat) (s : Kmem) (pa : Nat) :
    ((kfree c id s pa).isPanic = true ↔
      (pa % PGSIZE ≠ 0 ∨ pa < c.kend ∨ c.PHYSTOP ≤ pa)) ∧
    ((kfree c id s pa).isPanic = true → kfree c id s pa = .panic "kfree" s) := by
  by_cases hv : validPage c pa
  · rw [kfree_ok c id s pa hv]
    unfold validPage at hv
    simp only [KOut.isPanic, Bool.false_eq_true, false_iff, false_imp_iff, and_true]
    omega
  · rw [(kfree_panic_iff c id s pa).2 hv]
    unfold validPage at hv
    simp only [KOut.isPanic, true_iff, true_imp_iff, and_true]
    omega

theorem kfree_validates_witness :
    ((kfree exK 0 exK0 8193).isPanic = true ↔
      (8193 % PGSIZE ≠ 0 ∨ 8193 < exK.kend ∨ exK.PHYSTOP ≤ 8193)) ∧
    ((kfree exK 0 exK0 8193).isPanic = true → kfree exK 0 exK0 8193 = .panic "kfree" exK0) :=
  kfree_validates exK 0 exK0 8193

/-- C9 fails on the code for a page that is on a free list: on the small machine after
`kinit`, pool 0 is 0x3000, 0x2000, 0x1000 and pool 1 is empty; `kfree(0x2000)` on CPU 1 returns,
and afterwards the free list of pool 0, another pool, is 0x3000, 0x2000: it has changed. -/
theorem kfree_changes_other_pool :
    validPage exK 8192 ∧ Chain exK0.mem (exK0.freelist 0) [12288, 8192, 4096] ∧
    Chain exK0.mem (exK0.freelist 1) [] ∧ (kfree exK 1 exK0 8192).isOk = true ∧
    Chain (kfree exK 1 exK0 8192).state.mem ((kfree exK 1 exK0 8192).state.freelist 0)
      [12288, 8192] ∧
    ¬ Chain (kfree exK 1 exK0 8192).state.mem ((kfree exK 1 exK0 8192).state.freelist 0)
      [12288, 8192, 4096] := by
  unfold validPage
  decide

/-- C9 as amended: in a well-formed allocator state, `kfree` on CPU `id` of a page that passes
the check and is on no free list returns, makes pool `id`'s free list the page followed by the
pool's previous list, and leaves the list and the head pointer of every other pool as they
were. -/
theorem kfree_pushes_on_own_pool (c : KParams) (id : Nat) (s : Kmem) (L : Nat → List Nat)
    (pa : Nat) (hk : 0 < c.kend) (hw : KWf c s L) (hid : id < c.NCPU) (hv : validPage c pa)
    (hfresh : ∀ i, i < c.NCPU → pa ∉ L i) :
    ∃ s1, kfree c id s pa = .ok s1 ∧ KWf c s1 (upd L id (pa :: L id)) ∧
      upd L id (pa :: L id) id = pa :: L id ∧
      (∀ j, j ≠ id → upd L id (pa :: L id) j = L j ∧ s1.freelist j = s.freelist j) := by
  have h0 : pa ≠ 0 := by have := hv.2.1; omega
  refine ⟨_, kfree_ok c id s pa hv, kfreeState_wf c id s L pa hw hid h0 hfresh, upd_same _ _ _,
    ?_⟩
  intro j hj
  exact ⟨upd_other _ _ _ _ hj, by simp [kfreeState, upd_other _ _ _ _ hj]⟩

theorem exK1_wf : KWf exK exK1 (upd (initLists exK) 0 [8192, 4096]) := by
  refine ⟨by decide, by decide, ?_⟩
  intro i j hi hj hij
  have hi2 : i < 2 := hi
  have hj2 : j < 2 := hj
  interval_cases i <;> interval_cases j <;> first | exact absurd rfl hij | decide

theorem kfree_pushes_on_own_pool_witness :
    0 < exK.kend ∧ KWf exK exK1 (upd (initLists exK) 0 [8192, 4096]) ∧ 1 < exK.NCPU ∧
    validPage exK 12288 ∧ (∀ i, i < exK.NCPU → 12288 ∉ upd (initLists exK) 0 [8192, 4096] i) ∧
    ∃ s1, kfree exK 1 exK1 12288 = .ok s1 ∧
      KWf exK s1 (upd (upd (initLists exK) 0 [8192, 4096]) 1
        (12288 :: upd (initLists exK) 0 [8192, 4096] 1)) ∧
      upd (upd (initLists exK) 0 [8192, 4096]) 1
        (12288 :: upd (initLists exK) 0 [8192, 4096] 1) 1
        = 12288 :: upd (initLists exK) 0 [8192, 4096] 1 ∧
      (∀ j, j ≠ 1 → upd (upd (initLists exK) 0 [8192, 4096]) 1
          (12288 :: upd (initLists exK) 0 [8192, 4096] 1) j
          = upd (initLists exK) 0 [8192, 4096] j ∧ s1.freelist j = exK1.freelist j) :=
  have hv : validPage exK 12288 := by unfold validPage; decide
  ⟨by decide, exK1_wf, by decide, hv, by decide,
    kfree_pushes_on_own_pool exK 1 exK1 (upd (initLists exK) 0 [8192, 4096]) 12288
      (by decide) exK1_wf (by decide) hv (by decide)⟩

/-- C13 (initial page distribution): for every range `pa_start <= pa_end` inside the managed
region, `freerange` run on CPU 0 from empty pools returns without panic; it is the sequence of
`kfree` calls on the pages `PGROUNDUP(pa_start) + k * PGSIZE` that end at or before `pa_end`, in
ascending address order; afterwards pool 0's free list holds exactly these pages, highest
address at the head, and every other pool is empty. (`kinit` is this call on the range from
`end` to `PHYSTOP`.) -/
theorem freerange_initial_distribution (c : KParams) (s : Kmem) (pa_start pa_end : Nat)
    (hk : 0 < c.kend) (hU : c.PHYSTOP + 2 * PGSIZE ≤ U64) (h1 : c.kend ≤ pa_start)
    (h2 : pa_start ≤ pa_end) (h3 : pa_end ≤ c.PHYSTOP) (hempty : ∀ i, s.freelist i = 0) :
    ∃ s1, freerange c 0 s pa_start pa_end = .ok s1 ∧
      s1 = (pagesAsc (PGROUNDUP pa_start) ((pa_end - PGROUNDUP pa_start) / PGSIZE)).foldl
        (kfreeState 0) s ∧
      (pagesAsc (PGROUNDUP pa_start) ((pa_end - PGROUNDUP pa_start) / PGSIZE)).Pairwise
        (fun a b => a < b) ∧
      (∀ a, a ∈ pagesAsc (PGROUNDUP pa_start) ((pa_end - PGROUNDUP pa_start) / PGSIZE) ↔
        ∃ k, a = PGROUNDUP pa_start + k * PGSIZE ∧ a + PGSIZE ≤ pa_end) ∧
      KWf c s1 (upd (fun _ => []) 0
        (pagesAsc (PGROUNDUP pa_start) ((pa_end - PGROUNDUP pa_start) / PGSIZE)).reverse) ∧
      ∀ i, i ≠ 0 → s1.freelist i = 0 := by
  obtain ⟨r1, r2, r3⟩ := PGROUNDUP_spec pa_start (by unfold PGSIZE at *; omega)
  simp only [freerange]
  generalize PGROUNDUP pa_start = p at r1 r2 r3 ⊢
  generalize hn : (pa_end - p) / PGSIZE = n
  have hpU : p + PGSIZE < U64 := by unfold PGSIZE at *; omega
  have hb1 : pa_end < p + (n + 1) * PGSIZE := by rw [← hn]; unfold PGSIZE at *; omega
  have hb2 : n = 0 ∨ p + n * PGSIZE ≤ pa_end := by rw [← hn]; unfold PGSIZE at *; omega
  have hf : n < pa_end / PGSIZE + 1 := by rw [← hn]; unfold PGSIZE at *; omega
  have hfold := freerangeLoop_fold c 0 pa_end h3 (by unfold PGSIZE at *; omega) n p
    (pa_end / PGSIZE + 1) s r1 (by omega) hpU hb1 hb2 hf
  obtain ⟨s1, e, hc, hj⟩ := freerangeLoop_spec c 0 pa_end hk h3 (by unfold PGSIZE at *; omega)
    n p (pa_end / PGSIZE + 1) s [] r1 (by omega) hpU hb1 hb2 hf
    (by rw [hempty 0]; rfl) (by simp)
  have es : s1 = (pagesAsc p n).foldl (kfreeState 0) s :=
    (KOut.ok.inj (hfold.symm.trans e)).symm
  refine ⟨s1, e, es, pagesAsc_pairwise n p, ?_, ⟨?_, ?_, ?_⟩, ?_⟩
  · intro a
    rw [mem_pagesAsc]
    constructor
    · rintro ⟨k, hk1, ea⟩
      refine ⟨k, ea, ?_⟩
      rw [← hn] at hk1
      unfold PGSIZE at *
      have := Nat.div_mul_le_self (pa_end - p) 4096
      have : (k + 1) * 4096 ≤ (pa_end - p) / 4096 * 4096 := Nat.mul_le_mul_right _ hk1
      omega
    · rintro ⟨k, ea, hle⟩
      refine ⟨k, ?_, ea⟩
      rw [← hn]
      unfold PGSIZE at *
      have : (k + 1) * 4096 ≤ pa_end - p := by omega
      have := (Nat.le_div_iff_mul_le (by omega : 0 < 4096)).2 this
      omega
  · intro i _
    by_cases e0 : i = 0
    · rw [e0, upd_same, ← pagesDesc_eq_reverse]
      simpa using hc
    · rw [hj i e0, hempty i, upd_other _ _ _ _ e0]
      rfl
  · intro i _
    by_cases e0 : i = 0
    · rw [e0, upd_same, ← pagesDesc_eq_reverse]
      exact nodup_pagesDesc _ _
    · rw [upd_other _ _ _ _ e0]
      exact List.nodup_nil
  · intro i j _ _ hij a ha
    by_cases e0 : i = 0
    · rw [upd_other _ _ _ _ (by omega : j ≠ 0)]
      simp
    · rw [upd_other _ _ _ _ e0] at ha
      simp at ha
  · intro i hi
    rw [hj i hi, hempty i]

theorem freerange_initial_distribution_witness :
    0 < exK.kend ∧ exK.PHYSTOP + 2 * PGSIZE ≤ U64 ∧ exK.kend ≤ exK.kend ∧
    exK.kend ≤ exK.PHYSTOP ∧ exK.PHYSTOP ≤ exK.PHYSTOP ∧
    (∀ i, (kmemZero exM).freelist i = 0) ∧
    kinit exK 0 exM = freerange exK 0 (kmemZero exM) exK.kend exK.PHYSTOP ∧
    pagesAsc (PGROUNDUP exK.kend) ((exK.PHYSTOP - PGROUNDUP exK.kend) / PGSIZE)
      = [4096, 8192, 12288] ∧
    (∃ s1, freerange exK 0 (kmemZero exM) exK.kend exK.PHYSTOP = .ok s1 ∧
      s1 = (pagesAsc (PGROUNDUP exK.kend) ((exK.PHYSTOP - PGROUNDUP exK.kend) / PGSIZE)).foldl
        (kfreeState 0) (kmemZero exM) ∧
      (pagesAsc (PGROUNDUP exK.kend) ((exK.PHYSTOP - PGROUNDUP exK.kend) / PGSIZE)).Pairwise
        (fun a b => a < b) ∧
      (∀ a, a ∈ pagesAsc (PGROUNDUP exK.kend) ((exK.PHYSTOP - PGROUNDUP exK.kend) / PGSIZE) ↔
        ∃ k, a = PGROUNDUP exK.kend + k * PGSIZE ∧ a + PGSIZE ≤ exK.PHYSTOP) ∧
      KWf exK s1 (upd (fun _ => []) 0
        (pagesAsc (PGROUNDUP exK.kend) ((exK.PHYSTOP - PGROUNDUP exK.kend) / PGSIZE)).reverse) ∧
      ∀ i, i ≠ 0 → s1.freelist i = 0) :=
  ⟨by decide, by decide, by decide, by decide, by decide, fun _ => rfl, rfl, by decide,
    freerange_initial_distribution exK (kmemZero exM) exK.kend exK.PHYSTOP (by decide)
      (by decide) (by decide) (by decide) (by decide) (fun _ => rfl)⟩

/-! ## kernel/bio.c : properties -/

theorem exB1_reach : BReach exB exD exB1 :=
  BReach.bread exB0 exB1 1 1 0 (.buf 3) BReach.init (Or.inl rfl)

theorem exB2_reach : BReach exB exD exB2 :=
  BReach.bread exB1 exB2 2 1 2 (.buf 2) exB1_reach (Or.inl rfl)

theorem exB3_reach : BReach exB exD exB3 :=
  BReach.bread exB2 exB3 3 1 1 (.buf 1) exB2_reach (Or.inl rfl)

theorem exB4_reach : BReach exB exD exB4 :=
  BReach.bread exB3 exB4 4 1 3 (.buf 0) exB3_reach (Or.inl rfl)

theorem exB5_reach : BReach exB exD exB5 :=
  BReach.brelse exB4 exB5 1 3 exB4_reach (by decide) (by decide) rfl

/-- C1 (uniqueness of held buffers): in every cache state reachable from `binit` by `bget`,
`bread` and `brelse` calls, two distinct buffers with `refcnt > 0` never carry the same
`(dev, blockno)`, and a `bget(dev, blockno)` that returns hands out a buffer of the array whose
`dev` and `blockno` are the requested ones. -/
theorem bcache_held_unique (c : BParams) (d : Nat → Nat → List Nat) (s : Bio)
    (hN : 0 < c.NBUCKET) (h : BReach c d s) :
    (∀ a b, a < c.NBUF → b < c.NBUF → a ≠ b → 0 < (s.buf a).refcnt → 0 < (s.buf b).refcnt →
      ¬ ((s.buf a).dev = (s.buf b).dev ∧ (s.buf a).blockno = (s.buf b).blockno)) ∧
    (∀ pid dev blockno s1 b, bget c pid s dev blockno = .ret s1 b →
      (∃ k, k < c.NBUF ∧ b = .buf k) ∧ (s1.get b).dev = dev ∧ (s1.get b).blockno = blockno) := by
  obtain ⟨L, hinv⟩ := breach_inv c d hN s h
  constructor
  · intro a b ha hb hab hra hrb ⟨e1, e2⟩
    have h1 := hinv.2.1 a ha hra
    have h2 := hinv.2.1 b hb hrb
    rw [e1, e2, h2] at h1
    injection h1 with h1
    exact hab h1.symm
  · intro pid dev blockno s1 b e
    obtain ⟨L1, k, _, hb, hk, hd, hbl, _⟩ := bget_inv c pid s s1 L dev blockno b hN hinv (Or.inl e)
    subst hb
    exact ⟨⟨k, hk, rfl⟩, hd, hbl⟩

theorem bcache_held_unique_witness :
    0 < exB.NBUCKET ∧ BReach exB exD exB4 ∧
    ((∀ a b, a < exB.NBUF → b < exB.NBUF → a ≠ b → 0 < (exB4.buf a).refcnt →
        0 < (exB4.buf b).refcnt →
        ¬ ((exB4.buf a).dev = (exB4.buf b).dev ∧ (exB4.buf a).blockno = (exB4.buf b).blockno)) ∧
     (∀ pid dev blockno s1 b, bget exB pid exB4 dev blockno = .ret s1 b →
        (∃ k, k < exB.NBUF ∧ b = .buf k) ∧ (s1.get b).dev = dev ∧
          (s1.get b).blockno = blockno)) :=
  ⟨by decide, exB4_reach, bcache_held_unique exB exD exB4 (by decide) exB4_reach⟩

/-- C6 (fatal exhaustion): in every reachable cache state, with `L` the bucket lists,
`bget(dev, blockno)` panics exactly when no buffer of the home bucket `blockno % NBUCKET` has
identity `(dev, blockno)` and no buffer of the array has `refcnt == 0`; the panic is
`panic("bget: no buffers")`, issued in the unmodified state. -/
theorem bget_panic_iff_exhausted (c : BParams) (d : Nat → Nat → List Nat) (s : Bio)
    (pid dev blockno : Nat) (hN : 0 < c.NBUCKET) (h : BReach c d s) :
    ∃ L, BWf c s L ∧
      ((bget c pid s dev blockno).isPanic = true ↔
        ((∀ k, k ∈ L (blockno % c.NBUCKET) →
            ¬ ((s.buf k).dev = dev ∧ (s.buf k).blockno = blockno)) ∧
         (∀ k, k < c.NBUF → (s.buf k).refcnt ≠ 0))) ∧
      ((bget c pid s dev blockno).isPanic = true →
        bget c pid s dev blockno = .panic "bget: no buffers" s) := by
  obtain ⟨L, hinv⟩ := breach_inv c d hN s h
  have hw := hinv.1
  have hh : blockno % c.NBUCKET < c.NBUCKET := Nat.mod_lt _ hN
  have hacq : ∀ s0 k, (acquiresleep pid s0 (.buf k)).isPanic = false := by
    intro s0 k
    rcases acquiresleep_cases pid s0 k with ⟨_, e⟩ | ⟨_, e⟩ <;> rw [e] <;> rfl
  have hidle : ∀ i k, i < c.NBUCKET → (L i).find? (fun x => isIdle (s.buf x)) = some k →
      ¬ (∀ k, k < c.NBUF → (s.buf k).refcnt ≠ 0) := by
    intro i k hi hf hall
    obtain ⟨hp, hm⟩ := find_some_pred _ _ _ hf
    exact hall k ((hw.mem_iff i hi k).1 hm).1 (by simpa [isIdle] using hp)
  refine ⟨L, hw, ?_⟩
  rcases bget_cases c pid s L dev blockno hN hw with
    ⟨k, hf, e⟩ | ⟨hfresh, ⟨k, hf, e⟩ | ⟨j, k, _, _, _, hf, e⟩ | ⟨hnone, e⟩⟩
  · rw [e, hacq]
    obtain ⟨hp, hm⟩ := find_some_pred _ _ _ hf
    simp only [Bool.false_eq_true, false_iff, false_imp_iff, and_true, not_and]
    intro hno
    have hid := (isCached_iff _ _ _).1 hp
    exact absurd hid.2 (hno k hm hid.1)
  · rw [e, hacq]
    simp only [Bool.false_eq_true, false_iff, false_imp_iff, and_true, not_and]
    intro _
    exact hidle _ k hh hf
  · rw [e, hacq]
    simp only [Bool.false_eq_true, false_iff, false_imp_iff, and_true, not_and]
    intro _
    exact hidle _ k (Nat.mod_lt _ hN) hf
  · rw [e]
    simp only [Out.isPanic, true_iff, true_imp_iff, and_true]
    constructor
    · intro k hk hid
      have := List.find?_eq_none.1 hfresh k hk
      exact this ((isCached_iff _ _ _).2 hid)
    · intro k hk hr
      have hi : (s.buf k).blockno % c.NBUCKET < c.NBUCKET := Nat.mod_lt _ hN
      have hm : k ∈ L ((s.buf k).blockno % c.NBUCKET) := (hw.mem_iff _ hi k).2 ⟨hk, rfl⟩
      have := List.find?_eq_none.1 (hnone _ hi) k hm
      exact this (by simpa [isIdle] using hr)

theorem bget_panic_iff_exhausted_witness :
    0 < exB.NBUCKET ∧ BReach exB exD exB4 ∧
    (∃ L, BWf exB exB4 L ∧
      ((bget exB 5 exB4 1 4).isPanic = true ↔
        ((∀ k, k ∈ L (4 % exB.NBUCKET) →
            ¬ ((exB4.buf k).dev = 1 ∧ (exB4.buf k).blockno = 4)) ∧
         (∀ k, k < exB.NBUF → (exB4.buf k).refcnt ≠ 0))) ∧
      ((bget exB 5 exB4 1 4).isPanic = true →
        bget exB 5 exB4 1 4 = .panic "bget: no buffers" exB4)) ∧
    (bread exB 1 exB0 1 0).isPanic = false ∧ (bread exB 2 exB1 1 2).isPanic = false ∧
    (bread exB 3 exB2 1 1).isPanic = false ∧ (bread exB 4 exB3 1 3).isPanic = false ∧
    (bget exB 5 exB4 1 4).isPanic = true :=
  ⟨by decide, exB4_reach,
    bget_panic_iff_exhausted exB exD exB4 5 1 4 (by decide) exB4_reach,
    by decide, by decide, by decide, by decide, by decide⟩

/-- C10 (no spurious reads): in every reachable cache state, when `bread(dev, blockno)` returns
buffer `b`, the caller releases it with `brelse`, and `bread(dev, blockno)` is called again (by
any process) with nothing in between, the second `bread` returns the same buffer, its `valid`
flag is unchanged and not 0, and the number of device reads is unchanged. -/
theorem bread_no_spurious_read (c : BParams) (d : Nat → Nat → List Nat) (s s1 s2 : Bio)
    (pid pid2 dev blockno : Nat) (b : Ptr) (hN : 0 < c.NBUCKET) (h : BReach c d s)
    (h1 : bread c pid s dev blockno = .ret s1 b) (h2 : brelse pid s1 b = .ret s2 ()) :
    ∃ s3, bread c pid2 s2 dev blockno = .ret s3 b ∧ (s3.get b).valid = (s1.get b).valid ∧
      (s3.get b).valid ≠ 0 ∧ s3.reads = s2.reads ∧ s3.reads = s1.reads := by
  obtain ⟨L, hinv⟩ := breach_inv c d hN s h
  obtain ⟨s0, e0, e1⟩ := ((bread_cases c pid s s1 dev blockno b).1).1 h1
  obtain ⟨L1, k, hinv0, hb, hk, hd, hbl, hr⟩ :=
    bget_inv c pid s s0 L dev blockno b hN hinv (Or.inl e0)
  subst hb e1
  obtain ⟨hinv1, hsame⟩ := breadFill_inv c s0 L1 k hinv0
  -- the first bread leaves the buffer valid
  have hvalid : ((breadFill s0 (.buf k)).buf k).valid ≠ 0 := by
    rw [(breadFill_buf s0 k).1, upd_same]
    unfold filled
    split_ifs with hv
    · simp
    · exact hv
  -- brelse returned, so the caller held the lock
  have hhold : holdingsleep pid (breadFill s0 (.buf k)) (.buf k) = true := by
    by_contra hc
    unfold brelse at h2
    simp only [hc, Bool.not_false, if_true] at h2
    cases h2
  rw [brelse_ret pid _ k hhold] at h2
  injection h2 with h2
  subst h2
  have hinv2 := brelse_inv c _ L1 k hinv1 (hinv1.2.2 k hk (holding_lock pid _ k hhold))
  generalize hs1 : breadFill s0 (.buf k) = t1 at *
  generalize hs2 : t1.set (.buf k) { t1.buf k with lock := none, refcnt := refDec (t1.buf k).refcnt }
    = t2 at *
  -- identities are the same in `s0`, `t1` and `t2`
  have hid2 : ∀ x, (t2.buf x).dev = (s0.buf x).dev ∧ (t2.buf x).blockno = (s0.buf x).blockno := by
    intro x
    rw [← hs2, set_buf_apply]
    by_cases e : x = k
    · subst e
      simp only [if_true]
      exact ⟨(hsame x).1, (hsame x).2.1⟩
    · rw [if_neg e]
      exact ⟨(hsame x).1, (hsame x).2.1⟩
  have hfirst := hinv0.2.1 k hk hr
  rw [hd, hbl] at hfirst
  have hfun : (fun x => isCached dev blockno (t2.buf x)) = fun x => isCached dev blockno (s0.buf x) := by
    funext x
    simp only [isCached, (hid2 x).1, (hid2 x).2]
  -- so the second bget is a hit on `k`
  have hhit : bget c pid2 t2 dev blockno = acquiresleep pid2 (hitState t2 k) (.buf k) := by
    rcases bget_cases c pid2 t2 L1 dev blockno hN hinv2.1 with
      ⟨k1, hf, e⟩ | ⟨hfresh, _⟩
    · rw [hfun, hfirst] at hf
      injection hf with hf
      subst hf
      exact e
    · rw [hfun, hfirst] at hfresh
      cases hfresh
  have hlock : ((hitState t2 k).buf k).lock = none := by
    rw [← hs2]
    simp [hitState, set_buf_apply]
  rcases acquiresleep_cases pid2 (hitState t2 k) k with ⟨_, e⟩ | ⟨hne, _⟩
  · have hv3 : ((lockState pid2 (hitState t2 k) k).buf k).valid = (t1.buf k).valid := by
      rw [← hs2]
      simp [lockState, hitState, set_buf_apply]
    have hbr : bread c pid2 t2 dev blockno
        = .ret (breadFill (lockState pid2 (hitState t2 k) k) (.buf k)) (.buf k) := by
      unfold bread
      rw [hhit, e]
    have hfill : breadFill (lockState pid2 (hitState t2 k) k) (.buf k)
        = lockState pid2 (hitState t2 k) k := by
      unfold breadFill
      rw [if_neg (by rw [Bio.get_buf, hv3]; exact hvalid)]
    rw [hfill] at hbr
    refine ⟨_, hbr, hv3, by rw [Bio.get_buf, hv3]; exact hvalid, ?_, ?_⟩
    · simp [lockState, hitState]
    · rw [← hs2]
      simp [lockState, hitState]
  · exact absurd hlock hne

theorem bread_no_spurious_read_witness :
    0 < exB.NBUCKET ∧ BReach exB exD exB0 ∧ bread exB 1 exB0 1 0 = .ret exB1 (.buf 3) ∧
    brelse 1 exB1 (.buf 3) = .ret exB1r () ∧
    (∃ s3, bread exB 2 exB1r 1 0 = .ret s3 (.buf 3) ∧
      (s3.get (.buf 3)).valid = (exB1.get (.buf 3)).valid ∧ (s3.get (.buf 3)).valid ≠ 0 ∧
      s3.reads = exB1r.reads ∧ s3.reads = exB1.reads) ∧
    exB0.reads = 0 ∧ exB1.reads = 1 ∧ ((bread exB 2 exB1r 1 0).state exB1r).reads = 1 :=
  ⟨by decide, BReach.init, rfl, rfl,
    bread_no_spurious_read exB exD exB0 exB1 exB1r 1 2 1 0 (.buf 3) (by decide) BReach.init
      rfl rfl,
    by decide, by decide, by decide⟩

/-- C12 (lock precondition of commit and release): for every state and every buffer pointer,
`bwrite` and `brelse` panic exactly when the caller does not hold the buffer's sleep lock; the
panic happens in the unmodified state (no device write, `refcnt` and lock untouched); when the
lock is held, `bwrite` returns after one device write that stores the buffer's payload at the
buffer's block and leaves `bcache` and every other block as they were. -/
theorem bwrite_brelse_lock_precondition (pid : Nat) (s : Bio) (b : Ptr) :
    ((bwrite pid s b).isPanic = true ↔ holdingsleep pid s b = false) ∧
    ((brelse pid s b).isPanic = true ↔ holdingsleep pid s b = false) ∧
    (holdingsleep pid s b = false →
      bwrite pid s b = .panic "bwrite" s ∧ brelse pid s b = .panic "brelse" s) ∧
    (holdingsleep pid s b = true →
      ∃ s1, bwrite pid s b = .ret s1 () ∧ s1.buf = s.buf ∧ s1.head = s.head ∧
        s1.writes = s.writes + 1 ∧ s1.reads = s.reads ∧
        s1.disk (s.get b).dev (s.get b).blockno = (s.get b).data ∧
        ∀ d n, ¬ (d = (s.get b).dev ∧ n = (s.get b).blockno) → s1.disk d n = s.disk d n) := by
  unfold bwrite brelse
  cases h : holdingsleep pid s b with
  | false => simp [Out.isPanic]
  | true =>
    simp only [Bool.not_true, Bool.false_eq_true, if_false, Out.isPanic, false_iff,
      Bool.true_eq_false, not_false_eq_true, false_imp_iff, true_imp_iff, true_and]
    refine ⟨_, rfl, rfl, rfl, rfl, rfl, ?_, ?_⟩
    · simp [diskWrite]
    · intro d n hne
      simp only [diskWrite]
      rw [if_neg hne]

theorem bwrite_brelse_lock_precondition_witness :
    ((bwrite 2 exB1 (.buf 3)).isPanic = true ↔ holdingsleep 2 exB1 (.buf 3) = false) ∧
    ((brelse 2 exB1 (.buf 3)).isPanic = true ↔ holdingsleep 2 exB1 (.buf 3) = false) ∧
    (holdingsleep 2 exB1 (.buf 3) = false →
      bwrite 2 exB1 (.buf 3) = .panic "bwrite" exB1 ∧
      brelse 2 exB1 (.buf 3) = .panic "brelse" exB1) ∧
    (holdingsleep 2 exB1 (.buf 3) = true →
      ∃ s1, bwrite 2 exB1 (.buf 3) = .ret s1 () ∧ s1.buf = exB1.buf ∧ s1.head = exB1.head ∧
        s1.writes = exB1.writes + 1 ∧ s1.reads = exB1.reads ∧
        s1.disk (exB1.get (.buf 3)).dev (exB1.get (.buf 3)).blockno
          = (exB1.get (.buf 3)).data ∧
        ∀ d n, ¬ (d = (exB1.get (.buf 3)).dev ∧ n = (exB1.get (.buf 3)).blockno) →
          s1.disk d n = exB1.disk d n) ∧
    holdingsleep 2 exB1 (.buf 3) = false ∧ holdingsleep 1 exB1 (.buf 3) = true ∧
    (bwrite 1 exB1 (.buf 3)).isPanic = false :=
  ⟨(bwrite_brelse_lock_precondition 2 exB1 (.buf 3)).1,
    (bwrite_brelse_lock_precondition 2 exB1 (.buf 3)).2.1,
    (bwrite_brelse_lock_precondition 2 exB1 (.buf 3)).2.2.1,
    (bwrite_brelse_lock_precondition 2 exB1 (.buf 3)).2.2.2, by decide, by decide, by decide⟩

theorem exB5_run : BRun exB exD exB5 := ⟨exOps5, rfl, rfl⟩

theorem exBP_any : BAny exB exD exBP := ⟨exOpsP, rfl⟩

theorem exB2_any : BAny exB exD exB2 := ⟨[.bread 1 1 0, .bread 2 1 2], rfl⟩

theorem exB4_any : BAny exB exD exB4 :=
  ⟨[.bread 1 1 0, .bread 2 1 2, .bread 3 1 1, .bread 4 1 3], rfl⟩

theorem exZ_any : BAny exB exD exZ := ⟨exOpsZ, rfl⟩

theorem exW_any : BAny exB exD exW := ⟨exOpsW, rfl⟩

/-- C15 fails on the code: right after `binit` of the small cache, the distinct buffers 0 and
1 both carry the identity `(0, 0)` of a zero-initialised `struct buf`. -/
theorem binit_identity_shared :
    exB0 = binit exB (bioZero exD) ∧ 0 < exB.NBUF ∧ 1 < exB.NBUF ∧
    (exB0.buf 0).dev = (exB0.buf 1).dev ∧ (exB0.buf 0).blockno = (exB0.buf 1).blockno ∧
    (exB0.buf 0).dev = 0 ∧ (exB0.buf 0).blockno = 0 :=
  ⟨rfl, by decide, by decide, by decide, by decide, by decide, by decide⟩

/-- C15 as amended: in every cache state reachable from `binit` by any calls of `bget`,
`bread`, `brelse`, `bwrite`, `bpin` and `bunpin`, two distinct buffers carry the same
`(dev, blockno)` only if it is `(0, 0)`, the identity every buffer has after `binit`, and then at
most one of the two has `valid != 0`. So every other identity is carried by at most one of the
`NBUF` buffers, idle or held. -/
theorem bcache_identity_unique (c : BParams) (d : Nat → Nat → List Nat) (s : Bio)
    (a b : Nat) (hN : 0 < c.NBUCKET) (h : BAny c d s) (ha : a < c.NBUF) (hb : b < c.NBUF)
    (hab : a ≠ b) (e1 : (s.buf a).dev = (s.buf b).dev)
    (e2 : (s.buf a).blockno = (s.buf b).blockno) :
    ((s.buf a).dev = 0 ∧ (s.buf a).blockno = 0) ∧
      ¬ ((s.buf a).valid ≠ 0 ∧ (s.buf b).valid ≠ 0) := by
  obtain ⟨L, _, hval, hu⟩ := bany_core c d hN s h
  refine ⟨hu a b ha hb hab e1 e2, ?_⟩
  rintro ⟨ua, ub⟩
  have fa : FirstOf c s L a := hval a ha ua
  have fb : FirstOf c s L b := hval b hb ub
  unfold FirstOf at fa fb
  rw [e1, e2, fb] at fa
  injection fa with fa
  exact hab fa.symm

theorem bcache_identity_unique_witness :
    0 < exB.NBUCKET ∧ BAny exB exD exZ ∧ 3 < exB.NBUF ∧ 0 < exB.NBUF ∧ 3 ≠ 0 ∧
    (exZ.buf 3).dev = (exZ.buf 0).dev ∧ (exZ.buf 3).blockno = (exZ.buf 0).blockno ∧
    (((exZ.buf 3).dev = 0 ∧ (exZ.buf 3).blockno = 0) ∧
      ¬ ((exZ.buf 3).valid ≠ 0 ∧ (exZ.buf 0).valid ≠ 0)) ∧
    run exB exOpsZ exB0 = some exZ ∧ (exZ.buf 3).valid = 1 ∧ (exZ.buf 0).valid = 0 ∧
    (exZ.buf 3).refcnt = 1 ∧ (exZ.buf 0).refcnt = 1 ∧ (exZ.buf 1).refcnt = 1 ∧
    (exZ.buf 1).dev = 0 ∧ (exZ.buf 1).blockno = 0 :=
  ⟨by decide, exZ_any, by decide, by decide, by decide, by decide, by decide,
    bcache_identity_unique exB exD exZ 3 0 (by decide) exZ_any (by decide) (by decide)
      (by decide) (by decide) (by decide),
    rfl, by decide, by decide, by decide, by decide, by decide, by decide, by decide⟩

/-- C16 (bucket membership): in every cache state reachable from `binit` by any calls of
`bget`, `bread`, `brelse`, `bwrite`, `bpin` and `bunpin`, the links of every bucket form a
circular doubly linked list `L i` (`BWf`), and each of the `NBUF` buffers is on the list of
bucket `blockno % NBUCKET`, the bucket whose lock `brelse`, `bpin` and `bunpin` take, and on
no other list. -/
theorem bcache_bucket_membership (c : BParams) (d : Nat → Nat → List Nat) (s : Bio)
    (hN : 0 < c.NBUCKET) (h : BAny c d s) :
    ∃ L, BWf c s L ∧
      ∀ b, b < c.NBUF → (s.buf b).blockno % c.NBUCKET < c.NBUCKET ∧
        b ∈ L ((s.buf b).blockno % c.NBUCKET) ∧
        ((L ((s.buf b).blockno % c.NBUCKET)).count b = 1) ∧
        ∀ i, i < c.NBUCKET → b ∈ L i → i = (s.buf b).blockno % c.NBUCKET := by
  obtain ⟨L, hw, _, _⟩ := bany_core c d hN s h
  refine ⟨L, hw, ?_⟩
  intro b hb
  have hi : (s.buf b).blockno % c.NBUCKET < c.NBUCKET := Nat.mod_lt _ hN
  have hm : b ∈ L ((s.buf b).blockno % c.NBUCKET) := (hw.mem_iff _ hi b).2 ⟨hb, rfl⟩
  refine ⟨hi, hm, List.count_eq_one_of_mem (hw.nodup _ hi) hm, ?_⟩
  intro i hi2 hm2
  exact ((hw.mem_iff i hi2 b).1 hm2).2.symm

theorem bcache_bucket_membership_witness :
    0 < exB.NBUCKET ∧ BAny exB exD exBP ∧
    ∃ L, BWf exB exBP L ∧
      ∀ b, b < exB.NBUF → (exBP.buf b).blockno % exB.NBUCKET < exB.NBUCKET ∧
        b ∈ L ((exBP.buf b).blockno % exB.NBUCKET) ∧
        ((L ((exBP.buf b).blockno % exB.NBUCKET)).count b = 1) ∧
        ∀ i, i < exB.NBUCKET → b ∈ L i → i = (exBP.buf b).blockno % exB.NBUCKET :=
  ⟨by decide, exBP_any, bcache_bucket_membership exB exD exBP (by decide) exBP_any⟩

/-- C19 fails on the code: after `bread` by process 1 and a `bunpin` of the buffer, which
was not pinned, process 1 holds buffer 3 with `refcnt` 0; `brelse` then leaves `refcnt` at
4294967295 instead of decreasing it by 1. -/
theorem brelse_refcnt_wraps :
    BAny exB exD exW ∧ run exB exOpsW exB0 = some exW ∧ 3 < exB.NBUF ∧
    holdingsleep 1 exW (.buf 3) = true ∧ (exW.buf 3).refcnt = 0 ∧
    brelse 1 exW (.buf 3) = .ret exW1 () ∧ (exW1.buf 3).refcnt = 4294967295 ∧
    ¬ ((exW1.buf 3).refcnt + 1 = (exW.buf 3).refcnt) :=
  ⟨exW_any, rfl, by decide, by decide, by decide, rfl, by decide, by decide⟩

/-- C19 as amended: in every cache state reachable by any calls, `brelse` of a buffer `k`
whose sleep lock the caller holds returns; the bucket lists `L` are the same before and after,
no link and no head changes, every other buffer is untouched, and of buffer `k` only the lock,
which is released, and `refcnt` change: `refcnt` drops by exactly 1 when it is positive, which
it is in every state reached under the reference discipline, and wraps from 0 to 4294967295
otherwise. -/
theorem brelse_keeps_order (c : BParams) (d : Nat → Nat → List Nat) (s : Bio) (pid k : Nat)
    (hN : 0 < c.NBUCKET) (h : BAny c d s) (hk : k < c.NBUF)
    (hh : holdingsleep pid s (.buf k) = true) :
    ∃ L s1, BWf c s L ∧ brelse pid s (.buf k) = .ret s1 () ∧ BWf c s1 L ∧
      s1.head = s.head ∧ s1.disk = s.disk ∧ (∀ x, x ≠ k → s1.buf x = s.buf x) ∧
      (0 < (s.buf k).refcnt → (s1.buf k).refcnt + 1 = (s.buf k).refcnt) ∧
      ((s.buf k).refcnt = 0 → (s1.buf k).refcnt = 4294967295) ∧
      (BRun c d s → 0 < (s.buf k).refcnt) ∧
      (s1.buf k).lock = none ∧ (s1.buf k).dev = (s.buf k).dev ∧
      (s1.buf k).blockno = (s.buf k).blockno ∧ (s1.buf k).valid = (s.buf k).valid ∧
      (s1.buf k).data = (s.buf k).data ∧ (s1.buf k).next = (s.buf k).next ∧
      (s1.buf k).prev = (s.buf k).prev := by
  obtain ⟨L, hw, _, _⟩ := bany_core c d hN s h
  have hl : (s.buf k).lock ≠ none := holding_lock pid s k hh
  refine ⟨L, _, hw, brelse_ret pid s k hh, hw.set_data k _ rfl rfl rfl, rfl, rfl, ?_, ?_, ?_,
    ?_, ?_, ?_, ?_, ?_, ?_, ?_, ?_⟩
  · intro x hx
    simp [set_buf_apply, hx]
  · intro hr
    simp only [set_buf_apply, if_true, refDec_pos _ hr]
    omega
  · intro hr
    simp [set_buf_apply, hr, refDec]
  · intro hrun
    obtain ⟨L1, ⟨_, _, hlk⟩, _, _⟩ := brun_all c d hN s hrun
    exact hlk k hk hl
  all_goals simp [set_buf_apply]

theorem brelse_keeps_order_witness :
    0 < exB.NBUCKET ∧ BAny exB exD exB4 ∧ 3 < exB.NBUF ∧ holdingsleep 1 exB4 (.buf 3) = true ∧
    (∃ L s1, BWf exB exB4 L ∧ brelse 1 exB4 (.buf 3) = .ret s1 () ∧ BWf exB s1 L ∧
      s1.head = exB4.head ∧ s1.disk = exB4.disk ∧ (∀ x, x ≠ 3 → s1.buf x = exB4.buf x) ∧
      (0 < (exB4.buf 3).refcnt → (s1.buf 3).refcnt + 1 = (exB4.buf 3).refcnt) ∧
      ((exB4.buf 3).refcnt = 0 → (s1.buf 3).refcnt = 4294967295) ∧
      (BRun exB exD exB4 → 0 < (exB4.buf 3).refcnt) ∧
      (s1.buf 3).lock = none ∧ (s1.buf 3).dev = (exB4.buf 3).dev ∧
      (s1.buf 3).blockno = (exB4.buf 3).blockno ∧ (s1.buf 3).valid = (exB4.buf 3).valid ∧
      (s1.buf 3).data = (exB4.buf 3).data ∧ (s1.buf 3).next = (exB4.buf 3).next ∧
      (s1.buf 3).prev = (exB4.buf 3).prev) ∧
    (exB4.buf 3).refcnt = 1 ∧ (exB5.buf 3).refcnt = 0 ∧
    brelse 1 exB4 (.buf 3) = .ret exB5 () ∧ exB5.nx (.head 0) = exB4.nx (.head 0) :=
  ⟨by decide, exB4_any, by decide, by decide,
    brelse_keeps_order exB exD exB4 1 3 (by decide) exB4_any (by decide) (by decide),
    by decide, by decide, rfl, by decide⟩

/-- C20 (held or pinned buffers are never reassigned): in every cache state reached under the
reference discipline (`BRun`) and for every `bget(dev, blockno)` call that returns or suspends
(a panic leaves the state as it is),
each buffer with `refcnt > 0` before the call has the same `dev`, `blockno`, `valid`, payload
and bucket after the call; its `refcnt` is unchanged unless it is the buffer handed out, whose
`refcnt` grows by 1; and a buffer whose identity changed had `refcnt == 0` before the call. -/
theorem bget_keeps_referenced (c : BParams) (d : Nat → Nat → List Nat) (s : Bio)
    (pid dev blockno : Nat) (hN : 0 < c.NBUCKET) (h : BRun c d s) :
    ∃ L, BWf c s L ∧
      ((bget c pid s dev blockno).isPanic = true →
        bget c pid s dev blockno = .panic "bget: no buffers" s) ∧
      ∀ s1 b, (bget c pid s dev blockno = .ret s1 b ∨ bget c pid s dev blockno = .sleep s1 b) →
        ∃ L1 k, BWf c s1 L1 ∧ b = .buf k ∧ k < c.NBUF ∧
          (∀ x, x < c.NBUF → 0 < (s.buf x).refcnt →
            (s1.buf x).dev = (s.buf x).dev ∧ (s1.buf x).blockno = (s.buf x).blockno ∧
            (s1.buf x).valid = (s.buf x).valid ∧ (s1.buf x).data = (s.buf x).data ∧
            (∀ i, i < c.NBUCKET → (x ∈ L1 i ↔ x ∈ L i)) ∧
            (x ≠ k → (s1.buf x).refcnt = (s.buf x).refcnt) ∧
            (x = k → (s1.buf x).refcnt = (s.buf x).refcnt + 1)) ∧
          (∀ x, x < c.NBUF →
            ¬ ((s1.buf x).dev = (s.buf x).dev ∧ (s1.buf x).blockno = (s.buf x).blockno) →
            (s.buf x).refcnt = 0) := by
  obtain ⟨L, ⟨hw, _, _⟩, _, _⟩ := brun_all c d hN s h
  refine ⟨L, hw, ?_, ?_⟩
  · intro hp
    rcases bget_pre c pid s L dev blockno hN hw with ⟨e, _⟩ | ⟨s0, L1, k, e, _⟩
    · exact e
    · rw [e] at hp
      rcases acquiresleep_cases pid s0 k with ⟨_, e1⟩ | ⟨_, e1⟩ <;> rw [e1] at hp <;> cases hp
  · intro s1 b hout
    rcases bget_pre c pid s L dev blockno hN hw with
      ⟨e, _⟩ | ⟨s0, L1, k, e, hk, hw0, hother, _, hdata, hcase⟩
    · rw [e] at hout
      rcases hout with h1 | h1 <;> cases h1
    · rw [e] at hout
      obtain ⟨hb, hw1, ho1, d1, d2, d3, d4, d5, _⟩ := acquire_post c pid s0 s1 L1 k b hw0 hout
      -- data of the buffers other than `k`
      have hx : ∀ x, x ≠ k → (s1.buf x).same (s.buf x) := by
        intro x hx
        rw [ho1 x hx]
        exact hother x hx
      have hmem : ∀ x, x < c.NBUF → (s1.buf x).blockno = (s.buf x).blockno →
          ∀ i, i < c.NBUCKET → (x ∈ L1 i ↔ x ∈ L i) := by
        intro x _ hbl i hi
        rw [hw1.mem_iff i hi x, hw.mem_iff i hi x, hbl]
      -- the old reference count of `k` in the two cases
      have hkcase : ((s1.buf k).dev = (s.buf k).dev ∧ (s1.buf k).blockno = (s.buf k).blockno ∧
            (s1.buf k).valid = (s.buf k).valid ∧
            (s1.buf k).refcnt = (s.buf k).refcnt + 1) ∨ (s.buf k).refcnt = 0 := by
        rcases hcase with ⟨_, _, a1, a2, a3, a4⟩ | ⟨_, _, _, _, _, j, hj, _, hidle, _⟩
        · left
          exact ⟨d1.trans a1, d2.trans a2, d3.trans a3, d4.trans a4⟩
        · right
          have := (find_some_pred _ _ _ hidle).1
          simpa [isIdle] using this
      refine ⟨L1, k, hw1, hb, hk, ?_, ?_⟩
      · intro x hxN hr
        by_cases e : x = k
        · subst e
          rcases hkcase with ⟨a1, a2, a3, a4⟩ | h0
          · exact ⟨a1, a2, a3, d5.trans hdata, hmem x hxN a2, fun h => absurd rfl h,
              fun _ => a4⟩
          · omega
        · have a := hx x e
          exact ⟨a.2.1, a.2.2.1, a.1, a.2.2.2.2.2, hmem x hxN a.2.2.1, fun _ => a.2.2.2.2.1,
            fun h => absurd h e⟩
      · intro x _ hne
        by_cases e : x = k
        · subst e
          rcases hkcase with ⟨a1, a2, _, _⟩ | h0
          · exact absurd ⟨a1, a2⟩ hne
          · exact h0
        · have a := hx x e
          exact absurd ⟨a.2.1, a.2.2.1⟩ hne

theorem bget_keeps_referenced_witness :
    0 < exB.NBUCKET ∧ BRun exB exD exB5 ∧
    (∃ L, BWf exB exB5 L ∧
      ((bget exB 5 exB5 1 4).isPanic = true →
        bget exB 5 exB5 1 4 = .panic "bget: no buffers" exB5) ∧
      ∀ s1 b, (bget exB 5 exB5 1 4 = .ret s1 b ∨ bget exB 5 exB5 1 4 = .sleep s1 b) →
        ∃ L1 k, BWf exB s1 L1 ∧ b = .buf k ∧ k < exB.NBUF ∧
          (∀ x, x < exB.NBUF → 0 < (exB5.buf x).refcnt →
            (s1.buf x).dev = (exB5.buf x).dev ∧ (s1.buf x).blockno = (exB5.buf x).blockno ∧
            (s1.buf x).valid = (exB5.buf x).valid ∧ (s1.buf x).data = (exB5.buf x).data ∧
            (∀ i, i < exB.NBUCKET → (x ∈ L1 i ↔ x ∈ L i)) ∧
            (x ≠ k → (s1.buf x).refcnt = (exB5.buf x).refcnt) ∧
            (x = k → (s1.buf x).refcnt = (exB5.buf x).refcnt + 1)) ∧
          (∀ x, x < exB.NBUF →
            ¬ ((s1.buf x).dev = (exB5.buf x).dev ∧
              (s1.buf x).blockno = (exB5.buf x).blockno) →
            (exB5.buf x).refcnt = 0)) ∧
    bget exB 5 exB5 1 4 = .ret exB5g (.buf 3) ∧ (exB5.buf 3).refcnt = 0 ∧
    (exB5.buf 3).blockno = 0 ∧ (exB5g.buf 3).blockno = 4 ∧ (exB5.buf 2).refcnt = 1 ∧
    (exB5g.buf 2).blockno = (exB5.buf 2).blockno :=
  ⟨by decide, exB5_run, bget_keeps_referenced exB exD exB5 5 1 4 (by decide) exB5_run,
    rfl, by decide, by decide, by decide, by decide, by decide⟩

/-- C18 (list effect of `bget`): in every cache state reachable by any calls, with
bucket lists `L`, a
`bget` that hands out buffer `k` after a hit or a reuse in the home bucket `h` leaves every
bucket list as it was; a `bget` that steals `k` from another bucket `i` leaves bucket `i` with
its list without `k` (the others in their order), bucket `h` with `k` in front of its previous
list, and every other bucket with its list. -/
theorem bget_list_effect (c : BParams) (d : Nat → Nat → List Nat) (s s1 : Bio)
    (pid dev blockno : Nat) (b : Ptr) (hN : 0 < c.NBUCKET) (h : BAny c d s)
    (hout : bget c pid s dev blockno = .ret s1 b ∨ bget c pid s dev blockno = .sleep s1 b) :
    ∃ L k, BWf c s L ∧ b = .buf k ∧
      ((((L (blockno % c.NBUCKET)).find? (fun x => isCached dev blockno (s.buf x)) = some k ∨
          (L (blockno % c.NBUCKET)).find? (fun x => isIdle (s.buf x)) = some k) ∧
        BWf c s1 L) ∨
       ((L (blockno % c.NBUCKET)).find? (fun x => isCached dev blockno (s.buf x)) = none ∧
        (L (blockno % c.NBUCKET)).find? (fun x => isIdle (s.buf x)) = none ∧
        ∃ i L1, i < c.NBUCKET ∧ i ≠ blockno % c.NBUCKET ∧ k ∈ L i ∧ BWf c s1 L1 ∧
          L1 i = (L i).erase k ∧ ((L i).erase k).Sublist (L i) ∧
          (∀ x, x ∈ (L i).erase k ↔ x ∈ L i ∧ x ≠ k) ∧
          L1 (blockno % c.NBUCKET) = k :: L (blockno % c.NBUCKET) ∧
          ∀ j, j ≠ i → j ≠ blockno % c.NBUCKET → L1 j = L j)) := by
  obtain ⟨L, hw, _, _⟩ := bany_core c d hN s h
  have hh : blockno % c.NBUCKET < c.NBUCKET := Nat.mod_lt _ hN
  rcases bget_pre c pid s L dev blockno hN hw with
    ⟨e, _⟩ | ⟨s0, L1, k, e, hk, hw0, _, _, _, hcase⟩
  · rw [e] at hout
    rcases hout with h1 | h1 <;> cases h1
  · rw [e] at hout
    obtain ⟨hb, hw1, _⟩ := acquire_post c pid s0 s1 L1 k b hw0 hout
    refine ⟨L, k, hw, hb, ?_⟩
    rcases hcase with ⟨hf, eL, _⟩ | ⟨hfresh, _, _, _, _, j, hj, hlt, hidle, hj0 | hj0⟩
    · left
      rw [eL] at hw1
      exact ⟨Or.inl hf, hw1⟩
    · left
      obtain ⟨ej, eL⟩ := hj0
      rw [eL] at hw1
      rw [ej, Nat.add_zero, Nat.mod_eq_of_lt hh] at hidle
      exact ⟨Or.inr hidle, hw1⟩
    · right
      obtain ⟨hjpos, eL⟩ := hj0
      have h0 := hlt 0 hjpos
      rw [Nat.add_zero, Nat.mod_eq_of_lt hh] at h0
      have hi : (blockno % c.NBUCKET + j) % c.NBUCKET < c.NBUCKET := Nat.mod_lt _ hN
      have hne := mod_off_ne hh hjpos hj
      obtain ⟨_, hm⟩ := find_some_pred _ _ _ hidle
      refine ⟨hfresh, h0, _, L1, hi, hne, hm, hw1, ?_, List.erase_sublist _ _, ?_, ?_, ?_⟩
      · rw [eL]
        unfold stealLists
        rw [upd_other _ _ _ _ hne, upd_same]
      · intro x
        rw [(hw.nodup _ hi).mem_erase_iff]
        exact ⟨fun h => ⟨h.2, h.1⟩, fun h => ⟨h.2, h.1⟩⟩
      · rw [eL]
        unfold stealLists
        rw [upd_same]
      · intro j1 h1 h2
        rw [eL]
        unfold stealLists
        rw [upd_other _ _ _ _ h2, upd_other _ _ _ _ h1]

theorem bget_list_effect_witness :
    0 < exB.NBUCKET ∧ BAny exB exD exB2 ∧
    (bget exB 3 exB2 1 1 = .ret exB2g (.buf 1) ∨ bget exB 3 exB2 1 1 = .sleep exB2g (.buf 1)) ∧
    (∃ L k, BWf exB exB2 L ∧ Ptr.buf 1 = .buf k ∧
      ((((L (1 % exB.NBUCKET)).find? (fun x => isCached 1 1 (exB2.buf x)) = some k ∨
          (L (1 % exB.NBUCKET)).find? (fun x => isIdle (exB2.buf x)) = some k) ∧
        BWf exB exB2g L) ∨
       ((L (1 % exB.NBUCKET)).find? (fun x => isCached 1 1 (exB2.buf x)) = none ∧
        (L (1 % exB.NBUCKET)).find? (fun x => isIdle (exB2.buf x)) = none ∧
        ∃ i L1, i < exB.NBUCKET ∧ i ≠ 1 % exB.NBUCKET ∧ k ∈ L i ∧ BWf exB exB2g L1 ∧
          L1 i = (L i).erase k ∧ ((L i).erase k).Sublist (L i) ∧
          (∀ x, x ∈ (L i).erase k ↔ x ∈ L i ∧ x ≠ k) ∧
          L1 (1 % exB.NBUCKET) = k :: L (1 % exB.NBUCKET) ∧
          ∀ j, j ≠ i → j ≠ 1 % exB.NBUCKET → L1 j = L j))) ∧
    exB2.nx (.head 0) = .buf 3 ∧ exB2.nx (.buf 3) = .buf 2 ∧ exB2.nx (.buf 2) = .buf 1 ∧
    exB2.nx (.buf 1) = .buf 0 ∧ exB2.nx (.buf 0) = .head 0 ∧ exB2.nx (.head 1) = .head 1 ∧
    exB2g.nx (.head 0) = .buf 3 ∧ exB2g.nx (.buf 3) = .buf 2 ∧ exB2g.nx (.buf 2) = .buf 0 ∧
    exB2g.nx (.buf 0) = .head 0 ∧ exB2g.nx (.head 1) = .buf 1 ∧ exB2g.nx (.buf 1) = .head 1 :=
  ⟨by decide, exB2_any, Or.inl rfl,
    bget_list_effect exB exD exB2 exB2g 3 1 1 (.buf 1) (by decide) exB2_any (Or.inl rfl),
    by decide, by decide, by decide, by decide, by decide, by decide,
    by decide, by decide, by decide, by decide, by decide, by decide⟩

/-- C11 (commit round trip): the device is the map `disk` from `(dev, blockno)` to payloads.
In every cache state reached under the reference discipline, if the holder of buffer `k`, which
has identity `I = (dev, blockno)` and payload `P`, calls `bwrite` and then `brelse`; any calls
follow of which none writes to `I`; a call then reassigns `k` from `I` to another identity; and
any calls follow of which none asks for `I`, all under the reference discipline; then the next
`bread(I)` returns a locked, valid buffer of identity `I` whose payload is `P`, read from the
device by one device read, when some buffer is idle (and panics with "bget: no buffers" when
none is). -/
theorem bwrite_round_trip (c : BParams) (d : Nat → Nat → List Nat)
    (s0 s1 s2 s3 s4 s5 : Bio) (pid pid2 k dev blockno : Nat) (opsA opsB : List Op) (ev : Op)
    (hN : 0 < c.NBUCKET) (h : BRun c d s0) (hk : k < c.NBUF)
    (hid : (s0.buf k).dev = dev ∧ (s0.buf k).blockno = blockno)
    (hw : bwrite pid s0 (.buf k) = .ret s1 ())
    (hr : brelse pid s1 (.buf k) = .ret s2 ())
    (hA : run c opsA s2 = some s3) (hcA : countedRun c opsA s2 = true)
    (hqA : quietRun c dev blockno opsA s2 = true)
    (hid3 : (s3.buf k).dev = dev ∧ (s3.buf k).blockno = blockno)
    (hev : ev.step c s3 = some s4)
    (hid4 : ¬ ((s4.buf k).dev = dev ∧ (s4.buf k).blockno = blockno))
    (hB : run c opsB s4 = some s5) (hcB : countedRun c opsB s4 = true)
    (hqB : ∀ op, op ∈ opsB → op.acquires dev blockno = false) :
    ((∃ x, x < c.NBUF ∧ (s5.buf x).refcnt = 0) →
      ∃ s6 x, bread c pid2 s5 dev blockno = .ret s6 (.buf x) ∧ x < c.NBUF ∧
        (s6.buf x).dev = dev ∧ (s6.buf x).blockno = blockno ∧ (s6.buf x).valid = 1 ∧
        (s6.buf x).lock = some pid2 ∧ (s6.buf x).data = (s0.buf k).data ∧
        s6.reads = s5.reads + 1) ∧
    ((¬ ∃ x, x < c.NBUF ∧ (s5.buf x).refcnt = 0) →
      bread c pid2 s5 dev blockno = .panic "bget: no buffers" s5) := by
  obtain ⟨L0, hall0⟩ := brun_all c d hN s0 h
  -- the commit
  have hh : holdingsleep pid s0 (.buf k) = true := by
    by_contra hc
    simp only [bwrite, hc, Bool.not_false, if_true] at hw
    cases hw
  have hl : (s0.buf k).lock ≠ none := holding_lock pid s0 k hh
  have hf0 : FirstOf c s0 L0 k := hall0.1.2.1 k hk (hall0.1.2.2 k hk hl)
  have e1 : s1 = diskWrite s0 (.buf k) := by
    simp only [bwrite, hh, Bool.not_true, Bool.false_eq_true, if_false] at hw
    injection hw with hw
    exact hw.symm
  have hstep1 : (Op.bwrite pid k).step c s0 = some s1 := by
    simp only [Op.step, if_pos hk, hw, Out.next]
  obtain ⟨L1, hall1, hfirst1, _, _⟩ := step_effect c s0 s1 L0 (.bwrite pid k) hN hall0 rfl hstep1
  have hd1 : s1.disk dev blockno = (s0.buf k).data := by
    rw [e1]
    simp [diskWrite, hid.1, hid.2]
  -- the release
  have hstep2 : (Op.brelse pid k).step c s1 = some s2 := by
    simp only [Op.step, if_pos hk, hr, Out.next]
  obtain ⟨L2, hall2, hfirst2, hdisk2, _⟩ := step_effect c s1 s2 L1 (.brelse pid k) hN hall1 rfl hstep2
  have hd2 : s2.disk dev blockno = (s0.buf k).data := (hdisk2 dev blockno rfl).trans hd1
  -- the calls up to the eviction
  obtain ⟨L3, hall3, hf3, hd3⟩ := run_quiet c hN k dev blockno _ opsA s2 s3 L2 hall2 hk
    (hfirst2 k hk (hfirst1 k hk hf0)) hd2 hA hcA hqA
  -- the eviction
  obtain ⟨L4, hall4, hu4, hd4⟩ := evict_uncached c s3 s4 L3 ev hN k dev blockno hall3 hk hf3
    hid3 hev hid4
  -- the calls after it
  obtain ⟨L5, hall5, hu5, hd5⟩ := run_uncached c hN dev blockno _ opsB s4 s5 L4 hall4 hu4
    (hd4.trans hd3) hB hcB hqB
  have := bread_uncached c pid2 s5 L5 dev blockno hN hall5 hu5
  rw [hd5] at this
  exact this

theorem bwrite_round_trip_witness :
    0 < exB.NBUCKET ∧ BRun exB exD exR0 ∧ 3 < exB.NBUF ∧
    ((exR0.buf 3).dev = 1 ∧ (exR0.buf 3).blockno = 0) ∧
    bwrite 1 exR0 (.buf 3) = .ret exR1 () ∧ brelse 1 exR1 (.buf 3) = .ret exR2 () ∧
    run exB exOpsA exR2 = some exR3 ∧ countedRun exB exOpsA exR2 = true ∧
    quietRun exB 1 0 exOpsA exR2 = true ∧
    ((exR3.buf 3).dev = 1 ∧ (exR3.buf 3).blockno = 0) ∧
    exEv.step exB exR3 = some exR4 ∧
    ¬ ((exR4.buf 3).dev = 1 ∧ (exR4.buf 3).blockno = 0) ∧
    run exB exOpsB exR4 = some exR5 ∧ countedRun exB exOpsB exR4 = true ∧
    (∀ op, op ∈ exOpsB → op.acquires 1 0 = false) ∧
    (((∃ x, x < exB.NBUF ∧ (exR5.buf x).refcnt = 0) →
      ∃ s6 x, bread exB 5 exR5 1 0 = .ret s6 (.buf x) ∧ x < exB.NBUF ∧
        (s6.buf x).dev = 1 ∧ (s6.buf x).blockno = 0 ∧ (s6.buf x).valid = 1 ∧
        (s6.buf x).lock = some 5 ∧ (s6.buf x).data = (exR0.buf 3).data ∧
        s6.reads = exR5.reads + 1) ∧
    ((¬ ∃ x, x < exB.NBUF ∧ (exR5.buf x).refcnt = 0) →
      bread exB 5 exR5 1 0 = .panic "bget: no buffers" exR5)) ∧
    (exR0.buf 3).data = [7] ∧ (exR3.buf 3).data = [9] ∧ exR3.disk 1 0 = [7] ∧
    (exR4.buf 3).blockno = 2 ∧ (exR5.buf 3).refcnt = 0 ∧
    bread exB 5 exR5 1 0 = .ret exR6 (.buf 3) ∧ (exR6.buf 3).data = [7] ∧
    (exR6.buf 3).blockno = 0 ∧ exR6.reads = 4 ∧ exR6.writes = 2 :=
  ⟨by decide, ⟨[.bread 1 1 0, .poke 1 3 [7]], rfl, rfl⟩, by decide, by decide, rfl, rfl, rfl,
    rfl, by decide, by decide, rfl, by decide, rfl, rfl, by decide,
    bwrite_round_trip exB exD exR0 exR1 exR2 exR3 exR4 exR5 1 5 3 1 0 exOpsA exOpsB exEv
      (by decide) ⟨[.bread 1 1 0, .poke 1 3 [7]], rfl, rfl⟩ (by decide) (by decide) rfl rfl rfl
      rfl (by decide) (by decide) rfl (by decide) rfl rfl (by decide),
    by decide, by decide, by decide, by decide, by decide, rfl, by decide, by decide,
    by decide, by decide⟩

end Xv6
